import Mathlib

/-!
Verification development for the diagram-tool core: entity model,
serialization, graph store with indexes and history (DiagramManager),
layout helpers, graph analysis and the validator.

Modelling conventions:
* Python floats are modelled as rationals (no claim here depends on
  floating-point rounding).
* `datetime` values are modelled by their ISO-8601 strings, so
  `isoformat` and `fromisoformat` are identities.
* Python `dict`s used as O(1) indexes are modelled as functions
  `String → Option _` (for object indexes) and `String → List String`
  (for the set-valued tag/type/incident-edge indexes).  The only
  operations the source performs on them are keyed get/set/membership,
  on which a missing key and an empty set are observationally equal.
* Python `set`s of strings are modelled as duplicate-free lists with
  `setAdd` / `setDiscard`; set iteration order never influences the
  final state of any modelled operation.
* JSON dicts handed to `from_json_dict` are modelled as structures of
  `Option` fields (`none` = key absent).
-/

namespace DiagramTool

/-- Python `set.add` on a set of strings modelled as a list. -/
def setAdd (s : List String) (x : String) : List String :=
  if x ∈ s then s else s ++ [x]

/-- Python `set.discard` on a set of strings modelled as a list. -/
def setDiscard (s : List String) (x : String) : List String :=
  s.filter (fun y => y ≠ x)

@[simp] theorem mem_setAdd {s : List String} {x y : String} :
    y ∈ setAdd s x ↔ y ∈ s ∨ y = x := by
  unfold setAdd
  by_cases h : x ∈ s
  · simp only [if_pos h]
    exact ⟨Or.inl, fun hy => hy.elim id (fun e => e ▸ h)⟩
  · simp [if_neg h]

@[simp] theorem mem_setDiscard {s : List String} {x y : String} :
    y ∈ setDiscard s x ↔ y ∈ s ∧ y ≠ x := by
  unfold setDiscard; simp

theorem nodup_setAdd {s : List String} (h : s.Nodup) (x : String) :
    (setAdd s x).Nodup := by
  unfold setAdd
  by_cases hx : x ∈ s
  · simpa [if_pos hx] using h
  · simp only [if_neg hx]
    simp [List.nodup_append, h, hx]

theorem nodup_setDiscard {s : List String} (h : s.Nodup) (x : String) :
    (setDiscard s x).Nodup :=
  h.filter _

/-- Update one key of a set-valued index (`index[key].add(v)` with
`index[key] = set()` inserted first when the key is fresh). -/
def idxAdd (idx : String → List String) (key v : String) :
    String → List String :=
  fun k => if k = key then setAdd (idx k) v else idx k

/-- `if key in index: index[key].discard(v)`.  Discarding from an
absent key is a no-op, which coincides with discarding from the empty
set in the function model. -/
def idxDiscard (idx : String → List String) (key v : String) :
    String → List String :=
  fun k => if k = key then setDiscard (idx k) v else idx k

@[simp] theorem mem_idxAdd {idx : String → List String} {key v k x : String} :
    x ∈ idxAdd idx key v k ↔ (x ∈ idx k ∨ (k = key ∧ x = v)) := by
  unfold idxAdd
  by_cases h : k = key <;> simp [h]

@[simp] theorem mem_idxDiscard {idx : String → List String} {key v k x : String} :
    x ∈ idxDiscard idx key v k ↔ (x ∈ idx k ∧ ¬(k = key ∧ x = v)) := by
  unfold idxDiscard
  by_cases h : k = key
  · simp [h]
  · simp [h]

/-- Keyed insertion into an object index (`index[key] = v`). -/
def omapSet {α : Type} (m : String → Option α) (key : String) (v : α) :
    String → Option α :=
  fun k => if k = key then some v else m k

/-- Keyed removal from an object index (`index.pop(key, None)`). -/
def omapDrop {α : Type} (m : String → Option α) (key : String) :
    String → Option α :=
  fun k => if k = key then none else m k

-- ========================= Entity model (core/models.py) ==============

/-- A node in the diagram (`core/models.py`, class `Node`). -/
structure Node where
  id : String
  label : String := "New Node"
  type : String := "component"
  shape : String := "rectangle"
  color : String := "#3478f6"
  x : Rat := 100
  y : Rat := 100
  width : Rat := 150
  height : Rat := 80
  tags : List String := []
  description : String := ""
  border_style : String := "solid"
  fill_opacity : Rat := 1
  z_index : Int := 0
  rotation : Rat := 0
  deriving DecidableEq, Repr

/-- An edge connecting two nodes (`core/models.py`, class `Edge`). -/
structure Edge where
  id : String
  source : String
  target : String
  label : String := ""
  source_side : Option String := none
  target_side : Option String := none
  color : String := "#666666"
  width : Rat := 2
  style : String := "solid"
  arrow_start : String := "none"
  arrow_end : String := "filled"
  arrow_size : Rat := 12
  deriving DecidableEq, Repr

/-- Diagram metadata; timestamps are carried as their ISO strings. -/
structure DiagramMetadata where
  created_at : String
  updated_at : String
  grid_size : Int := 20
  show_grid : Bool := true
  deriving DecidableEq, Repr

/-- The complete diagram structure (`core/models.py`, class `Diagram`). -/
structure Diagram where
  id : String
  name : String := "Untitled Diagram"
  nodes : List Node := []
  edges : List Edge := []
  metadata : DiagramMetadata
  deriving DecidableEq, Repr

-- =================== Serialized dict shapes and (de)serialization =====

/-- A JSON dict for a node; `none` means the key is absent. -/
structure NodeDict where
  id : Option String := none
  label : Option String := none
  type : Option String := none
  shape : Option String := none
  color : Option String := none
  x : Option Rat := none
  y : Option Rat := none
  width : Option Rat := none
  height : Option Rat := none
  tags : Option (List String) := none
  description : Option String := none
  border_style : Option String := none
  fill_opacity : Option Rat := none
  z_index : Option Int := none
  rotation : Option Rat := none
  deriving DecidableEq, Repr

/-- A JSON dict for an edge, including the legacy endpoint keys.
`fromKey`/`toKey` stand for the JSON keys `from`/`to`. -/
structure EdgeDict where
  id : Option String := none
  source : Option String := none
  target : Option String := none
  fromKey : Option String := none
  from_node : Option String := none
  toKey : Option String := none
  to_node : Option String := none
  label : Option String := none
  source_side : Option String := none
  target_side : Option String := none
  color : Option String := none
  width : Option Rat := none
  style : Option String := none
  arrow_start : Option String := none
  arrow_end : Option String := none
  arrow_size : Option Rat := none
  deriving DecidableEq, Repr

/-- A JSON dict for diagram metadata. -/
structure MetaDict where
  created_at : Option String := none
  updated_at : Option String := none
  grid_size : Option Int := none
  show_grid : Option Bool := none
  deriving DecidableEq, Repr

/-- A JSON dict for a whole diagram. -/
structure DiagramDict where
  id : Option String := none
  name : Option String := none
  nodes : List NodeDict := []
  edges : List EdgeDict := []
  metadata : MetaDict := {}
  deriving DecidableEq, Repr

/-- `Node.model_dump()`: every field serialized under its own key. -/
def Node.model_dump (n : Node) : NodeDict where
  id := some n.id
  label := some n.label
  type := some n.type
  shape := some n.shape
  color := some n.color
  x := some n.x
  y := some n.y
  width := some n.width
  height := some n.height
  tags := some n.tags
  description := some n.description
  border_style := some n.border_style
  fill_opacity := some n.fill_opacity
  z_index := some n.z_index
  rotation := some n.rotation

/-- `Node(**n)`: construct a node from a dict, with the class defaults
for absent keys.  `genId` models the `default_factory` id generator
and is consulted only when the dict carries no id. -/
def nodeFromDict (genId : String) (d : NodeDict) : Node where
  id := d.id.getD genId
  label := d.label.getD "New Node"
  type := d.type.getD "component"
  shape := d.shape.getD "rectangle"
  color := d.color.getD "#3478f6"
  x := d.x.getD 100
  y := d.y.getD 100
  width := d.width.getD 150
  height := d.height.getD 80
  tags := d.tags.getD []
  description := d.description.getD ""
  border_style := d.border_style.getD "solid"
  fill_opacity := d.fill_opacity.getD 1
  z_index := d.z_index.getD 0
  rotation := d.rotation.getD 0

/-- `Edge.convert_legacy_fields`: move `from`→`source`, `from_node`→`source`,
`to`→`target`, `to_node`→`target`, each only when the canonical key is
still absent, popping the legacy key that was consumed. -/
def convert_legacy_fields (d : EdgeDict) : EdgeDict :=
  let d1 := if d.fromKey.isSome ∧ d.source.isNone then
    { d with source := d.fromKey, fromKey := none } else d
  let d2 := if d1.from_node.isSome ∧ d1.source.isNone then
    { d1 with source := d1.from_node, from_node := none } else d1
  let d3 := if d2.toKey.isSome ∧ d2.target.isNone then
    { d2 with target := d2.toKey, toKey := none } else d2
  if d3.to_node.isSome ∧ d3.target.isNone then
    { d3 with target := d3.to_node, to_node := none } else d3

/-- `Edge(**e)`: legacy-field conversion, then validation (`source` and
`target` are required, a missing one raises) and construction with the
class defaults.  `genId` models the id `default_factory`. -/
def edgeFromDict (genId : String) (d : EdgeDict) : Option Edge :=
  let c := convert_legacy_fields d
  match c.source, c.target with
  | some src, some tgt => some {
      id := c.id.getD genId
      source := src
      target := tgt
      label := c.label.getD ""
      source_side := c.source_side
      target_side := c.target_side
      color := c.color.getD "#666666"
      width := c.width.getD 2
      style := c.style.getD "solid"
      arrow_start := c.arrow_start.getD "none"
      arrow_end := c.arrow_end.getD "filled"
      arrow_size := c.arrow_size.getD 12 }
  | _, _ => none

/-- `Edge.to_json_dict`: canonical keys only; the connection sides are
emitted only when truthy (absent for `None` and for the empty string). -/
def Edge.to_json_dict (e : Edge) : EdgeDict where
  id := some e.id
  source := some e.source
  target := some e.target
  label := some e.label
  color := some e.color
  width := some e.width
  style := some e.style
  arrow_start := some e.arrow_start
  arrow_end := some e.arrow_end
  arrow_size := some e.arrow_size
  source_side := match e.source_side with
    | some s => if s = "" then none else some s
    | none => none
  target_side := match e.target_side with
    | some s => if s = "" then none else some s
    | none => none

/-- `Diagram.to_json_dict`. -/
def Diagram.to_json_dict (d : Diagram) : DiagramDict where
  id := some d.id
  name := some d.name
  nodes := d.nodes.map Node.model_dump
  edges := d.edges.map Edge.to_json_dict
  metadata := {
    created_at := some d.metadata.created_at
    updated_at := some d.metadata.updated_at
    grid_size := some d.metadata.grid_size
    show_grid := some d.metadata.show_grid }

/-- `Diagram.from_json_dict`.  `now` models `datetime.utcnow()` and
`supply` the uuid-based id generators; both are consulted only for
absent keys.  A pydantic validation error (edge without endpoints)
is `none`. -/
def Diagram.from_json_dict (now : String) (supply : Nat → String)
    (data : DiagramDict) : Option Diagram := do
  let edges ← (data.edges.enum.mapM fun p => edgeFromDict (supply p.1) p.2)
  let nodes := data.nodes.enum.map fun p => nodeFromDict (supply p.1) p.2
  let meta := data.metadata
  some {
    id := data.id.getD (supply 0)
    name := data.name.getD "Untitled Diagram"
    nodes := nodes
    edges := edges
    metadata := {
      created_at := meta.created_at.getD now
      updated_at := meta.updated_at.getD now
      grid_size := meta.grid_size.getD 20
      show_grid := meta.show_grid.getD false } }

/-- Side values that survive the truthiness test in `Edge.to_json_dict`:
`None` or a non-empty string. -/
def sideOk : Option String → Prop
  | none => True
  | some s => s ≠ ""

instance (s : Option String) : Decidable (sideOk s) := by
  cases s with
  | none => exact isTrue trivial
  | some v => exact (inferInstance : Decidable (v ≠ ""))

/-- All connection sides of the diagram's edges are serializable
without loss. -/
def SidesOk (d : Diagram) : Prop :=
  ∀ e ∈ d.edges, sideOk e.source_side ∧ sideOk e.target_side

instance (d : Diagram) : Decidable (SidesOk d) := by
  unfold SidesOk; infer_instance

-- ===================== Validator (core/validation.py) =================

/-- Severity levels for validation issues. -/
inductive IssueSeverity where
  | error
  | warning
  | info
  deriving DecidableEq, Repr

/-- A single validation issue found in a diagram. -/
structure ValidationIssue where
  severity : IssueSeverity
  message : String
  node_id : Option String := none
  edge_id : Option String := none
  deriving DecidableEq, Repr

/-- The whitespace set of Python `str.strip()` (ASCII part; the
claims never exercise non-ASCII whitespace). -/
def pySpace (c : Char) : Bool :=
  c = ' ' || c = '\t' || c = '\n' || c = '\r' || c = '\x0b' || c = '\x0c'

/-- Python `str.strip()`: drop leading and trailing whitespace. -/
def pyStrip (s : String) : String :=
  (((s.data.dropWhile pySpace).reverse.dropWhile pySpace).reverse).asString

/-- The per-node label test of the validator:
`not node.label or node.label.strip() == "" or node.label == "New Node"`. -/
def labelMissing (label : String) : Bool :=
  label = "" || pyStrip label = "" || label = "New Node"

/-- `validate_diagram`: orphan nodes, default labels, dangling edge
endpoints, self loops and duplicate `(source, target)` pairs, reported
in this fixed order; an empty diagram short-circuits to one info issue. -/
def validate_diagram (d : Diagram) : List ValidationIssue :=
  let nodes := d.nodes
  let edges := d.edges
  let node_ids := nodes.map Node.id
  if nodes = [] then
    [{ severity := .info, message := "Diagram has no nodes" }]
  else
    let connected := edges.foldl (fun s e => setAdd (setAdd s e.source) e.target) []
    let orphanNodes := nodes.filter (fun n => decide (n.id ∉ connected))
    let orphanIssues : List ValidationIssue :=
      if orphanNodes = [] then [] else
        [{ severity := .warning,
           message := "Orphan nodes (no connections): " ++
             String.intercalate ", "
               (orphanNodes.map (fun n => n.label ++ " (" ++ n.id ++ ")")) }]
    let labelIssues : List ValidationIssue := nodes.filterMap (fun n =>
      if labelMissing n.label then
        some { severity := .warning,
               message := "Node has default or empty label",
               node_id := some n.id }
      else none)
    let refIssues : List ValidationIssue := edges.foldl (fun acc e =>
      (acc ++
        (if e.source ∉ node_ids then
          [{ severity := .error,
             message := "Edge references non-existent source node: " ++ e.source,
             edge_id := some e.id }] else []) ++
        (if e.target ∉ node_ids then
          [{ severity := .error,
             message := "Edge references non-existent target node: " ++ e.target,
             edge_id := some e.id }] else []))) []
    let selfIssues : List ValidationIssue := edges.filterMap (fun e =>
      if e.source = e.target then
        some { severity := .warning,
               message := "Self-referencing edge (node points to itself)",
               edge_id := some e.id,
               node_id := some e.source }
      else none)
    let dupIssues : List ValidationIssue :=
      (edges.foldl (fun (acc : List ValidationIssue × List (String × String)) e =>
        if (e.source, e.target) ∈ acc.2 then
          (acc.1 ++
            [{ severity := .warning,
               message := "Duplicate edge from " ++ e.source ++ " to " ++ e.target,
               edge_id := some e.id }], acc.2)
        else (acc.1, acc.2 ++ [(e.source, e.target)])) ([], [])).1
    orphanIssues ++ labelIssues ++ refIssues ++ selfIssues ++ dupIssues

-- ============== Graph analysis (src/core/analysis.py) =================

/-- The directed adjacency map built by `find_cycles` / `find_paths`:
`adjacency[edge.source].append(edge.target)` over the edge list. -/
def adjOf (edges : List Edge) : String → List String :=
  edges.foldl (fun f e => fun k => if k = e.source then f k ++ [e.target] else f k)
    (fun _ => [])

/-- The recursive DFS of `find_cycles`.  `fuel` only bounds the
recursion depth for Lean; each recursive call strictly grows `visited`
with a node drawn from the adjacency targets, so
`edges.length + 1` fuel reproduces the Python recursion exactly. -/
def cycleDfs (adj : String → List String) (start : String) :
    Nat → String → List String → List String → List (List String)
  | 0, _, _, _ => []
  | fuel + 1, current, path, visited =>
    (adj current).foldl (fun acc neighbor => acc ++
      (if neighbor = start ∧ path.length > 1 then [path ++ [start]]
       else if neighbor ∉ visited then
         cycleDfs adj start fuel neighbor (path ++ [neighbor]) (visited ++ [neighbor])
       else [])) []

/-- The final deduplication pass of `find_cycles`: a cycle is kept only
when the frozenset of its members (the repeated start dropped) was not
seen before. -/
def dedupCycles (cycles : List (List String)) : List (List String) :=
  (cycles.foldl (fun (acc : List (List String) × List (Finset String)) cycle =>
    let key := cycle.dropLast.toFinset
    if key ∈ acc.2 then acc else (acc.1 ++ [cycle], acc.2 ++ [key])) ([], [])).1

/-- `find_cycles`: DFS from every node not already used as a start,
then deduplicate by member set. -/
def find_cycles (d : Diagram) : List (List String) :=
  let adj := adjOf d.edges
  let raw := (d.nodes.foldl
    (fun (acc : List (List String) × List String) node =>
      if node.id ∈ acc.2 then acc
      else
        (acc.1 ++ cycleDfs adj node.id (d.edges.length + 1) node.id [node.id] [node.id],
         acc.2 ++ [node.id])) ([], [])).1
  dedupCycles raw

-- ================== Layout helpers (src/core/layout.py) ===============

instance : Inhabited Node := ⟨{ id := "" }⟩

instance : Inhabited Edge := ⟨{ id := "", source := "", target := "" }⟩

/-- Minimum of a list of rationals with a seed (used on lists known to
be non-empty, seeded with their first element). -/
def ratMin (seed : Rat) (l : List Rat) : Rat := l.foldl min seed

/-- Maximum of a list of rationals with a seed. -/
def ratMax (seed : Rat) (l : List Rat) : Rat := l.foldl max seed

/-- Sum of a list of rationals. -/
def ratSum (l : List Rat) : Rat := l.foldl (· + ·) 0

/-- `align_nodes` from `src/core/layout.py`.  Python mutates the
selected node objects in place and returns a success flag; here the
updated node list is returned alongside the flag.  Node ids are unique
by the data-model invariant, so updating by id matches the in-place
object mutation. -/
def align_nodes (nodes : List Node) (node_ids : List String)
    (alignment : String) : Bool × List Node :=
  let targets := nodes.filter (fun n => decide (n.id ∈ node_ids))
  if targets.length < 2 then (false, nodes)
  else if alignment = "left" then
    let m := ratMin ((targets.headD default).x) (targets.map Node.x)
    (true, nodes.map (fun n => if n.id ∈ node_ids then { n with x := m } else n))
  else if alignment = "right" then
    let m := ratMax ((targets.headD default).x + (targets.headD default).width)
      (targets.map (fun n => n.x + n.width))
    (true, nodes.map (fun n => if n.id ∈ node_ids then { n with x := m - n.width } else n))
  else if alignment = "top" then
    let m := ratMin ((targets.headD default).y) (targets.map Node.y)
    (true, nodes.map (fun n => if n.id ∈ node_ids then { n with y := m } else n))
  else if alignment = "bottom" then
    let m := ratMax ((targets.headD default).y + (targets.headD default).height)
      (targets.map (fun n => n.y + n.height))
    (true, nodes.map (fun n => if n.id ∈ node_ids then { n with y := m - n.height } else n))
  else if alignment = "center_h" then
    let c := ratSum (targets.map (fun n => n.x + n.width / 2)) / (targets.length : Rat)
    (true, nodes.map (fun n => if n.id ∈ node_ids then { n with x := c - n.width / 2 } else n))
  else if alignment = "center_v" then
    let c := ratSum (targets.map (fun n => n.y + n.height / 2)) / (targets.length : Rat)
    (true, nodes.map (fun n => if n.id ∈ node_ids then { n with y := c - n.height / 2 } else n))
  else (false, nodes)

/-- `distribute_nodes` from `src/core/layout.py`: sort the selected
nodes along the axis (Python `list.sort` is stable, as is `mergeSort`),
then respace them evenly between the first and last position. -/
def distribute_nodes (nodes : List Node) (node_ids : List String)
    (axis : String) : Bool × List Node :=
  let targets := nodes.filter (fun n => decide (n.id ∈ node_ids))
  if targets.length < 3 then (false, nodes)
  else if axis = "horizontal" then
    let sorted := targets.mergeSort (fun a b => a.x ≤ b.x)
    let minv := (sorted.headD default).x
    let maxv := (sorted.getLastD default).x
    let spacing := (maxv - minv) / ((targets.length - 1 : Nat) : Rat)
    let assigned := sorted.enum.map (fun p => (p.2.id, minv + (p.1 : Rat) * spacing))
    (true, nodes.map (fun n =>
      match assigned.lookup n.id with
      | some v => { n with x := v }
      | none => n))
  else if axis = "vertical" then
    let sorted := targets.mergeSort (fun a b => a.y ≤ b.y)
    let minv := (sorted.headD default).y
    let maxv := (sorted.getLastD default).y
    let spacing := (maxv - minv) / ((targets.length - 1 : Nat) : Rat)
    let assigned := sorted.enum.map (fun p => (p.2.id, minv + (p.1 : Rat) * spacing))
    (true, nodes.map (fun n =>
      match assigned.lookup n.id with
      | some v => { n with y := v }
      | none => n))
  else (false, nodes)

-- ============ DiagramManager (backend/diagram_manager.py) =============

/-- The manager's mutable state: the active diagram, undo/redo stacks
of full JSON snapshots (head = newest), the history bound, the dirty
flag and the five O(1) lookup indexes. -/
structure MState where
  diagram : Option Diagram
  history : List DiagramDict
  future : List DiagramDict
  max_history : Nat
  dirty : Bool
  node_index : String → Option Node
  edge_index : String → Option Edge
  tag_index : String → List String
  type_index : String → List String
  edges_by_node : String → List String

/-- `DiagramManager.__init__`. -/
def initManager (max_history : Nat := 100) : MState where
  diagram := none
  history := []
  future := []
  max_history := max_history
  dirty := false
  node_index := fun _ => none
  edge_index := fun _ => none
  tag_index := fun _ => []
  type_index := fun _ => []
  edges_by_node := fun _ => []

/-- `_index_node`. -/
def indexNode (s : MState) (n : Node) : MState :=
  { s with
    node_index := omapSet s.node_index n.id n
    tag_index := n.tags.foldl (fun ix tg => idxAdd ix tg n.id) s.tag_index
    type_index := idxAdd s.type_index n.type n.id }

/-- `_unindex_node`. -/
def unindexNode (s : MState) (n : Node) : MState :=
  { s with
    node_index := omapDrop s.node_index n.id
    tag_index := n.tags.foldl (fun ix tg => idxDiscard ix tg n.id) s.tag_index
    type_index := idxDiscard s.type_index n.type n.id }

/-- `_index_edge`. -/
def indexEdge (s : MState) (e : Edge) : MState :=
  { s with
    edge_index := omapSet s.edge_index e.id e
    edges_by_node := idxAdd (idxAdd s.edges_by_node e.source e.id) e.target e.id }

/-- `_unindex_edge`. -/
def unindexEdge (s : MState) (e : Edge) : MState :=
  { s with
    edge_index := omapDrop s.edge_index e.id
    edges_by_node := idxDiscard (idxDiscard s.edges_by_node e.source e.id) e.target e.id }

/-- `_rebuild_indexes`: recompute every index from the collections.
The Python loop fills all node indexes in one pass; the three
independent folds below are the same assignment sequence per index. -/
def rebuild_indexes (s : MState) : MState :=
  match s.diagram with
  | none =>
    { s with
      node_index := fun _ => none
      edge_index := fun _ => none
      tag_index := fun _ => []
      type_index := fun _ => []
      edges_by_node := fun _ => [] }
  | some d =>
    { s with
      node_index := d.nodes.foldl (fun m n => omapSet m n.id n) (fun _ => none)
      tag_index := d.nodes.foldl (fun ix n =>
        n.tags.foldl (fun ix2 tg => idxAdd ix2 tg n.id) ix) (fun _ => [])
      type_index := d.nodes.foldl (fun ix n => idxAdd ix n.type n.id) (fun _ => [])
      edge_index := d.edges.foldl (fun m e => omapSet m e.id e) (fun _ => none)
      edges_by_node := d.edges.foldl (fun ix e =>
        idxAdd (idxAdd ix e.source e.id) e.target e.id) (fun _ => []) }

/-- `_save_to_history`: clear the redo stack, push the serialized
current state, evict the oldest entry when the bound is exceeded. -/
def save_to_history (s : MState) : MState :=
  match s.diagram with
  | none => s
  | some d =>
    let h := d.to_json_dict :: s.history
    { s with
      future := []
      history := if h.length > s.max_history then h.dropLast else h }

/-- `_restore_from_snapshot`.  The clock and id-generator arguments of
`from_json_dict` are never consulted on full snapshots. -/
def restore_from_snapshot (snapshot : DiagramDict) : Option Diagram :=
  Diagram.from_json_dict "1970-01-01T00:00:00" (fun i => "gen" ++ toString i) snapshot

/-- `new_diagram`.  `now` models the metadata timestamp clock and
`did` the generated diagram id. -/
def new_diagram (s : MState) (now did : String)
    (name : String := "Untitled Diagram") : MState :=
  rebuild_indexes
    { s with
      diagram := some
        { id := did, name := name, nodes := [], edges := []
          metadata := { created_at := now, updated_at := now } }
      history := []
      future := []
      dirty := false }

/-- `undo`: no-op (Python returns `None`) when the history stack is
empty or no diagram is active; a failed snapshot parse (a raised
pydantic error, impossible on real snapshots) is `none`. -/
def undo (s : MState) : Option MState :=
  match s.history, s.diagram with
  | top :: rest, some d =>
    match restore_from_snapshot top with
    | some d' =>
      some (rebuild_indexes
        { s with
          diagram := some d'
          history := rest
          future := d.to_json_dict :: s.future
          dirty := true })
    | none => none
  | _, _ => some s

/-- `redo`: symmetric to `undo` on the future stack. -/
def redo (s : MState) : Option MState :=
  match s.future, s.diagram with
  | top :: rest, some d =>
    match restore_from_snapshot top with
    | some d' =>
      some (rebuild_indexes
        { s with
          diagram := some d'
          future := rest
          history := d.to_json_dict :: s.history
          dirty := true })
    | none => none
  | _, _ => some s

/-- Iterated `undo`. -/
def undoN : Nat → MState → Option MState
  | 0, s => some s
  | n + 1, s => (undo s).bind (undoN n)

/-- Iterated `redo`. -/
def redoN : Nat → MState → Option MState
  | 0, s => some s
  | n + 1, s => (redo s).bind (redoN n)

-- Partial-update request shapes (core/models.py).

/-- `UpdateNodeRequest`: one optional slot per updatable node field. -/
structure UpdateNodeRequest where
  label : Option String := none
  type : Option String := none
  shape : Option String := none
  color : Option String := none
  x : Option Rat := none
  y : Option Rat := none
  width : Option Rat := none
  height : Option Rat := none
  tags : Option (List String) := none
  description : Option String := none
  border_style : Option String := none
  fill_opacity : Option Rat := none
  z_index : Option Int := none
  rotation : Option Rat := none
  deriving DecidableEq, Repr

/-- `update_node`'s field loop: `setattr` for every supplied
(non-`None`) field, leaving the rest untouched. -/
def applyNodeUpdate (n : Node) (r : UpdateNodeRequest) : Node where
  id := n.id
  label := r.label.getD n.label
  type := r.type.getD n.type
  shape := r.shape.getD n.shape
  color := r.color.getD n.color
  x := r.x.getD n.x
  y := r.y.getD n.y
  width := r.width.getD n.width
  height := r.height.getD n.height
  tags := r.tags.getD n.tags
  description := r.description.getD n.description
  border_style := r.border_style.getD n.border_style
  fill_opacity := r.fill_opacity.getD n.fill_opacity
  z_index := r.z_index.getD n.z_index
  rotation := r.rotation.getD n.rotation

/-- `UpdateEdgeRequest`. -/
structure UpdateEdgeRequest where
  label : Option String := none
  color : Option String := none
  width : Option Rat := none
  style : Option String := none
  arrow_start : Option String := none
  arrow_end : Option String := none
  arrow_size : Option Rat := none
  source_side : Option String := none
  target_side : Option String := none
  deriving DecidableEq, Repr

/-- `update_edge`'s field loop. -/
def applyEdgeUpdate (e : Edge) (r : UpdateEdgeRequest) : Edge where
  id := e.id
  source := e.source
  target := e.target
  label := r.label.getD e.label
  source_side := r.source_side.or e.source_side
  target_side := r.target_side.or e.target_side
  color := r.color.getD e.color
  width := r.width.getD e.width
  style := r.style.getD e.style
  arrow_start := r.arrow_start.getD e.arrow_start
  arrow_end := r.arrow_end.getD e.arrow_end
  arrow_size := r.arrow_size.getD e.arrow_size

/-- How a manager call ends: a normal return, a sentinel `None` /
`False` return for a missing id, or a raised `ValueError`. -/
inductive OpOutcome where
  | ok
  | returnedNone
  | returnedFalse
  | valueError (msg : String)
  deriving DecidableEq, Repr

/-- `add_node`.  `n` is the node built by `Node(**kwargs)` (defaults
already applied, id generated or supplied). -/
def add_node (s : MState) (n : Node) : MState × OpOutcome :=
  match s.diagram with
  | none => (s, .valueError "No diagram open")
  | some d =>
    let s1 := save_to_history s
    let s2 := indexNode
      { s1 with diagram := some { d with nodes := d.nodes ++ [n] } } n
    ({ s2 with dirty := true }, .ok)

/-- `update_node`.  Python mutates the node object aliased by both the
node list and `_node_index`; with unique ids this is the by-id update
below. -/
def update_node (s : MState) (node_id : String) (r : UpdateNodeRequest) :
    MState × OpOutcome :=
  match s.diagram with
  | none => (s, .valueError "No diagram open")
  | some d =>
    match s.node_index node_id with
    | none => (s, .returnedNone)
    | some node =>
      let s1 := save_to_history s
      let old_tags := node.tags
      let old_type := node.type
      let newNode := applyNodeUpdate node r
      let new_tags := newNode.tags
      -- tag-delta migration; when the tag sets are equal both delta
      -- lists are empty, so the Python `old_tags != new_tags` guard is
      -- redundant here
      let ti := (new_tags.filter (fun t => decide (t ∉ old_tags))).foldl
        (fun ix t => idxAdd ix t node_id)
        ((old_tags.filter (fun t => decide (t ∉ new_tags))).foldl
          (fun ix t => idxDiscard ix t node_id) s1.tag_index)
      let ty := if old_type = newNode.type then s1.type_index
        else idxAdd (idxDiscard s1.type_index old_type node_id) newNode.type node_id
      let nodes2 := d.nodes.map
        (fun m => if m.id = node_id then applyNodeUpdate m r else m)
      ({ s1 with
          diagram := some { d with nodes := nodes2 }
          node_index := omapSet s1.node_index node_id newNode
          tag_index := ti
          type_index := ty
          dirty := true }, .ok)

/-- `delete_node`: remove the node, unindex it, cascade over the
incident-edge index, removing and unindexing each hit. -/
def delete_node (s : MState) (node_id : String) : MState × OpOutcome :=
  match s.diagram with
  | none => (s, .valueError "No diagram open")
  | some d =>
    match s.node_index node_id with
    | none => (s, .returnedFalse)
    | some node =>
      let s1 := save_to_history s
      let d2 := { d with nodes := d.nodes.filter (fun n => decide (n.id ≠ node_id)) }
      let s2 := unindexNode { s1 with diagram := some d2 } node
      let connected := s2.edges_by_node node_id
      let s3 := connected.foldl (fun st eid =>
        match st.edge_index eid with
        | none => st
        | some edge =>
          unindexEdge
            { st with diagram := st.diagram.map (fun dd =>
                { dd with edges := dd.edges.filter (fun e => decide (e.id ≠ eid)) }) }
            edge) s2
      ({ s3 with dirty := true }, .ok)

/-- `add_edge`.  `eid` is the generated edge id; `source`/`target` are
the values after the legacy-parameter `or`, with `""` standing for a
falsy (absent) endpoint. -/
def add_edge (s : MState) (eid source target : String) (label : String)
    (source_side target_side : Option String) : MState × OpOutcome :=
  match s.diagram with
  | none => (s, .valueError "No diagram open")
  | some d =>
    if source = "" ∨ target = "" then
      (s, .valueError "Both source and target nodes must be specified")
    else if (s.node_index source).isNone then
      (s, .valueError ("Source node not found: " ++ source))
    else if (s.node_index target).isNone then
      (s, .valueError ("Target node not found: " ++ target))
    else
      let s1 := save_to_history s
      let edge : Edge :=
        { id := eid, source := source, target := target, label := label
          source_side := source_side, target_side := target_side }
      let s2 := indexEdge
        { s1 with diagram := some { d with edges := d.edges ++ [edge] } } edge
      ({ s2 with dirty := true }, .ok)

/-- `update_edge`. -/
def update_edge (s : MState) (edge_id : String) (r : UpdateEdgeRequest) :
    MState × OpOutcome :=
  match s.diagram with
  | none => (s, .valueError "No diagram open")
  | some d =>
    match s.edge_index edge_id with
    | none => (s, .returnedNone)
    | some edge =>
      let s1 := save_to_history s
      let newEdge := applyEdgeUpdate edge r
      let edges2 := d.edges.map
        (fun e => if e.id = edge_id then applyEdgeUpdate e r else e)
      ({ s1 with
          diagram := some { d with edges := edges2 }
          edge_index := omapSet s1.edge_index edge_id newEdge
          dirty := true }, .ok)

/-- `delete_edge`. -/
def delete_edge (s : MState) (edge_id : String) : MState × OpOutcome :=
  match s.diagram with
  | none => (s, .valueError "No diagram open")
  | some d =>
    match s.edge_index edge_id with
    | none => (s, .returnedFalse)
    | some edge =>
      let s1 := save_to_history s
      let d2 := { d with edges := d.edges.filter (fun e => decide (e.id ≠ edge_id)) }
      let s2 := unindexEdge { s1 with diagram := some d2 } edge
      ({ s2 with dirty := true }, .ok)

/-- One node's pass inside `bulk_update_tags`: append each missing tag
(updating the tag index), then remove each present tag (first
occurrence, updating the index). -/
def bulkStep (add_tags remove_tags : List String) (st : MState) (nid : String) :
    MState × Bool :=
  match st.node_index nid with
  | none => (st, false)
  | some node =>
    let p1 := add_tags.foldl (fun (p : Node × (String → List String)) tg =>
      if tg ∈ p.1.tags then p
      else ({ p.1 with tags := p.1.tags ++ [tg] }, idxAdd p.2 tg nid)) (node, st.tag_index)
    let p2 := remove_tags.foldl (fun (p : Node × (String → List String)) tg =>
      if tg ∈ p.1.tags then ({ p.1 with tags := p.1.tags.erase tg }, idxDiscard p.2 tg nid)
      else p) p1
    ({ st with
        diagram := st.diagram.map (fun d =>
          { d with nodes := d.nodes.map (fun m => if m.id = nid then p2.1 else m) })
        node_index := omapSet st.node_index nid p2.1
        tag_index := p2.2 }, true)

/-- `bulk_update_tags`.  A falsy (`None` or empty) tag argument skips
its loop, which coincides with folding the empty list; the dirty flag
is set only when at least one node id was found. -/
def bulk_update_tags (s : MState) (node_ids : List String)
    (add_tags remove_tags : Option (List String)) : MState × OpOutcome :=
  match s.diagram with
  | none => (s, .valueError "No diagram open")
  | some _ =>
    let s1 := save_to_history s
    let r := node_ids.foldl (fun (p : MState × Bool) nid =>
      let q := bulkStep (add_tags.getD []) (remove_tags.getD []) p.1 nid
      (q.1, p.2 || q.2)) (s1, false)
    if r.2 then ({ r.1 with dirty := true }, .ok) else (r.1, .ok)

/-- `update_diagram_info`. -/
def update_diagram_info (s : MState) (name : Option String)
    (grid_size : Option Int) (show_grid : Option Bool) : MState × OpOutcome :=
  match s.diagram with
  | none => (s, .valueError "No diagram open")
  | some d =>
    let s1 := save_to_history s
    ({ s1 with
        diagram := some
          { d with
            name := name.getD d.name
            metadata :=
              { d.metadata with
                grid_size := grid_size.getD d.metadata.grid_size
                show_grid := show_grid.getD d.metadata.show_grid } }
        dirty := true }, .ok)

/-- After a layout call Python has mutated node objects shared with
`_node_index`; re-reading each indexed id from the updated list models
that aliasing. -/
def refreshNodeIndex (idx : String → Option Node) (nodes : List Node) :
    String → Option Node :=
  fun k => (idx k).map (fun n => ((nodes.find? (fun m => m.id = n.id)).getD n))

/-- `DiagramManager.align_nodes`: history is saved before the core
alignment (and its node-count check) runs. -/
def mgr_align_nodes (s : MState) (node_ids : List String) (alignment : String) :
    MState × Bool :=
  match s.diagram with
  | none => (s, false)
  | some d =>
    let s1 := save_to_history s
    let r := align_nodes d.nodes node_ids alignment
    let s2 := { s1 with
      diagram := some { d with nodes := r.2 }
      node_index := refreshNodeIndex s1.node_index r.2 }
    if r.1 then ({ s2 with dirty := true }, true) else (s2, false)

/-- `DiagramManager.distribute_nodes`: same structure as alignment. -/
def mgr_distribute_nodes (s : MState) (node_ids : List String) (axis : String) :
    MState × Bool :=
  match s.diagram with
  | none => (s, false)
  | some d =>
    let s1 := save_to_history s
    let r := distribute_nodes d.nodes node_ids axis
    let s2 := { s1 with
      diagram := some { d with nodes := r.2 }
      node_index := refreshNodeIndex s1.node_index r.2 }
    if r.1 then ({ s2 with dirty := true }, true) else (s2, false)

-- ===================== Operation sequences ============================

/-- One incremental mutating operation of the graph store. -/
inductive Op where
  | addNode (n : Node)
  | updateNode (node_id : String) (r : UpdateNodeRequest)
  | deleteNode (node_id : String)
  | addEdge (eid source target label : String)
      (source_side target_side : Option String)
  | updateEdge (edge_id : String) (r : UpdateEdgeRequest)
  | deleteEdge (edge_id : String)
  | bulkUpdateTags (node_ids : List String)
      (add_tags remove_tags : Option (List String))
  | updateDiagramInfo (name : Option String) (grid_size : Option Int)
      (show_grid : Option Bool)

/-- Dispatch one operation. -/
def applyOp (s : MState) : Op → MState × OpOutcome
  | .addNode n => add_node s n
  | .updateNode node_id r => update_node s node_id r
  | .deleteNode node_id => delete_node s node_id
  | .addEdge eid src tgt lbl ss ts => add_edge s eid src tgt lbl ss ts
  | .updateEdge edge_id r => update_edge s edge_id r
  | .deleteEdge edge_id => delete_edge s edge_id
  | .bulkUpdateTags ids a r => bulk_update_tags s ids a r
  | .updateDiagramInfo n g sg => update_diagram_info s n g sg

/-- Run a sequence of operations; the flag records whether every one
of them completed normally (outcome `ok`). -/
def runOps (s : MState) (ops : List Op) : MState × Bool :=
  ops.foldl (fun (p : MState × Bool) op =>
    let q := applyOp p.1 op
    (q.1, p.2 && decide (q.2 = .ok))) (s, true)

/-- The folded step of `runOps`, named for use in proofs;
definitionally equal to the inline lambda. -/
def opsStep (p : MState × Bool) (op : Op) : MState × Bool :=
  let q := applyOp p.1 op
  (q.1, p.2 && decide (q.2 = .ok))

-- ========================= HTTP error mapping =========================

/-- The HTTP layer's view of one mutation call (`backend/main.py`). -/
inductive ApiResult where
  | success
  | httpError (status : Nat) (detail : String)
  deriving DecidableEq, Repr

/-- Translate a manager outcome the way the node endpoints do: a falsy
return (`None`/`False`) becomes 404, a `ValueError` becomes 400. -/
def nodeEndpointResult : OpOutcome → ApiResult
  | .ok => .success
  | .returnedNone => .httpError 404 "Node not found"
  | .returnedFalse => .httpError 404 "Node not found"
  | .valueError m => .httpError 400 m

/-- Same for the edge endpoints. -/
def edgeEndpointResult : OpOutcome → ApiResult
  | .ok => .success
  | .returnedNone => .httpError 404 "Edge not found"
  | .returnedFalse => .httpError 404 "Edge not found"
  | .valueError m => .httpError 400 m

/-- `PATCH /api/nodes/{node_id}`. -/
def api_update_node (s : MState) (node_id : String) (r : UpdateNodeRequest) :
    MState × ApiResult :=
  let q := update_node s node_id r
  (q.1, nodeEndpointResult q.2)

/-- `DELETE /api/nodes/{node_id}`. -/
def api_delete_node (s : MState) (node_id : String) : MState × ApiResult :=
  let q := delete_node s node_id
  (q.1, nodeEndpointResult q.2)

/-- `PATCH /api/edges/{edge_id}`. -/
def api_update_edge (s : MState) (edge_id : String) (r : UpdateEdgeRequest) :
    MState × ApiResult :=
  let q := update_edge s edge_id r
  (q.1, edgeEndpointResult q.2)

/-- `DELETE /api/edges/{edge_id}`. -/
def api_delete_edge (s : MState) (edge_id : String) : MState × ApiResult :=
  let q := delete_edge s edge_id
  (q.1, edgeEndpointResult q.2)

-- ===================== Well-formedness and invariant ==================

/-- The live node collection. -/
def liveNodes (s : MState) : List Node :=
  match s.diagram with
  | some d => d.nodes
  | none => []

/-- The live edge collection. -/
def liveEdges (s : MState) : List Edge :=
  match s.diagram with
  | some d => d.edges
  | none => []

/-- An object index agrees with its collection: every element is found
under its key, and everything found is an element under its key. -/
def IdxCorr {α : Type} (key : α → String) (idx : String → Option α)
    (l : List α) : Prop :=
  (∀ a ∈ l, idx (key a) = some a) ∧ (∀ k a, idx k = some a → a ∈ l ∧ key a = k)

/-- The store invariant: unique ids, object indexes in sync with the
collections, and the three set-valued indexes exactly describing the
live data.  Node tag lists are duplicate-free, as the data model's
"set of tags" requires. -/
structure Inv (s : MState) : Prop where
  nodupNodes : ((liveNodes s).map Node.id).Nodup
  nodupEdges : ((liveEdges s).map Edge.id).Nodup
  nodeCorr : IdxCorr Node.id s.node_index (liveNodes s)
  edgeCorr : IdxCorr Edge.id s.edge_index (liveEdges s)
  tagCorr : ∀ t i, i ∈ s.tag_index t ↔ ∃ n ∈ liveNodes s, n.id = i ∧ t ∈ n.tags
  typeCorr : ∀ ty i, i ∈ s.type_index ty ↔ ∃ n ∈ liveNodes s, n.id = i ∧ n.type = ty
  incCorr : ∀ v ei, ei ∈ s.edges_by_node v ↔
    ∃ e ∈ liveEdges s, e.id = ei ∧ (e.source = v ∨ e.target = v)
  tagsNodup : ∀ n ∈ liveNodes s, n.tags.Nodup

/-- Input discipline for one operation: generated ids are fresh, tag
lists are duplicate-free, and connection sides are serializable. -/
def WFOp (s : MState) : Op → Prop
  | .addNode n => (∀ m ∈ liveNodes s, m.id ≠ n.id) ∧ n.tags.Nodup
  | .updateNode _ r => ∀ l, r.tags = some l → l.Nodup
  | .addEdge eid _ _ _ ss ts =>
      (∀ e ∈ liveEdges s, e.id ≠ eid) ∧ sideOk ss ∧ sideOk ts
  | .updateEdge _ r =>
      (∀ v, r.source_side = some v → v ≠ "") ∧
      (∀ v, r.target_side = some v → v ≠ "")
  | _ => True

/-- Input discipline along a whole sequence. -/
def WFOps : MState → List Op → Prop
  | _, [] => True
  | s, op :: rest => WFOp s op ∧ WFOps (applyOp s op).1 rest

/-- One iteration of `delete_node`'s cascade loop, named for reuse in
proofs; definitionally equal to the inline loop body. -/
def cascadeStep : MState → String → MState := fun st eid =>
  match st.edge_index eid with
  | none => st
  | some edge =>
    unindexEdge
      { st with diagram := st.diagram.map (fun dd =>
          { dd with edges := dd.edges.filter (fun e => decide (e.id ≠ eid)) }) }
      edge

/-- The state of `delete_node` after removing and unindexing the node,
just before the cascade loop. -/
def delete_node_mid (s : MState) (d : Diagram) (node_id : String) (node : Node) :
    MState :=
  let d2 := { d with nodes := d.nodes.filter (fun n => decide (n.id ≠ node_id)) }
  unindexNode { save_to_history s with diagram := some d2 } node

-- ===================== Concrete states for witnesses ==================

/-- A directed closed walk: at least two entries, first and last node
equal, consecutive entries joined by adjacency. -/
def IsCycleOf (adj : String → List String) (p : List String) : Prop :=
  2 ≤ p.length ∧ p.head? = p.getLast? ∧ p.Chain' (fun a b => b ∈ adj a)

/-- A graph (given by its adjacency map) with no directed closed walk. -/
def Acyclic (adj : String → List String) : Prop := ¬ ∃ p, IsCycleOf adj p

/-- The three-node directed triangle `A→B`, `B→C`, `C→A`. -/
def triangleDiagram : Diagram :=
  { id := "tri", nodes := [{ id := "A" }, { id := "B" }, { id := "C" }]
    edges := [{ id := "e1", source := "A", target := "B" }, { id := "e2", source := "B", target := "C" }, { id := "e3", source := "C", target := "A" }]
    metadata := { created_at := "t", updated_at := "t" } }

/-- A one-node, zero-edge diagram (acyclic), for the C7 witness. -/
def acyclicDiagram : Diagram :=
  { id := "ac", nodes := [{ id := "X" }], edges := []
    metadata := { created_at := "t", updated_at := "t" } }

/-- An edge dict whose endpoints are given only through the legacy
`from`/`to` keys. -/
def legacyEndpoints (base : EdgeDict) (a b : String) : EdgeDict :=
  { base with source := none, fromKey := some a, from_node := none, target := none, toKey := some b, to_node := none }

/-- The same edge dict with canonical `source`/`target` keys instead. -/
def canonicalEndpoints (base : EdgeDict) (a b : String) : EdgeDict :=
  { base with source := some a, fromKey := none, from_node := none, target := some b, toKey := none, to_node := none }

/-- A concrete diagram with one node, one edge and non-default
metadata, for the C6 witness. -/
def rtNode : Node := { id := "A", label := "Alpha" }

/-- The witness edge, carrying an explicit connection side. -/
def rtEdge : Edge :=
  { id := "e1", source := "A", target := "A", source_side := some "left" }

/-- The witness diagram. -/
def rtDiagram : Diagram :=
  { id := "rt", name := "RT", nodes := [rtNode], edges := [rtEdge]
    metadata := { created_at := "2024-01-01T00:00:00"
                  updated_at := "2024-02-02T00:00:00"
                  grid_size := 40, show_grid := false } }


/-- A freshly created manager holding an empty diagram. -/
def emptyState : MState :=
  new_diagram (initManager 100) "2024-01-01T00:00:00" "diagram-1" "Demo"

/-- `emptyState` after adding one node with id `A`. -/
def oneNodeState : MState := (add_node emptyState { id := "A" }).1

/-- Operations building a demo store: two nodes (`A` tagged `t`, `B`)
and one edge `e1 : A -> B`. -/
def cascadeDemoOps : List Op :=
  [Op.addNode { id := "A", tags := ["t"] }, Op.addNode { id := "B" },
    Op.addEdge "e1" "A" "B" "" none none]

/-- The demo store obtained by running `cascadeDemoOps` on a fresh
diagram. -/
def cascadeDemoState : MState := (runOps emptyState cascadeDemoOps).1

-- ======================= Helper lemmas ================================

theorem intercalate_singleton (s x : String) : String.intercalate s [x] = x := rfl

theorem align_nodes_false {nodes : List Node} {node_ids : List String}
    {alignment : String} (h : (align_nodes nodes node_ids alignment).1 = false) :
    (align_nodes nodes node_ids alignment).2 = nodes := by
  by_cases h1 : (nodes.filter (fun n => decide (n.id ∈ node_ids))).length < 2
  · simp [align_nodes, h1]
  · by_cases h2 : alignment = "left"
    · simp [align_nodes, h1, h2] at h
    · by_cases h3 : alignment = "right"
      · simp [align_nodes, h1, h2, h3] at h
      · by_cases h4 : alignment = "top"
        · simp [align_nodes, h1, h2, h3, h4] at h
        · by_cases h5 : alignment = "bottom"
          · simp [align_nodes, h1, h2, h3, h4, h5] at h
          · by_cases h6 : alignment = "center_h"
            · simp [align_nodes, h1, h2, h3, h4, h5, h6] at h
            · by_cases h7 : alignment = "center_v"
              · simp [align_nodes, h1, h2, h3, h4, h5, h6, h7] at h
              · simp [align_nodes, h1, h2, h3, h4, h5, h6, h7]

theorem distribute_nodes_false {nodes : List Node} {node_ids : List String}
    {axis : String} (h : (distribute_nodes nodes node_ids axis).1 = false) :
    (distribute_nodes nodes node_ids axis).2 = nodes := by
  by_cases h1 : (nodes.filter (fun n => decide (n.id ∈ node_ids))).length < 3
  · simp [distribute_nodes, h1]
  · by_cases h2 : axis = "horizontal"
    · simp [distribute_nodes, h1, h2] at h
    · by_cases h3 : axis = "vertical"
      · simp [distribute_nodes, h1, h2, h3] at h
      · simp [distribute_nodes, h1, h2, h3]

-- Index-fold membership lemmas.

theorem mem_foldl_idxAdd (nid : String) :
    ∀ (tags : List String) (idx : String → List String) (t i : String),
      (i ∈ (tags.foldl (fun ix tg => idxAdd ix tg nid) idx) t ↔
        i ∈ idx t ∨ (i = nid ∧ t ∈ tags)) := by
  intro tags
  induction tags with
  | nil => simp
  | cons tg rest ih =>
    intro idx t i
    simp only [List.foldl_cons, ih, mem_idxAdd, List.mem_cons]
    constructor
    · rintro ((h | ⟨rfl, rfl⟩) | ⟨rfl, h⟩)
      · exact Or.inl h
      · exact Or.inr ⟨rfl, Or.inl rfl⟩
      · exact Or.inr ⟨rfl, Or.inr h⟩
    · rintro (h | ⟨rfl, (rfl | h)⟩)
      · exact Or.inl (Or.inl h)
      · exact Or.inl (Or.inr ⟨rfl, rfl⟩)
      · exact Or.inr ⟨rfl, h⟩

theorem mem_foldl_idxDiscard (nid : String) :
    ∀ (tags : List String) (idx : String → List String) (t i : String),
      (i ∈ (tags.foldl (fun ix tg => idxDiscard ix tg nid) idx) t ↔
        i ∈ idx t ∧ ¬(i = nid ∧ t ∈ tags)) := by
  intro tags
  induction tags with
  | nil => simp
  | cons tg rest ih =>
    intro idx t i
    simp only [List.foldl_cons, ih, mem_idxDiscard, List.mem_cons]
    constructor
    · rintro ⟨⟨h1, h2⟩, h3⟩
      exact ⟨h1, by rintro ⟨rfl, (rfl | h)⟩; exact h2 ⟨rfl, rfl⟩; exact h3 ⟨rfl, h⟩⟩
    · rintro ⟨h1, h2⟩
      refine ⟨⟨h1, ?_⟩, ?_⟩
      · rintro ⟨rfl, rfl⟩; exact h2 ⟨rfl, Or.inl rfl⟩
      · rintro ⟨rfl, h⟩; exact h2 ⟨rfl, Or.inr h⟩

-- Field-neutrality of `_save_to_history` and diagram-only updates.

theorem save_diagram_eq (s : MState) : (save_to_history s).diagram = s.diagram := by
  unfold save_to_history; cases hd : s.diagram <;> simp [hd]

theorem save_node_index_eq (s : MState) :
    (save_to_history s).node_index = s.node_index := by
  unfold save_to_history; cases hd : s.diagram <;> simp [hd]

theorem save_edge_index_eq (s : MState) :
    (save_to_history s).edge_index = s.edge_index := by
  unfold save_to_history; cases hd : s.diagram <;> simp [hd]

theorem save_tag_index_eq (s : MState) :
    (save_to_history s).tag_index = s.tag_index := by
  unfold save_to_history; cases hd : s.diagram <;> simp [hd]

theorem save_type_index_eq (s : MState) :
    (save_to_history s).type_index = s.type_index := by
  unfold save_to_history; cases hd : s.diagram <;> simp [hd]

theorem save_edges_by_node_eq (s : MState) :
    (save_to_history s).edges_by_node = s.edges_by_node := by
  unfold save_to_history; cases hd : s.diagram <;> simp [hd]

theorem save_max_history_eq (s : MState) :
    (save_to_history s).max_history = s.max_history := by
  unfold save_to_history; cases hd : s.diagram <;> simp [hd]

theorem liveNodes_congr {s s' : MState} (h : s'.diagram = s.diagram) :
    liveNodes s' = liveNodes s := by
  unfold liveNodes; rw [h]

theorem liveEdges_congr {s s' : MState} (h : s'.diagram = s.diagram) :
    liveEdges s' = liveEdges s := by
  unfold liveEdges; rw [h]

theorem inv_of_eq {s s' : MState} (hn : liveNodes s' = liveNodes s)
    (he : liveEdges s' = liveEdges s)
    (h1 : s'.node_index = s.node_index) (h2 : s'.edge_index = s.edge_index)
    (h3 : s'.tag_index = s.tag_index) (h4 : s'.type_index = s.type_index)
    (h5 : s'.edges_by_node = s.edges_by_node) (hInv : Inv s) : Inv s' := by
  obtain ⟨a1, a2, a3, a4, a5, a6, a7, a8⟩ := hInv
  exact ⟨by rw [hn]; exact a1, by rw [he]; exact a2,
    by rw [hn, h1]; exact a3, by rw [he, h2]; exact a4,
    by rw [hn, h3]; exact a5, by rw [hn, h4]; exact a6,
    by rw [he, h5]; exact a7, by rw [hn]; exact a8⟩

theorem inv_save (s : MState) (hInv : Inv s) : Inv (save_to_history s) :=
  inv_of_eq (liveNodes_congr (save_diagram_eq s)) (liveEdges_congr (save_diagram_eq s))
    (save_node_index_eq s) (save_edge_index_eq s) (save_tag_index_eq s)
    (save_type_index_eq s) (save_edges_by_node_eq s) hInv

/-- Elements of an id-duplicate-free list are determined by their id. -/
theorem id_inj {α : Type} (key : α → String) {l : List α}
    (h : (l.map key).Nodup) {a b : α} (ha : a ∈ l) (hb : b ∈ l)
    (hid : key a = key b) : a = b :=
  List.inj_on_of_nodup_map h ha hb hid

-- Invariant preservation, operation by operation.

theorem inv_add_node {s : MState} (n : Node) (hInv : Inv s)
    (hfresh : ∀ m ∈ liveNodes s, m.id ≠ n.id) (hnd : n.tags.Nodup) :
    Inv (add_node s n).1 := by
  cases hd : s.diagram with
  | none =>
    have h : (add_node s n).1 = s := by simp [add_node, hd]
    rw [h]; exact hInv
  | some d =>
    have hln : liveNodes s = d.nodes := by unfold liveNodes; rw [hd]
    have hle : liveEdges s = d.edges := by unfold liveEdges; rw [hd]
    have eD : (add_node s n).1.diagram = some { d with nodes := d.nodes ++ [n] } := by
      simp [add_node, hd, indexNode, save_to_history]
    have eN : (add_node s n).1.node_index = omapSet s.node_index n.id n := by
      simp [add_node, hd, indexNode, save_node_index_eq]
    have eT : (add_node s n).1.tag_index =
        n.tags.foldl (fun ix tg => idxAdd ix tg n.id) s.tag_index := by
      simp [add_node, hd, indexNode, save_tag_index_eq]
    have eTy : (add_node s n).1.type_index = idxAdd s.type_index n.type n.id := by
      simp [add_node, hd, indexNode, save_type_index_eq]
    have eE : (add_node s n).1.edge_index = s.edge_index := by
      simp [add_node, hd, indexNode, save_edge_index_eq]
    have eEB : (add_node s n).1.edges_by_node = s.edges_by_node := by
      simp [add_node, hd, indexNode, save_edges_by_node_eq]
    have eLN : liveNodes (add_node s n).1 = d.nodes ++ [n] := by
      unfold liveNodes; rw [eD]
    have eLE : liveEdges (add_node s n).1 = d.edges := by
      unfold liveEdges; rw [eD]
    obtain ⟨a1, a2, ⟨c1, c2⟩, a4, a5, a6, a7, a8⟩ := hInv
    rw [hln] at a1 a5 a6 a8 c1 c2 hfresh
    rw [hle] at a2 a4 a7
    refine ⟨?_, ?_, ⟨?_, ?_⟩, ?_, ?_, ?_, ?_, ?_⟩
    · rw [eLN]
      simp only [List.map_append, List.map_cons, List.map_nil]
      rw [List.nodup_append]
      refine ⟨a1, List.nodup_singleton _, ?_⟩
      intro x hx hxm
      simp only [List.mem_singleton] at hxm
      subst hxm
      obtain ⟨m, hm, hmid⟩ := List.mem_map.mp hx
      exact hfresh m hm hmid
    · rw [eLE]; exact a2
    · intro a ha
      rw [eLN] at ha
      rw [eN]
      rcases List.mem_append.mp ha with ha | ha
      · unfold omapSet
        rw [if_neg (hfresh a ha)]
        exact c1 a ha
      · simp only [List.mem_singleton] at ha
        subst ha
        unfold omapSet
        rw [if_pos rfl]
    · intro k a h
      rw [eN] at h
      unfold omapSet at h
      rw [eLN]
      by_cases hk : k = n.id
      · rw [if_pos hk] at h
        injection h with h
        subst h
        exact ⟨by simp, hk.symm⟩
      · rw [if_neg hk] at h
        obtain ⟨hm, hid⟩ := c2 k a h
        exact ⟨List.mem_append.mpr (Or.inl hm), hid⟩
    · rw [eE, eLE]; exact a4
    · intro t i
      rw [eT, mem_foldl_idxAdd, eLN, a5 t i]
      constructor
      · rintro (⟨m, hm, hmi, hmt⟩ | ⟨rfl, ht⟩)
        · exact ⟨m, List.mem_append.mpr (Or.inl hm), hmi, hmt⟩
        · exact ⟨n, List.mem_append.mpr (Or.inr (by simp)), rfl, ht⟩
      · rintro ⟨m, hm, hmi, hmt⟩
        rcases List.mem_append.mp hm with hm | hm
        · exact Or.inl ⟨m, hm, hmi, hmt⟩
        · simp only [List.mem_singleton] at hm
          subst hm
          exact Or.inr ⟨hmi.symm, hmt⟩
    · intro ty i
      rw [eTy]
      rw [show (i ∈ idxAdd s.type_index n.type n.id ty) ↔
        (i ∈ s.type_index ty ∨ (ty = n.type ∧ i = n.id)) from mem_idxAdd]
      rw [eLN, a6 ty i]
      constructor
      · rintro (⟨m, hm, hmi, hmt⟩ | ⟨rfl, rfl⟩)
        · exact ⟨m, List.mem_append.mpr (Or.inl hm), hmi, hmt⟩
        · exact ⟨n, List.mem_append.mpr (Or.inr (by simp)), rfl, rfl⟩
      · rintro ⟨m, hm, hmi, hmt⟩
        rcases List.mem_append.mp hm with hm | hm
        · exact Or.inl ⟨m, hm, hmi, hmt⟩
        · simp only [List.mem_singleton] at hm
          subst hm
          exact Or.inr ⟨hmt.symm, hmi.symm⟩
    · rw [eEB, eLE]; exact a7
    · rw [eLN]
      intro m hm
      rcases List.mem_append.mp hm with hm | hm
      · exact a8 m hm
      · simp only [List.mem_singleton] at hm
        subst hm
        exact hnd

theorem applyNodeUpdate_id (m : Node) (r : UpdateNodeRequest) :
    (applyNodeUpdate m r).id = m.id := rfl

theorem inv_update_node {s : MState} (node_id : String) (r : UpdateNodeRequest)
    (hInv : Inv s) (hwf : ∀ l, r.tags = some l → l.Nodup) :
    Inv (update_node s node_id r).1 := by
  cases hd : s.diagram with
  | none =>
    have h : (update_node s node_id r).1 = s := by simp [update_node, hd]
    rw [h]; exact hInv
  | some d =>
    cases hn : s.node_index node_id with
    | none =>
      have h : (update_node s node_id r).1 = s := by simp [update_node, hd, hn]
      rw [h]; exact hInv
    | some node =>
      have hln : liveNodes s = d.nodes := by unfold liveNodes; rw [hd]
      have hle : liveEdges s = d.edges := by unfold liveEdges; rw [hd]
      obtain ⟨a1, a2, ⟨c1, c2⟩, a4, a5, a6, a7, a8⟩ := hInv
      rw [hln] at a1 a5 a6 a8 c1 c2
      rw [hle] at a2 a4 a7
      obtain ⟨hmem, hid⟩ := c2 node_id node hn
      set newNode := applyNodeUpdate node r with hnew
      set nodes2 := d.nodes.map
        (fun m => if m.id = node_id then applyNodeUpdate m r else m) with hnodes2
      have eD : (update_node s node_id r).1.diagram = some { d with nodes := nodes2 } := by
        simp [update_node, hd, hn, save_to_history, hnodes2]
      have eN : (update_node s node_id r).1.node_index =
          omapSet s.node_index node_id newNode := by
        simp [update_node, hd, hn, save_node_index_eq, hnew]
      have eT : (update_node s node_id r).1.tag_index =
          ((applyNodeUpdate node r).tags.filter
              (fun t => decide (t ∉ node.tags))).foldl
            (fun ix t => idxAdd ix t node_id)
            ((node.tags.filter
                (fun t => decide (t ∉ (applyNodeUpdate node r).tags))).foldl
              (fun ix t => idxDiscard ix t node_id) s.tag_index) := by
        simp [update_node, hd, hn, save_tag_index_eq]
      have eTy : (update_node s node_id r).1.type_index =
          (if node.type = (applyNodeUpdate node r).type then s.type_index
           else idxAdd (idxDiscard s.type_index node.type node_id)
             (applyNodeUpdate node r).type node_id) := by
        simp [update_node, hd, hn, save_type_index_eq]
      have eE : (update_node s node_id r).1.edge_index = s.edge_index := by
        simp [update_node, hd, hn, save_edge_index_eq]
      have eEB : (update_node s node_id r).1.edges_by_node = s.edges_by_node := by
        simp [update_node, hd, hn, save_edges_by_node_eq]
      have eLN : liveNodes (update_node s node_id r).1 = nodes2 := by
        unfold liveNodes; rw [eD]
      have eLE : liveEdges (update_node s node_id r).1 = d.edges := by
        unfold liveEdges; rw [eD]
      -- members with the updated id are exactly `node`
      have huniq : ∀ m ∈ d.nodes, m.id = node_id → m = node := by
        intro m hm hmi
        exact id_inj Node.id a1 hm hmem (by rw [hmi, hid])
      have hids : nodes2.map Node.id = d.nodes.map Node.id := by
        rw [hnodes2, List.map_map]
        refine List.map_congr_left ?_
        intro m _
        by_cases hcm : m.id = node_id
        · simp [Function.comp, hcm, applyNodeUpdate_id]
        · simp [Function.comp, hcm]
      refine ⟨?_, ?_, ⟨?_, ?_⟩, ?_, ?_, ?_, ?_, ?_⟩
      · rw [eLN, hids]; exact a1
      · rw [eLE]; exact a2
      · intro a ha
        rw [eLN, hnodes2] at ha
        rw [eN]
        obtain ⟨m, hm, hgm⟩ := List.mem_map.mp ha
        by_cases hcm : m.id = node_id
        · have hmn := huniq m hm hcm
          subst hmn
          rw [if_pos hcm] at hgm
          subst hgm
          unfold omapSet
          rw [applyNodeUpdate_id, hid, if_pos rfl]
        · rw [if_neg hcm] at hgm
          subst hgm
          unfold omapSet
          rw [if_neg hcm]
          exact c1 m hm
      · intro k a h
        rw [eN] at h
        unfold omapSet at h
        rw [eLN, hnodes2]
        by_cases hk : k = node_id
        · rw [if_pos hk] at h
          injection h with h
          subst h
          refine ⟨List.mem_map.mpr ⟨node, hmem, by rw [if_pos hid]⟩, ?_⟩
          rw [applyNodeUpdate_id, hid, hk]
        · rw [if_neg hk] at h
          obtain ⟨hm, hidk⟩ := c2 k a h
          refine ⟨List.mem_map.mpr ⟨a, hm, ?_⟩, hidk⟩
          rw [if_neg (by rw [hidk]; exact hk)]
      · rw [eE, eLE]; exact a4
      · intro t i
        rw [eLN, eT, mem_foldl_idxAdd, mem_foldl_idxDiscard, a5 t i]
        have hfil1 : t ∈ (applyNodeUpdate node r).tags.filter
            (fun t => decide (t ∉ node.tags)) ↔
            (t ∈ (applyNodeUpdate node r).tags ∧ t ∉ node.tags) := by
          simp [List.mem_filter]
        have hfil2 : t ∈ node.tags.filter
            (fun t => decide (t ∉ (applyNodeUpdate node r).tags)) ↔
            (t ∈ node.tags ∧ t ∉ (applyNodeUpdate node r).tags) := by
          simp [List.mem_filter]
        have hrhs : (∃ m ∈ nodes2, m.id = i ∧ t ∈ m.tags) ↔
            ((i = node_id ∧ t ∈ (applyNodeUpdate node r).tags) ∨
             (i ≠ node_id ∧ ∃ m ∈ d.nodes, m.id = i ∧ t ∈ m.tags)) := by
          rw [hnodes2]
          constructor
          · rintro ⟨m, hm, hmi, hmt⟩
            obtain ⟨m0, hm0, hg⟩ := List.mem_map.mp hm
            by_cases hcm : m0.id = node_id
            · have hmn := huniq m0 hm0 hcm
              subst hmn
              rw [if_pos hcm] at hg
              subst hg
              exact Or.inl ⟨by rw [← hmi, applyNodeUpdate_id, hid], hmt⟩
            · rw [if_neg hcm] at hg
              subst hg
              exact Or.inr ⟨by rw [← hmi]; exact hcm, m0, hm0, hmi, hmt⟩
          · rintro (⟨rfl, ht⟩ | ⟨hne, m, hm, hmi, hmt⟩)
            · exact ⟨applyNodeUpdate node r,
                List.mem_map.mpr ⟨node, hmem, by rw [if_pos hid]⟩,
                by rw [applyNodeUpdate_id, hid], ht⟩
            · refine ⟨m, List.mem_map.mpr ⟨m, hm, ?_⟩, hmi, hmt⟩
              rw [if_neg (by rw [hmi]; exact hne)]
        rw [hrhs, hfil1, hfil2]
        have hold : ∀ t, (∃ m ∈ d.nodes, m.id = node_id ∧ t ∈ m.tags) ↔
            t ∈ node.tags := by
          intro t2
          constructor
          · rintro ⟨m, hm, hmi, hmt⟩
            rw [huniq m hm hmi] at hmt
            exact hmt
          · intro ht
            exact ⟨node, hmem, hid, ht⟩
        by_cases hi : i = node_id
        · subst hi
          rw [hold t]
          by_cases ho : t ∈ node.tags <;>
            by_cases hnw : t ∈ (applyNodeUpdate node r).tags <;>
              simp [ho, hnw]
        · constructor
          · rintro (⟨hmm, _⟩ | ⟨rfl, _⟩)
            · exact Or.inr ⟨hi, hmm⟩
            · exact absurd rfl hi
          · rintro (⟨rfl, _⟩ | ⟨_, hmm⟩)
            · exact absurd rfl hi
            · exact Or.inl ⟨hmm, by rintro ⟨rfl, _⟩; exact hi rfl⟩
      · intro ty i
        rw [eTy]
        have hrhs : (∃ m ∈ nodes2, m.id = i ∧ m.type = ty) ↔
            ((i = node_id ∧ (applyNodeUpdate node r).type = ty) ∨
             (i ≠ node_id ∧ ∃ m ∈ d.nodes, m.id = i ∧ m.type = ty)) := by
          rw [hnodes2]
          constructor
          · rintro ⟨m, hm, hmi, hmt⟩
            obtain ⟨m0, hm0, hg⟩ := List.mem_map.mp hm
            by_cases hcm : m0.id = node_id
            · have hmn := huniq m0 hm0 hcm
              subst hmn
              rw [if_pos hcm] at hg
              subst hg
              exact Or.inl ⟨by rw [← hmi, applyNodeUpdate_id, hid], hmt⟩
            · rw [if_neg hcm] at hg
              subst hg
              exact Or.inr ⟨by rw [← hmi]; exact hcm, m0, hm0, hmi, hmt⟩
          · rintro (⟨rfl, ht⟩ | ⟨hne, m, hm, hmi, hmt⟩)
            · exact ⟨applyNodeUpdate node r,
                List.mem_map.mpr ⟨node, hmem, by rw [if_pos hid]⟩,
                by rw [applyNodeUpdate_id, hid], ht⟩
            · refine ⟨m, List.mem_map.mpr ⟨m, hm, ?_⟩, hmi, hmt⟩
              rw [if_neg (by rw [hmi]; exact hne)]
        rw [eLN, hrhs]
        have holdty : (∃ m ∈ d.nodes, m.id = node_id ∧ m.type = ty) ↔
            node.type = ty := by
          constructor
          · rintro ⟨m, hm, hmi, hmt⟩
            rw [huniq m hm hmi] at hmt
            exact hmt
          · intro ht
            exact ⟨node, hmem, hid, ht⟩
        by_cases hty : node.type = (applyNodeUpdate node r).type
        · rw [if_pos hty, a6 ty i]
          by_cases hi : i = node_id
          · subst hi
            constructor
            · intro h
              obtain ⟨m, hm, hmi, hmt⟩ := h
              rw [huniq m hm hmi] at hmt
              exact Or.inl ⟨rfl, by rw [← hty]; exact hmt⟩
            · rintro (⟨_, ht⟩ | ⟨hne, hmm⟩)
              · exact ⟨node, hmem, hid, by rw [hty]; exact ht⟩
              · exact absurd rfl hne
          · constructor
            · intro h
              obtain ⟨m, hm, hmi, hmt⟩ := h
              exact Or.inr ⟨hi, m, hm, hmi, hmt⟩
            · rintro (⟨rfl, _⟩ | ⟨_, hmm⟩)
              · exact absurd rfl hi
              · exact hmm
        · rw [if_neg hty]
          rw [show (i ∈ idxAdd (idxDiscard s.type_index node.type node_id)
              (applyNodeUpdate node r).type node_id ty) ↔
            ((i ∈ s.type_index ty ∧ ¬(ty = node.type ∧ i = node_id)) ∨
             (ty = (applyNodeUpdate node r).type ∧ i = node_id)) from by
              rw [mem_idxAdd, mem_idxDiscard]]
          rw [a6 ty i]
          by_cases hi : i = node_id
          · subst hi
            rw [holdty]
            constructor
            · rintro (⟨h1, h2⟩ | ⟨h3, _⟩)
              · exact absurd ⟨h1.symm, rfl⟩ h2
              · exact Or.inl ⟨rfl, h3.symm⟩
            · rintro (⟨_, h1⟩ | ⟨hne, _⟩)
              · exact Or.inr ⟨h1.symm, rfl⟩
              · exact absurd rfl hne
          · constructor
            · rintro (⟨hmm, _⟩ | ⟨_, rfl⟩)
              · exact Or.inr ⟨hi, hmm⟩
              · exact absurd rfl hi
            · rintro (⟨rfl, _⟩ | ⟨_, hmm⟩)
              · exact absurd rfl hi
              · exact Or.inl ⟨hmm, by rintro ⟨_, rfl⟩; exact hi rfl⟩
      · rw [eEB, eLE]; exact a7
      · rw [eLN, hnodes2]
        intro m hm
        obtain ⟨m0, hm0, hg⟩ := List.mem_map.mp hm
        by_cases hcm : m0.id = node_id
        · rw [if_pos hcm] at hg
          subst hg
          show (applyNodeUpdate m0 r).tags.Nodup
          cases hrt : r.tags with
          | none => simpa [applyNodeUpdate, hrt] using a8 m0 hm0
          | some l => simpa [applyNodeUpdate, hrt] using hwf l hrt
        · rw [if_neg hcm] at hg
          subst hg
          exact a8 m0 hm0

theorem save_future_nil {s : MState} {d : Diagram} (hd : s.diagram = some d) :
    (save_to_history s).future = [] := by
  simp [save_to_history, hd]

/-- The cascade loop of `delete_node`: folding edge removal over a
list of edge ids removes exactly the edges whose id is in the list,
keeps every index in sync, and touches nothing else. -/
theorem cascade_fold :
    ∀ (l : List String) (st : MState) (dd : Diagram),
      st.diagram = some dd →
      (dd.edges.map Edge.id).Nodup →
      IdxCorr Edge.id st.edge_index dd.edges →
      (∀ v ei, ei ∈ st.edges_by_node v ↔
        ∃ e ∈ dd.edges, e.id = ei ∧ (e.source = v ∨ e.target = v)) →
      (l.foldl (fun st eid =>
          match st.edge_index eid with
          | none => st
          | some edge =>
            unindexEdge
              { st with diagram := st.diagram.map (fun dd =>
                  { dd with edges := dd.edges.filter (fun e => decide (e.id ≠ eid)) }) }
              edge) st).diagram =
        some { dd with edges := dd.edges.filter (fun e => decide (e.id ∉ l)) } ∧
      IdxCorr Edge.id (l.foldl (fun st eid =>
          match st.edge_index eid with
          | none => st
          | some edge =>
            unindexEdge
              { st with diagram := st.diagram.map (fun dd =>
                  { dd with edges := dd.edges.filter (fun e => decide (e.id ≠ eid)) }) }
              edge) st).edge_index
        (dd.edges.filter (fun e => decide (e.id ∉ l))) ∧
      (∀ v ei, ei ∈ (l.foldl (fun st eid =>
          match st.edge_index eid with
          | none => st
          | some edge =>
            unindexEdge
              { st with diagram := st.diagram.map (fun dd =>
                  { dd with edges := dd.edges.filter (fun e => decide (e.id ≠ eid)) }) }
              edge) st).edges_by_node v ↔
        ∃ e ∈ dd.edges.filter (fun e => decide (e.id ∉ l)), e.id = ei ∧
          (e.source = v ∨ e.target = v)) ∧
      (l.foldl (fun st eid =>
          match st.edge_index eid with
          | none => st
          | some edge =>
            unindexEdge
              { st with diagram := st.diagram.map (fun dd =>
                  { dd with edges := dd.edges.filter (fun e => decide (e.id ≠ eid)) }) }
              edge) st).node_index = st.node_index ∧
      (l.foldl (fun st eid =>
          match st.edge_index eid with
          | none => st
          | some edge =>
            unindexEdge
              { st with diagram := st.diagram.map (fun dd =>
                  { dd with edges := dd.edges.filter (fun e => decide (e.id ≠ eid)) }) }
              edge) st).tag_index = st.tag_index ∧
      (l.foldl (fun st eid =>
          match st.edge_index eid with
          | none => st
          | some edge =>
            unindexEdge
              { st with diagram := st.diagram.map (fun dd =>
                  { dd with edges := dd.edges.filter (fun e => decide (e.id ≠ eid)) }) }
              edge) st).type_index = st.type_index ∧
      (l.foldl (fun st eid =>
          match st.edge_index eid with
          | none => st
          | some edge =>
            unindexEdge
              { st with diagram := st.diagram.map (fun dd =>
                  { dd with edges := dd.edges.filter (fun e => decide (e.id ≠ eid)) }) }
              edge) st).history = st.history ∧
      (l.foldl (fun st eid =>
          match st.edge_index eid with
          | none => st
          | some edge =>
            unindexEdge
              { st with diagram := st.diagram.map (fun dd =>
                  { dd with edges := dd.edges.filter (fun e => decide (e.id ≠ eid)) }) }
              edge) st).future = st.future ∧
      (l.foldl (fun st eid =>
          match st.edge_index eid with
          | none => st
          | some edge =>
            unindexEdge
              { st with diagram := st.diagram.map (fun dd =>
                  { dd with edges := dd.edges.filter (fun e => decide (e.id ≠ eid)) }) }
              edge) st).max_history = st.max_history ∧
      (l.foldl (fun st eid =>
          match st.edge_index eid with
          | none => st
          | some edge =>
            unindexEdge
              { st with diagram := st.diagram.map (fun dd =>
                  { dd with edges := dd.edges.filter (fun e => decide (e.id ≠ eid)) }) }
              edge) st).dirty = st.dirty := by
  intro l
  induction l with
  | nil =>
    intro st dd hdd hnd hcorr hinc
    have hfil : dd.edges.filter (fun e => decide (e.id ∉ ([] : List String))) = dd.edges := by
      simp
    rw [List.foldl_nil]
    refine ⟨?_, ?_, ?_, rfl, rfl, rfl, rfl, rfl, rfl, rfl⟩
    · rw [hfil, hdd]
    · rw [hfil]; exact hcorr
    · rw [hfil]; exact hinc
  | cons eid rest ih =>
    intro st dd hdd hnd hcorr hinc
    rw [List.foldl_cons]
    cases he : st.edge_index eid with
    | none =>
      have hfilc : dd.edges.filter (fun e => decide (e.id ∉ eid :: rest)) =
          dd.edges.filter (fun e => decide (e.id ∉ rest)) := by
        refine List.filter_congr ?_
        intro e hme
        have hne : e.id ≠ eid := by
          intro heq
          have := hcorr.1 e hme
          rw [heq] at this
          rw [this] at he
          exact Option.noConfusion he
        simp [List.mem_cons, hne]
      rw [hfilc]
      exact ih st dd hdd hnd hcorr hinc
    | some edge =>
      obtain ⟨hedm, hedid⟩ := hcorr.2 eid edge he
      set dd1 : Diagram :=
        { dd with edges := dd.edges.filter (fun e => decide (e.id ≠ eid)) } with hdd1
      set st1 : MState := unindexEdge
        { st with diagram := st.diagram.map (fun dd =>
            { dd with edges := dd.edges.filter (fun e => decide (e.id ≠ eid)) }) }
        edge with hst1
      have hst1d : st1.diagram = some dd1 := by
        rw [hst1, hdd1]
        simp [unindexEdge, hdd]
      have huniq : ∀ e ∈ dd.edges, e.id = eid → e = edge := by
        intro e hme hide
        exact id_inj Edge.id hnd hme hedm (by rw [hide, hedid])
      have hnd1 : (dd1.edges.map Edge.id).Nodup := by
        rw [hdd1]
        exact hnd.sublist ((List.filter_sublist _).map _)
      have hcorr1 : IdxCorr Edge.id st1.edge_index dd1.edges := by
        constructor
        · intro a ha
          rw [hdd1] at ha
          have hane : a.id ≠ eid := by simpa using (List.mem_filter.mp ha).2
          have ham : a ∈ dd.edges := (List.mem_filter.mp ha).1
          rw [hst1]
          show omapDrop st.edge_index edge.id a.id = some a
          unfold omapDrop
          rw [if_neg (by rw [hedid]; exact hane)]
          exact hcorr.1 a ham
        · intro k a h
          rw [hst1] at h
          replace h : omapDrop st.edge_index edge.id k = some a := h
          unfold omapDrop at h
          by_cases hk : k = edge.id
          · rw [if_pos hk] at h
            exact Option.noConfusion h
          · rw [if_neg hk] at h
            obtain ⟨ham, haid⟩ := hcorr.2 k a h
            refine ⟨?_, haid⟩
            rw [hdd1]
            refine List.mem_filter.mpr ⟨ham, ?_⟩
            simp only [decide_eq_true_eq]
            rw [haid, ← hedid]
            exact hk
      have hinc1 : ∀ v ei, ei ∈ st1.edges_by_node v ↔
          ∃ e ∈ dd1.edges, e.id = ei ∧ (e.source = v ∨ e.target = v) := by
        intro v ei
        rw [hst1]
        show ei ∈ idxDiscard (idxDiscard st.edges_by_node edge.source edge.id)
          edge.target edge.id v ↔ _
        rw [mem_idxDiscard, mem_idxDiscard, hinc v ei, hdd1]
        constructor
        · rintro ⟨⟨⟨e, hme, hei, hvst⟩, h2⟩, h3⟩
          refine ⟨e, List.mem_filter.mpr ⟨hme, ?_⟩, hei, hvst⟩
          simp only [decide_eq_true_eq]
          intro heq
          have hee := huniq e hme heq
          subst hee
          rcases hvst with hv | hv
          · exact h2 ⟨hv.symm, hei.symm⟩
          · exact h3 ⟨hv.symm, hei.symm⟩
        · rintro ⟨e, hme, hei, hvst⟩
          have hmem0 : e ∈ dd.edges := (List.mem_filter.mp hme).1
          have hene : e.id ≠ eid := by
            simpa using (List.mem_filter.mp hme).2
          have heine : ei ≠ edge.id := by
            rw [← hei, hedid]; exact hene
          exact ⟨⟨⟨e, hmem0, hei, hvst⟩, fun hc => heine hc.2⟩, fun hc => heine hc.2⟩
      have hstep := ih st1 dd1 hst1d hnd1 hcorr1 hinc1
      have hff : dd1.edges.filter (fun e => decide (e.id ∉ rest)) =
          dd.edges.filter (fun e => decide (e.id ∉ eid :: rest)) := by
        rw [hdd1]
        rw [List.filter_filter]
        refine List.filter_congr ?_
        intro e _
        by_cases h1 : e.id = eid <;> by_cases h2 : e.id ∈ rest <;>
          simp [h1, h2]
      have hself : ∀ (x : MState), st1.node_index = st.node_index ∧
          st1.tag_index = st.tag_index ∧ st1.type_index = st.type_index ∧
          st1.history = st.history ∧ st1.future = st.future ∧
          st1.max_history = st.max_history ∧ st1.dirty = st.dirty := by
        intro _
        rw [hst1]
        exact ⟨rfl, rfl, rfl, rfl, rfl, rfl, rfl⟩
      obtain ⟨hs1, hs2, hs3, hs4, hs5, hs6, hs7⟩ := hself st
      obtain ⟨g1, g2, g3, g4, g5, g6, g7, g8, g9, g10⟩ := hstep
      refine ⟨?_, ?_, ?_, ?_, ?_, ?_, ?_, ?_, ?_, ?_⟩
      · rw [g1, hff]
      · rw [← hff]; exact g2
      · intro v ei
        rw [← hff]
        exact g3 v ei
      · rw [g4, hs1]
      · rw [g5, hs2]
      · rw [g6, hs3]
      · rw [g7, hs4]
      · rw [g8, hs5]
      · rw [g9, hs6]
      · rw [g10, hs7]

theorem cascade_fold_step (l : List String) (st : MState) (dd : Diagram)
    (h1 : st.diagram = some dd) (h2 : (dd.edges.map Edge.id).Nodup)
    (h3 : IdxCorr Edge.id st.edge_index dd.edges)
    (h4 : ∀ v ei, ei ∈ st.edges_by_node v ↔
      ∃ e ∈ dd.edges, e.id = ei ∧ (e.source = v ∨ e.target = v)) :
    (l.foldl cascadeStep st).diagram =
      some { dd with edges := dd.edges.filter (fun e => decide (e.id ∉ l)) } ∧
    IdxCorr Edge.id (l.foldl cascadeStep st).edge_index
      (dd.edges.filter (fun e => decide (e.id ∉ l))) ∧
    (∀ v ei, ei ∈ (l.foldl cascadeStep st).edges_by_node v ↔
      ∃ e ∈ dd.edges.filter (fun e => decide (e.id ∉ l)), e.id = ei ∧
        (e.source = v ∨ e.target = v)) ∧
    (l.foldl cascadeStep st).node_index = st.node_index ∧
    (l.foldl cascadeStep st).tag_index = st.tag_index ∧
    (l.foldl cascadeStep st).type_index = st.type_index ∧
    (l.foldl cascadeStep st).history = st.history ∧
    (l.foldl cascadeStep st).future = st.future ∧
    (l.foldl cascadeStep st).max_history = st.max_history ∧
    (l.foldl cascadeStep st).dirty = st.dirty :=
  cascade_fold l st dd h1 h2 h3 h4

theorem delete_node_eq {s : MState} {d : Diagram} {node : Node} {node_id : String}
    (hd : s.diagram = some d) (hn : s.node_index node_id = some node) :
    delete_node s node_id =
      ({ ((delete_node_mid s d node_id node).edges_by_node node_id).foldl cascadeStep
          (delete_node_mid s d node_id node) with dirty := true }, .ok) := by
  unfold delete_node delete_node_mid cascadeStep
  rw [hd, hn]

theorem delete_mid_facts (s : MState) (d : Diagram) (node_id : String) (node : Node) :
    (delete_node_mid s d node_id node).diagram =
      some { d with nodes := d.nodes.filter (fun n => decide (n.id ≠ node_id)) } ∧
    (delete_node_mid s d node_id node).node_index = omapDrop s.node_index node.id ∧
    (delete_node_mid s d node_id node).edge_index = s.edge_index ∧
    (delete_node_mid s d node_id node).tag_index =
      node.tags.foldl (fun ix tg => idxDiscard ix tg node.id) s.tag_index ∧
    (delete_node_mid s d node_id node).type_index =
      idxDiscard s.type_index node.type node.id ∧
    (delete_node_mid s d node_id node).edges_by_node = s.edges_by_node ∧
    (delete_node_mid s d node_id node).history = (save_to_history s).history ∧
    (delete_node_mid s d node_id node).future = (save_to_history s).future ∧
    (delete_node_mid s d node_id node).max_history = s.max_history := by
  refine ⟨?_, ?_, ?_, ?_, ?_, ?_, ?_, ?_, ?_⟩ <;>
    simp [delete_node_mid, unindexNode, save_node_index_eq, save_edge_index_eq,
      save_tag_index_eq, save_type_index_eq, save_edges_by_node_eq,
      save_max_history_eq]

theorem delete_node_spec {s : MState} {d : Diagram} {node : Node} {node_id : String}
    (hd : s.diagram = some d) (hn : s.node_index node_id = some node) (hInv : Inv s) :
    ∃ s', delete_node s node_id = (s', .ok) ∧
      s'.diagram = some { d with nodes := d.nodes.filter (fun n => decide (n.id ≠ node_id)), edges := d.edges.filter (fun e => decide (¬(e.source = node_id ∨ e.target = node_id))) } ∧
      Inv s' ∧
      s'.node_index node_id = none ∧
      (∀ e ∈ d.edges, (e.source = node_id ∨ e.target = node_id) →
        s'.edge_index e.id = none) ∧
      s'.history = (save_to_history s).history ∧ s'.future = [] ∧
      s'.max_history = s.max_history := by
  obtain ⟨a1, a2, ⟨c1, c2⟩, a4, a5, a6, a7, a8⟩ := hInv
  have hln : liveNodes s = d.nodes := by unfold liveNodes; rw [hd]
  have hle : liveEdges s = d.edges := by unfold liveEdges; rw [hd]
  rw [hln] at a1 a5 a6 a8 c1 c2
  rw [hle] at a2 a4 a7
  obtain ⟨hmem, hid⟩ := c2 node_id node hn
  obtain ⟨m1, m2, m3, m4, m5, m6, m7, m8, m9⟩ := delete_mid_facts s d node_id node
  have huniqN : ∀ m ∈ d.nodes, m.id = node_id → m = node := by
    intro m hm hmi
    exact id_inj Node.id a1 hm hmem (by rw [hmi, hid])
  have huniqE : ∀ e ∈ d.edges, ∀ e2 ∈ d.edges, e.id = e2.id → e = e2 := by
    intro e he e2 he2 hee
    exact id_inj Edge.id a2 he he2 hee
  have hcas := cascade_fold_step
    ((delete_node_mid s d node_id node).edges_by_node node_id)
    (delete_node_mid s d node_id node)
    { d with nodes := d.nodes.filter (fun n => decide (n.id ≠ node_id)) }
    m1 a2 (by rw [m3]; exact a4) (by rw [m6]; exact a7)
  obtain ⟨g1, g2, g3, g4, g5, g6, g7, g8, g9, g10⟩ := hcas
  -- the incident-id filter equals the incidence predicate filter
  have hmeml : ∀ ei, ei ∈ (delete_node_mid s d node_id node).edges_by_node node_id ↔
      ∃ e ∈ d.edges, e.id = ei ∧ (e.source = node_id ∨ e.target = node_id) := by
    intro ei
    rw [m6]
    exact a7 node_id ei
  have hfeq : d.edges.filter
      (fun e => decide (e.id ∉ (delete_node_mid s d node_id node).edges_by_node node_id)) =
      d.edges.filter (fun e => decide (¬(e.source = node_id ∨ e.target = node_id))) := by
    refine List.filter_congr ?_
    intro e hme
    have hiff : e.id ∈ (delete_node_mid s d node_id node).edges_by_node node_id ↔
        (e.source = node_id ∨ e.target = node_id) := by
      rw [hmeml e.id]
      constructor
      · rintro ⟨e2, hm2, hid2, hs2⟩
        rw [huniqE e2 hm2 e hme hid2] at hs2
        exact hs2
      · intro h
        exact ⟨e, hme, rfl, h⟩
    by_cases hh : e.source = node_id ∨ e.target = node_id <;> simp [hiff, hh]
  refine ⟨_, delete_node_eq hd hn, ?_, ?_, ?_, ?_, ?_, ?_, ?_⟩
  · show (_ : MState).diagram = _
    rw [g1, hfeq]
  · -- the invariant for the final state
    have eD : ({ ((delete_node_mid s d node_id node).edges_by_node node_id).foldl
        cascadeStep (delete_node_mid s d node_id node) with dirty := true } :
        MState).diagram = some { d with
          nodes := d.nodes.filter (fun n => decide (n.id ≠ node_id)),
          edges := d.edges.filter
            (fun e => decide (¬(e.source = node_id ∨ e.target = node_id))) } := by
      show (_ : MState).diagram = _
      rw [g1, hfeq]
    have eLN : liveNodes ({ ((delete_node_mid s d node_id node).edges_by_node
        node_id).foldl cascadeStep (delete_node_mid s d node_id node) with
        dirty := true } : MState) =
        d.nodes.filter (fun n => decide (n.id ≠ node_id)) := by
      unfold liveNodes; rw [eD]
    have eLE : liveEdges ({ ((delete_node_mid s d node_id node).edges_by_node
        node_id).foldl cascadeStep (delete_node_mid s d node_id node) with
        dirty := true } : MState) =
        d.edges.filter (fun e => decide (¬(e.source = node_id ∨ e.target = node_id))) := by
      unfold liveEdges; rw [eD]
    refine ⟨?_, ?_, ⟨?_, ?_⟩, ?_, ?_, ?_, ?_, ?_⟩
    · rw [eLN]
      exact a1.sublist ((List.filter_sublist _).map _)
    · rw [eLE]
      exact a2.sublist ((List.filter_sublist _).map _)
    · intro a ha
      rw [eLN] at ha
      show (((delete_node_mid s d node_id node).edges_by_node node_id).foldl
        cascadeStep (delete_node_mid s d node_id node)).node_index a.id = some a
      rw [g4, m2]
      have hane : a.id ≠ node_id := by
        simpa using (List.mem_filter.mp ha).2
      unfold omapDrop
      rw [if_neg (by rw [hid]; exact hane)]
      exact c1 a (List.mem_filter.mp ha).1
    · intro k a h
      replace h : (((delete_node_mid s d node_id node).edges_by_node node_id).foldl
          cascadeStep (delete_node_mid s d node_id node)).node_index k = some a := h
      rw [g4, m2] at h
      unfold omapDrop at h
      by_cases hk : k = node.id
      · rw [if_pos hk] at h
        exact Option.noConfusion h
      · rw [if_neg hk] at h
        obtain ⟨ham, haid⟩ := c2 k a h
        refine ⟨?_, haid⟩
        rw [eLN]
        refine List.mem_filter.mpr ⟨ham, ?_⟩
        simp only [decide_eq_true_eq]
        rw [haid]
        intro hkn
        exact hk (by rw [hkn, ← hid])
    · rw [eLE]
      show IdxCorr Edge.id (((delete_node_mid s d node_id node).edges_by_node
        node_id).foldl cascadeStep (delete_node_mid s d node_id node)).edge_index _
      rw [← hfeq]
      exact g2
    · intro t i
      show i ∈ (((delete_node_mid s d node_id node).edges_by_node node_id).foldl
        cascadeStep (delete_node_mid s d node_id node)).tag_index t ↔ _
      rw [g5, m4, mem_foldl_idxDiscard, a5 t i, eLN]
      by_cases hi : i = node_id
      · constructor
        · rintro ⟨⟨m, hm, hmi, hmt⟩, hno⟩
          rw [huniqN m hm (hmi.trans hi)] at hmt
          exact absurd ⟨hi.trans hid.symm, hmt⟩ hno
        · rintro ⟨m, hm, hmi, hmt⟩
          have hne : m.id ≠ node_id := by
            simpa using (List.mem_filter.mp hm).2
          exact absurd (hmi.trans hi) hne
      · constructor
        · rintro ⟨⟨m, hm, hmi, hmt⟩, _⟩
          refine ⟨m, List.mem_filter.mpr ⟨hm, ?_⟩, hmi, hmt⟩
          simp only [decide_eq_true_eq]
          rw [hmi]; exact hi
        · rintro ⟨m, hm, hmi, hmt⟩
          refine ⟨⟨m, (List.mem_filter.mp hm).1, hmi, hmt⟩, ?_⟩
          rintro ⟨hie, _⟩
          exact hi (hie.trans hid)
    · intro ty i
      show i ∈ (((delete_node_mid s d node_id node).edges_by_node node_id).foldl
        cascadeStep (delete_node_mid s d node_id node)).type_index ty ↔ _
      rw [g6, m5, mem_idxDiscard, a6 ty i, eLN]
      by_cases hi : i = node_id
      · constructor
        · rintro ⟨⟨m, hm, hmi, hmt⟩, hno⟩
          rw [huniqN m hm (hmi.trans hi)] at hmt
          exact absurd ⟨hmt.symm, hi.trans hid.symm⟩ hno
        · rintro ⟨m, hm, hmi, hmt⟩
          have hne : m.id ≠ node_id := by
            simpa using (List.mem_filter.mp hm).2
          exact absurd (hmi.trans hi) hne
      · constructor
        · rintro ⟨⟨m, hm, hmi, hmt⟩, _⟩
          refine ⟨m, List.mem_filter.mpr ⟨hm, ?_⟩, hmi, hmt⟩
          simp only [decide_eq_true_eq]
          rw [hmi]; exact hi
        · rintro ⟨m, hm, hmi, hmt⟩
          refine ⟨⟨m, (List.mem_filter.mp hm).1, hmi, hmt⟩, ?_⟩
          rintro ⟨_, hie⟩
          exact hi (hie.trans hid)
    · intro v ei
      show ei ∈ (((delete_node_mid s d node_id node).edges_by_node node_id).foldl
        cascadeStep (delete_node_mid s d node_id node)).edges_by_node v ↔ _
      rw [eLE, ← hfeq]
      exact g3 v ei
    · rw [eLN]
      intro m hm
      exact a8 m (List.mem_filter.mp hm).1
  · show (((delete_node_mid s d node_id node).edges_by_node node_id).foldl
      cascadeStep (delete_node_mid s d node_id node)).node_index node_id = none
    rw [g4, m2]
    unfold omapDrop
    rw [if_pos hid.symm]
  · intro e he hinc
    show (((delete_node_mid s d node_id node).edges_by_node node_id).foldl
      cascadeStep (delete_node_mid s d node_id node)).edge_index e.id = none
    cases hv : (((delete_node_mid s d node_id node).edges_by_node node_id).foldl
        cascadeStep (delete_node_mid s d node_id node)).edge_index e.id with
    | none => rfl
    | some a =>
      obtain ⟨ham, haid⟩ := g2.2 e.id a hv
      rw [hfeq] at ham
      have hae : a = e :=
        huniqE a (List.mem_filter.mp ham).1 e he haid
      subst hae
      have : ¬(a.source = node_id ∨ a.target = node_id) := by
        simpa using (List.mem_filter.mp ham).2
      exact absurd hinc this
  · show (((delete_node_mid s d node_id node).edges_by_node node_id).foldl
      cascadeStep (delete_node_mid s d node_id node)).history = _
    rw [g7, m7]
  · show (((delete_node_mid s d node_id node).edges_by_node node_id).foldl
      cascadeStep (delete_node_mid s d node_id node)).future = _
    rw [g8, m8, save_future_nil hd]
  · show (((delete_node_mid s d node_id node).edges_by_node node_id).foldl
      cascadeStep (delete_node_mid s d node_id node)).max_history = _
    rw [g9, m9]

theorem inv_add_edge {s : MState} (eid src tgt lbl : String) (ss ts : Option String)
    (hInv : Inv s) (hfresh : ∀ e ∈ liveEdges s, e.id ≠ eid) :
    Inv (add_edge s eid src tgt lbl ss ts).1 := by
  cases hd : s.diagram with
  | none =>
    have h : (add_edge s eid src tgt lbl ss ts).1 = s := by simp [add_edge, hd]
    rw [h]; exact hInv
  | some d =>
    by_cases hst : src = "" ∨ tgt = ""
    · have h : (add_edge s eid src tgt lbl ss ts).1 = s := by simp [add_edge, hd, hst]
      rw [h]; exact hInv
    · cases hsi : s.node_index src with
      | none =>
        have h : (add_edge s eid src tgt lbl ss ts).1 = s := by
          simp [add_edge, hd, hst, hsi]
        rw [h]; exact hInv
      | some nsrc =>
        cases hti : s.node_index tgt with
        | none =>
          have h : (add_edge s eid src tgt lbl ss ts).1 = s := by
            simp [add_edge, hd, hst, hsi, hti]
          rw [h]; exact hInv
        | some ntgt =>
          have hln : liveNodes s = d.nodes := by unfold liveNodes; rw [hd]
          have hle : liveEdges s = d.edges := by unfold liveEdges; rw [hd]
          set edge : Edge :=
            { id := eid, source := src, target := tgt, label := lbl
              source_side := ss, target_side := ts } with hedge
          have eD : (add_edge s eid src tgt lbl ss ts).1.diagram =
              some { d with edges := d.edges ++ [edge] } := by
            simp [add_edge, hd, hst, hsi, hti, indexEdge, save_to_history, hedge]
          have eE : (add_edge s eid src tgt lbl ss ts).1.edge_index =
              omapSet s.edge_index eid edge := by
            simp [add_edge, hd, hst, hsi, hti, indexEdge, save_edge_index_eq, hedge]
          have eEB : (add_edge s eid src tgt lbl ss ts).1.edges_by_node =
              idxAdd (idxAdd s.edges_by_node src eid) tgt eid := by
            simp [add_edge, hd, hst, hsi, hti, indexEdge, save_edges_by_node_eq, hedge]
          have eN : (add_edge s eid src tgt lbl ss ts).1.node_index = s.node_index := by
            simp [add_edge, hd, hst, hsi, hti, indexEdge, save_node_index_eq]
          have eT : (add_edge s eid src tgt lbl ss ts).1.tag_index = s.tag_index := by
            simp [add_edge, hd, hst, hsi, hti, indexEdge, save_tag_index_eq]
          have eTy : (add_edge s eid src tgt lbl ss ts).1.type_index = s.type_index := by
            simp [add_edge, hd, hst, hsi, hti, indexEdge, save_type_index_eq]
          have eLN : liveNodes (add_edge s eid src tgt lbl ss ts).1 = d.nodes := by
            unfold liveNodes; rw [eD]
          have eLE : liveEdges (add_edge s eid src tgt lbl ss ts).1 =
              d.edges ++ [edge] := by
            unfold liveEdges; rw [eD]
          obtain ⟨a1, a2, a3, ⟨c1, c2⟩, a5, a6, a7, a8⟩ := hInv
          rw [hln] at a1 a5 a6 a8
          rw [hle] at a2 a7 c1 c2
          rw [hln] at a3
          rw [hle] at hfresh
          refine ⟨?_, ?_, ?_, ⟨?_, ?_⟩, ?_, ?_, ?_, ?_⟩
          · rw [eLN]; exact a1
          · rw [eLE]
            simp only [List.map_append, List.map_cons, List.map_nil]
            rw [List.nodup_append]
            refine ⟨a2, List.nodup_singleton _, ?_⟩
            intro x hx hxm
            simp only [List.mem_singleton] at hxm
            subst hxm
            obtain ⟨e, he, heid⟩ := List.mem_map.mp hx
            exact hfresh e he heid
          · rw [eLN, eN]; exact a3
          · intro a ha
            rw [eLE] at ha
            rw [eE]
            rcases List.mem_append.mp ha with ha | ha
            · unfold omapSet
              rw [if_neg (hfresh a ha)]
              exact c1 a ha
            · simp only [List.mem_singleton] at ha
              subst ha
              unfold omapSet
              rw [if_pos rfl]
          · intro k a h
            rw [eE] at h
            unfold omapSet at h
            rw [eLE]
            by_cases hk : k = eid
            · rw [if_pos hk] at h
              injection h with h
              subst h
              exact ⟨by simp, hk.symm⟩
            · rw [if_neg hk] at h
              obtain ⟨hm, hidk⟩ := c2 k a h
              exact ⟨List.mem_append.mpr (Or.inl hm), hidk⟩
          · intro t i
            rw [eLN, eT]
            exact a5 t i
          · intro ty i
            rw [eLN, eTy]
            exact a6 ty i
          · intro v ei
            rw [eLE, eEB]
            rw [show (ei ∈ idxAdd (idxAdd s.edges_by_node src eid) tgt eid v) ↔
              ((ei ∈ s.edges_by_node v ∨ (v = src ∧ ei = eid)) ∨ (v = tgt ∧ ei = eid))
              from by rw [mem_idxAdd, mem_idxAdd]]
            rw [a7 v ei]
            constructor
            · rintro ((⟨e, he, hei, hvs⟩ | ⟨rfl, rfl⟩) | ⟨rfl, rfl⟩)
              · exact ⟨e, List.mem_append.mpr (Or.inl he), hei, hvs⟩
              · exact ⟨edge, List.mem_append.mpr (Or.inr (by simp)), rfl, Or.inl rfl⟩
              · exact ⟨edge, List.mem_append.mpr (Or.inr (by simp)), rfl, Or.inr rfl⟩
            · rintro ⟨e, he, hei, hvs⟩
              rcases List.mem_append.mp he with he | he
              · exact Or.inl (Or.inl ⟨e, he, hei, hvs⟩)
              · simp only [List.mem_singleton] at he
                subst he
                rcases hvs with hv | hv
                · exact Or.inl (Or.inr ⟨hv.symm, hei.symm⟩)
                · exact Or.inr ⟨hv.symm, hei.symm⟩
          · rw [eLN]; exact a8

theorem applyEdgeUpdate_ends (m : Edge) (r : UpdateEdgeRequest) :
    (applyEdgeUpdate m r).id = m.id ∧ (applyEdgeUpdate m r).source = m.source ∧
    (applyEdgeUpdate m r).target = m.target :=
  ⟨rfl, rfl, rfl⟩

theorem inv_update_edge {s : MState} (edge_id : String) (r : UpdateEdgeRequest)
    (hInv : Inv s) : Inv (update_edge s edge_id r).1 := by
  cases hd : s.diagram with
  | none =>
    have h : (update_edge s edge_id r).1 = s := by simp [update_edge, hd]
    rw [h]; exact hInv
  | some d =>
    cases hn : s.edge_index edge_id with
    | none =>
      have h : (update_edge s edge_id r).1 = s := by simp [update_edge, hd, hn]
      rw [h]; exact hInv
    | some edge =>
      have hln : liveNodes s = d.nodes := by unfold liveNodes; rw [hd]
      have hle : liveEdges s = d.edges := by unfold liveEdges; rw [hd]
      obtain ⟨a1, a2, a3, ⟨c1, c2⟩, a5, a6, a7, a8⟩ := hInv
      rw [hln] at a1 a5 a6 a8
      rw [hle] at a2 a7 c1 c2
      rw [hln] at a3
      obtain ⟨hmem, hid⟩ := c2 edge_id edge hn
      set edges2 := d.edges.map
        (fun e => if e.id = edge_id then applyEdgeUpdate e r else e) with hedges2
      have eD : (update_edge s edge_id r).1.diagram = some { d with edges := edges2 } := by
        simp [update_edge, hd, hn, save_to_history, hedges2]
      have eE : (update_edge s edge_id r).1.edge_index =
          omapSet s.edge_index edge_id (applyEdgeUpdate edge r) := by
        simp [update_edge, hd, hn, save_edge_index_eq]
      have eEB : (update_edge s edge_id r).1.edges_by_node = s.edges_by_node := by
        simp [update_edge, hd, hn, save_edges_by_node_eq]
      have eN : (update_edge s edge_id r).1.node_index = s.node_index := by
        simp [update_edge, hd, hn, save_node_index_eq]
      have eT : (update_edge s edge_id r).1.tag_index = s.tag_index := by
        simp [update_edge, hd, hn, save_tag_index_eq]
      have eTy : (update_edge s edge_id r).1.type_index = s.type_index := by
        simp [update_edge, hd, hn, save_type_index_eq]
      have eLN : liveNodes (update_edge s edge_id r).1 = d.nodes := by
        unfold liveNodes; rw [eD]
      have eLE : liveEdges (update_edge s edge_id r).1 = edges2 := by
        unfold liveEdges; rw [eD]
      have huniq : ∀ e ∈ d.edges, e.id = edge_id → e = edge := by
        intro e he hei
        exact id_inj Edge.id a2 he hmem (by rw [hei, hid])
      have hgid : ∀ m : Edge,
          (if m.id = edge_id then applyEdgeUpdate m r else m).id = m.id := by
        intro m
        by_cases h : m.id = edge_id <;> simp [h, applyEdgeUpdate]
      have hgsrc : ∀ m : Edge,
          (if m.id = edge_id then applyEdgeUpdate m r else m).source = m.source := by
        intro m
        by_cases h : m.id = edge_id <;> simp [h, applyEdgeUpdate]
      have hgtgt : ∀ m : Edge,
          (if m.id = edge_id then applyEdgeUpdate m r else m).target = m.target := by
        intro m
        by_cases h : m.id = edge_id <;> simp [h, applyEdgeUpdate]
      have hids : edges2.map Edge.id = d.edges.map Edge.id := by
        rw [hedges2, List.map_map]
        refine List.map_congr_left ?_
        intro m _
        exact hgid m
      refine ⟨?_, ?_, ?_, ⟨?_, ?_⟩, ?_, ?_, ?_, ?_⟩
      · rw [eLN]; exact a1
      · rw [eLE, hids]; exact a2
      · rw [eLN, eN]; exact a3
      · intro a ha
        rw [eLE, hedges2] at ha
        rw [eE]
        obtain ⟨m, hm, hgm⟩ := List.mem_map.mp ha
        by_cases hcm : m.id = edge_id
        · have hmn := huniq m hm hcm
          subst hmn
          rw [if_pos hcm] at hgm
          subst hgm
          unfold omapSet
          rw [show (applyEdgeUpdate m r).id = m.id from rfl, hid, if_pos rfl]
        · rw [if_neg hcm] at hgm
          subst hgm
          unfold omapSet
          rw [if_neg hcm]
          exact c1 m hm
      · intro k a h
        rw [eE] at h
        unfold omapSet at h
        rw [eLE, hedges2]
        by_cases hk : k = edge_id
        · rw [if_pos hk] at h
          injection h with h
          subst h
          refine ⟨List.mem_map.mpr ⟨edge, hmem, by rw [if_pos hid]⟩, ?_⟩
          rw [show (applyEdgeUpdate edge r).id = edge.id from rfl, hid, hk]
        · rw [if_neg hk] at h
          obtain ⟨hm, hidk⟩ := c2 k a h
          refine ⟨List.mem_map.mpr ⟨a, hm, ?_⟩, hidk⟩
          rw [if_neg (by rw [hidk]; exact hk)]
      · intro t i
        rw [eLN, eT]
        exact a5 t i
      · intro ty i
        rw [eLN, eTy]
        exact a6 ty i
      · intro v ei
        rw [eLE, eEB, hedges2, a7 v ei]
        constructor
        · rintro ⟨e, he, hei, hvs⟩
          refine ⟨(if e.id = edge_id then applyEdgeUpdate e r else e),
            List.mem_map.mpr ⟨e, he, rfl⟩, ?_, ?_⟩
          · rw [hgid e]; exact hei
          · rw [hgsrc e, hgtgt e]; exact hvs
        · rintro ⟨e, he, hei, hvs⟩
          obtain ⟨m, hm, hgm⟩ := List.mem_map.mp he
          subst hgm
          refine ⟨m, hm, ?_, ?_⟩
          · rw [hgid m] at hei; exact hei
          · rw [hgsrc m, hgtgt m] at hvs; exact hvs
      · rw [eLN]; exact a8

theorem inv_delete_edge {s : MState} (edge_id : String) (hInv : Inv s) :
    Inv (delete_edge s edge_id).1 := by
  cases hd : s.diagram with
  | none =>
    have h : (delete_edge s edge_id).1 = s := by simp [delete_edge, hd]
    rw [h]; exact hInv
  | some d =>
    cases hn : s.edge_index edge_id with
    | none =>
      have h : (delete_edge s edge_id).1 = s := by simp [delete_edge, hd, hn]
      rw [h]; exact hInv
    | some edge =>
      have hln : liveNodes s = d.nodes := by unfold liveNodes; rw [hd]
      have hle : liveEdges s = d.edges := by unfold liveEdges; rw [hd]
      obtain ⟨a1, a2, a3, ⟨c1, c2⟩, a5, a6, a7, a8⟩ := hInv
      rw [hln] at a1 a5 a6 a8
      rw [hle] at a2 a7 c1 c2
      rw [hln] at a3
      obtain ⟨hmem, hid⟩ := c2 edge_id edge hn
      have huniq : ∀ e ∈ d.edges, e.id = edge_id → e = edge := by
        intro e he hei
        exact id_inj Edge.id a2 he hmem (by rw [hei, hid])
      set edges2 := d.edges.filter (fun e => decide (e.id ≠ edge_id)) with hedges2
      have eD : (delete_edge s edge_id).1.diagram = some { d with edges := edges2 } := by
        simp [delete_edge, hd, hn, unindexEdge, save_to_history, hedges2]
      have eE : (delete_edge s edge_id).1.edge_index =
          omapDrop s.edge_index edge.id := by
        simp [delete_edge, hd, hn, unindexEdge, save_edge_index_eq]
      have eEB : (delete_edge s edge_id).1.edges_by_node =
          idxDiscard (idxDiscard s.edges_by_node edge.source edge.id)
            edge.target edge.id := by
        simp [delete_edge, hd, hn, unindexEdge, save_edges_by_node_eq]
      have eN : (delete_edge s edge_id).1.node_index = s.node_index := by
        simp [delete_edge, hd, hn, unindexEdge, save_node_index_eq]
      have eT : (delete_edge s edge_id).1.tag_index = s.tag_index := by
        simp [delete_edge, hd, hn, unindexEdge, save_tag_index_eq]
      have eTy : (delete_edge s edge_id).1.type_index = s.type_index := by
        simp [delete_edge, hd, hn, unindexEdge, save_type_index_eq]
      have eLN : liveNodes (delete_edge s edge_id).1 = d.nodes := by
        unfold liveNodes; rw [eD]
      have eLE : liveEdges (delete_edge s edge_id).1 = edges2 := by
        unfold liveEdges; rw [eD]
      refine ⟨?_, ?_, ?_, ⟨?_, ?_⟩, ?_, ?_, ?_, ?_⟩
      · rw [eLN]; exact a1
      · rw [eLE, hedges2]
        exact a2.sublist ((List.filter_sublist _).map _)
      · rw [eLN, eN]; exact a3
      · intro a ha
        rw [eLE, hedges2] at ha
        rw [eE]
        have hane : a.id ≠ edge_id := by
          simpa using (List.mem_filter.mp ha).2
        unfold omapDrop
        rw [if_neg (by rw [hid]; exact hane)]
        exact c1 a (List.mem_filter.mp ha).1
      · intro k a h
        rw [eE] at h
        unfold omapDrop at h
        rw [eLE, hedges2]
        by_cases hk : k = edge.id
        · rw [if_pos hk] at h
          exact Option.noConfusion h
        · rw [if_neg hk] at h
          obtain ⟨hm, hidk⟩ := c2 k a h
          refine ⟨List.mem_filter.mpr ⟨hm, ?_⟩, hidk⟩
          simp only [decide_eq_true_eq]
          rw [hidk]
          intro hke
          exact hk (by rw [hke, ← hid])
      · intro t i
        rw [eLN, eT]
        exact a5 t i
      · intro ty i
        rw [eLN, eTy]
        exact a6 ty i
      · intro v ei
        rw [eLE, eEB, hedges2]
        rw [show (ei ∈ idxDiscard (idxDiscard s.edges_by_node edge.source edge.id)
            edge.target edge.id v) ↔
          ((ei ∈ s.edges_by_node v ∧ ¬(v = edge.source ∧ ei = edge.id)) ∧
            ¬(v = edge.target ∧ ei = edge.id)) from by
            rw [mem_idxDiscard, mem_idxDiscard]]
        rw [a7 v ei]
        constructor
        · rintro ⟨⟨⟨e, he, hei, hvs⟩, h2⟩, h3⟩
          refine ⟨e, List.mem_filter.mpr ⟨he, ?_⟩, hei, hvs⟩
          simp only [decide_eq_true_eq]
          intro heq
          have hee := huniq e he heq
          subst hee
          rcases hvs with hv | hv
          · exact h2 ⟨hv.symm, hei.symm⟩
          · exact h3 ⟨hv.symm, hei.symm⟩
        · rintro ⟨e, he, hei, hvs⟩
          have hm0 : e ∈ d.edges := (List.mem_filter.mp he).1
          have hene : e.id ≠ edge_id := by
            simpa using (List.mem_filter.mp he).2
          have heine : ei ≠ edge.id := by
            rw [← hei, hid]; exact hene
          exact ⟨⟨⟨e, hm0, hei, hvs⟩, fun hc => heine hc.2⟩, fun hc => heine hc.2⟩
      · rw [eLN]; exact a8

theorem bulkAdd_facts (nid : String) :
    ∀ (ts : List String) (node : Node) (idx : String → List String),
      ((ts.foldl (fun (p : Node × (String → List String)) tg =>
        if tg ∈ p.1.tags then p
        else ({ p.1 with tags := p.1.tags ++ [tg] }, idxAdd p.2 tg nid)) (node, idx)).1.id
          = node.id ∧
       (ts.foldl (fun (p : Node × (String → List String)) tg =>
        if tg ∈ p.1.tags then p
        else ({ p.1 with tags := p.1.tags ++ [tg] }, idxAdd p.2 tg nid)) (node, idx)).1.type
          = node.type) ∧
      (∀ t, t ∈ (ts.foldl (fun (p : Node × (String → List String)) tg =>
        if tg ∈ p.1.tags then p
        else ({ p.1 with tags := p.1.tags ++ [tg] }, idxAdd p.2 tg nid)) (node, idx)).1.tags
          ↔ t ∈ node.tags ∨ t ∈ ts) ∧
      (∀ t i, i ≠ nid →
        (i ∈ (ts.foldl (fun (p : Node × (String → List String)) tg =>
          if tg ∈ p.1.tags then p
          else ({ p.1 with tags := p.1.tags ++ [tg] }, idxAdd p.2 tg nid)) (node, idx)).2 t
            ↔ i ∈ idx t)) ∧
      ((∀ t, nid ∈ idx t ↔ t ∈ node.tags) →
        (∀ t, nid ∈ (ts.foldl (fun (p : Node × (String → List String)) tg =>
          if tg ∈ p.1.tags then p
          else ({ p.1 with tags := p.1.tags ++ [tg] }, idxAdd p.2 tg nid)) (node, idx)).2 t
            ↔ t ∈ (ts.foldl (fun (p : Node × (String → List String)) tg =>
          if tg ∈ p.1.tags then p
          else ({ p.1 with tags := p.1.tags ++ [tg] }, idxAdd p.2 tg nid)) (node, idx)).1.tags)) ∧
      (node.tags.Nodup →
        (ts.foldl (fun (p : Node × (String → List String)) tg =>
          if tg ∈ p.1.tags then p
          else ({ p.1 with tags := p.1.tags ++ [tg] }, idxAdd p.2 tg nid)) (node, idx)).1.tags.Nodup) := by
  intro ts
  induction ts with
  | nil =>
    intro node idx
    exact ⟨⟨rfl, rfl⟩, by simp, fun t i _ => Iff.rfl, fun h t => h t, fun h => h⟩
  | cons tg rest ih =>
    intro node idx
    rw [List.foldl_cons]
    by_cases htg : tg ∈ node.tags
    · rw [if_pos htg]
      obtain ⟨⟨i1, i2⟩, i3, i4, i5, i6⟩ := ih node idx
      refine ⟨⟨i1, i2⟩, ?_, i4, i5, i6⟩
      intro t
      rw [i3 t]
      constructor
      · rintro (h | h)
        · exact Or.inl h
        · exact Or.inr (List.mem_cons.mpr (Or.inr h))
      · rintro (h | h)
        · exact Or.inl h
        · rcases List.mem_cons.mp h with rfl | h
          · exact Or.inl htg
          · exact Or.inr h
    · rw [if_neg htg]
      obtain ⟨⟨i1, i2⟩, i3, i4, i5, i6⟩ :=
        ih { node with tags := node.tags ++ [tg] } (idxAdd idx tg nid)
      refine ⟨⟨i1, i2⟩, ?_, ?_, ?_, ?_⟩
      · intro t
        rw [i3 t]
        simp only [List.mem_append, List.mem_singleton, List.mem_cons]
        tauto
      · intro t i hi
        rw [i4 t i hi, mem_idxAdd]
        constructor
        · rintro (h | ⟨_, rfl⟩)
          · exact h
          · exact absurd rfl hi
        · exact Or.inl
      · intro hcorr t
        refine i5 ?_ t
        intro t2
        rw [mem_idxAdd, hcorr t2]
        simp only [List.mem_append, List.mem_singleton]
        tauto
      · intro hnd
        refine i6 ?_
        simp only [List.nodup_append, List.nodup_singleton]
        exact ⟨hnd, by simp, by
          intro x hx hxm
          simp only [List.mem_singleton] at hxm
          subst hxm
          exact htg hx⟩

theorem bulkRem_facts (nid : String) :
    ∀ (ts : List String) (node : Node) (idx : String → List String),
      node.tags.Nodup →
      ((ts.foldl (fun (p : Node × (String → List String)) tg =>
        if tg ∈ p.1.tags then ({ p.1 with tags := p.1.tags.erase tg }, idxDiscard p.2 tg nid)
        else p) (node, idx)).1.id = node.id ∧
       (ts.foldl (fun (p : Node × (String → List String)) tg =>
        if tg ∈ p.1.tags then ({ p.1 with tags := p.1.tags.erase tg }, idxDiscard p.2 tg nid)
        else p) (node, idx)).1.type = node.type) ∧
      (∀ t, t ∈ (ts.foldl (fun (p : Node × (String → List String)) tg =>
        if tg ∈ p.1.tags then ({ p.1 with tags := p.1.tags.erase tg }, idxDiscard p.2 tg nid)
        else p) (node, idx)).1.tags ↔ t ∈ node.tags ∧ t ∉ ts) ∧
      (∀ t i, i ≠ nid →
        (i ∈ (ts.foldl (fun (p : Node × (String → List String)) tg =>
          if tg ∈ p.1.tags then ({ p.1 with tags := p.1.tags.erase tg }, idxDiscard p.2 tg nid)
          else p) (node, idx)).2 t ↔ i ∈ idx t)) ∧
      ((∀ t, nid ∈ idx t ↔ t ∈ node.tags) →
        (∀ t, nid ∈ (ts.foldl (fun (p : Node × (String → List String)) tg =>
          if tg ∈ p.1.tags then ({ p.1 with tags := p.1.tags.erase tg }, idxDiscard p.2 tg nid)
          else p) (node, idx)).2 t ↔ t ∈ (ts.foldl (fun (p : Node × (String → List String)) tg =>
          if tg ∈ p.1.tags then ({ p.1 with tags := p.1.tags.erase tg }, idxDiscard p.2 tg nid)
          else p) (node, idx)).1.tags)) ∧
      (ts.foldl (fun (p : Node × (String → List String)) tg =>
        if tg ∈ p.1.tags then ({ p.1 with tags := p.1.tags.erase tg }, idxDiscard p.2 tg nid)
        else p) (node, idx)).1.tags.Nodup := by
  intro ts
  induction ts with
  | nil =>
    intro node idx hnd
    exact ⟨⟨rfl, rfl⟩, by simp, fun t i _ => Iff.rfl, fun h t => h t, hnd⟩
  | cons tg rest ih =>
    intro node idx hnd
    rw [List.foldl_cons]
    by_cases htg : tg ∈ node.tags
    · rw [if_pos htg]
      have hnd2 : ({ node with tags := node.tags.erase tg } : Node).tags.Nodup :=
        hnd.erase tg
      obtain ⟨⟨i1, i2⟩, i3, i4, i5, i6⟩ :=
        ih { node with tags := node.tags.erase tg } (idxDiscard idx tg nid) hnd2
      refine ⟨⟨i1, i2⟩, ?_, ?_, ?_, i6⟩
      · intro t
        rw [i3 t]
        simp only [hnd.mem_erase_iff, List.mem_cons]
        tauto
      · intro t i hi
        rw [i4 t i hi, mem_idxDiscard]
        constructor
        · rintro ⟨h, _⟩
          exact h
        · intro h
          exact ⟨h, by rintro ⟨_, rfl⟩; exact hi rfl⟩
      · intro hcorr t
        refine i5 ?_ t
        intro t2
        rw [mem_idxDiscard, hcorr t2]
        simp only [hnd.mem_erase_iff]
        tauto
    · rw [if_neg htg]
      obtain ⟨⟨i1, i2⟩, i3, i4, i5, i6⟩ := ih node idx hnd
      refine ⟨⟨i1, i2⟩, ?_, i4, i5, i6⟩
      intro t
      rw [i3 t]
      simp only [List.mem_cons]
      constructor
      · rintro ⟨h1, h2⟩
        refine ⟨h1, ?_⟩
        rintro (rfl | h)
        · exact htg h1
        · exact h2 h
      · rintro ⟨h1, h2⟩
        exact ⟨h1, fun h => h2 (Or.inr h)⟩

theorem inv_bulkStep {s : MState} (addl reml : List String) (nid : String)
    (hInv : Inv s) : Inv (bulkStep addl reml s nid).1 := by
  cases hb : s.node_index nid with
  | none =>
    have h : (bulkStep addl reml s nid).1 = s := by simp [bulkStep, hb]
    rw [h]; exact hInv
  | some node =>
    obtain ⟨a1, a2, ⟨c1, c2⟩, a4, a5, a6, a7, a8⟩ := hInv
    obtain ⟨hmem, hid⟩ := c2 nid node hb
    cases hd : s.diagram with
    | none =>
      have hln : liveNodes s = [] := by unfold liveNodes; rw [hd]
      rw [hln] at hmem
      exact absurd hmem (List.not_mem_nil _)
    | some d =>
      have hln : liveNodes s = d.nodes := by unfold liveNodes; rw [hd]
      have hle : liveEdges s = d.edges := by unfold liveEdges; rw [hd]
      rw [hln] at a1 a5 a6 a8 c1 c2 hmem
      rw [hle] at a2 a4 a7
      obtain ⟨⟨pA1, pA2⟩, pA3, pA4, pA5, pA6⟩ := bulkAdd_facts nid addl node s.tag_index
      set P1 := addl.foldl (fun (p : Node × (String → List String)) tg =>
        if tg ∈ p.1.tags then p
        else ({ p.1 with tags := p.1.tags ++ [tg] }, idxAdd p.2 tg nid))
        (node, s.tag_index) with hP1
      have hndP1 : P1.1.tags.Nodup := pA6 (a8 node hmem)
      obtain ⟨⟨pR1, pR2⟩, pR3, pR4, pR5, pR6⟩ := bulkRem_facts nid reml P1.1 P1.2 hndP1
      have hbr : reml.foldl (fun (p : Node × (String → List String)) tg =>
          if tg ∈ p.1.tags then ({ p.1 with tags := p.1.tags.erase tg }, idxDiscard p.2 tg nid)
          else p) (P1.1, P1.2) =
        reml.foldl (fun (p : Node × (String → List String)) tg =>
          if tg ∈ p.1.tags then ({ p.1 with tags := p.1.tags.erase tg }, idxDiscard p.2 tg nid)
          else p) P1 := rfl
      rw [hbr] at pR1 pR2 pR3 pR4 pR5 pR6
      set P2 := reml.foldl (fun (p : Node × (String → List String)) tg =>
        if tg ∈ p.1.tags then ({ p.1 with tags := p.1.tags.erase tg }, idxDiscard p.2 tg nid)
        else p) P1 with hP2
      have hPid : P2.1.id = nid := by rw [pR1, pA1, hid]
      have hPty : P2.1.type = node.type := by rw [pR2, pA2]
      have huniq : ∀ m ∈ d.nodes, m.id = nid → m = node := by
        intro m hm hmi
        exact id_inj Node.id a1 hm hmem (by rw [hmi, hid])
      set nodes2 := d.nodes.map (fun m => if m.id = nid then P2.1 else m) with hnodes2
      have eD : (bulkStep addl reml s nid).1.diagram = some { d with nodes := nodes2 } := by
        simp [bulkStep, hb, hd, hnodes2, hP2, hP1]
      have eN : (bulkStep addl reml s nid).1.node_index =
          omapSet s.node_index nid P2.1 := by
        simp [bulkStep, hb, hP2, hP1]
      have eT : (bulkStep addl reml s nid).1.tag_index = P2.2 := by
        simp [bulkStep, hb, hP2, hP1]
      have eE : (bulkStep addl reml s nid).1.edge_index = s.edge_index := by
        simp [bulkStep, hb]
      have eEB : (bulkStep addl reml s nid).1.edges_by_node = s.edges_by_node := by
        simp [bulkStep, hb]
      have eTy : (bulkStep addl reml s nid).1.type_index = s.type_index := by
        simp [bulkStep, hb]
      have eLN : liveNodes (bulkStep addl reml s nid).1 = nodes2 := by
        unfold liveNodes; rw [eD]
      have eLE : liveEdges (bulkStep addl reml s nid).1 = d.edges := by
        unfold liveEdges; rw [eD]
      have hids : nodes2.map Node.id = d.nodes.map Node.id := by
        rw [hnodes2, List.map_map]
        refine List.map_congr_left ?_
        intro m _
        by_cases hcm : m.id = nid
        · simp [Function.comp, hcm, hPid]
        · simp [Function.comp, hcm]
      -- correspondence at `nid` between the original index and node
      have hcorr0 : ∀ t, nid ∈ s.tag_index t ↔ t ∈ node.tags := by
        intro t
        rw [a5 t nid]
        constructor
        · rintro ⟨m, hm, hmi, hmt⟩
          rw [huniq m hm hmi] at hmt
          exact hmt
        · intro ht
          exact ⟨node, hmem, hid, ht⟩
      have hcorr2 : ∀ t, nid ∈ P2.2 t ↔ t ∈ P2.1.tags := pR5 (pA5 hcorr0)
      have hother : ∀ t i, i ≠ nid → (i ∈ P2.2 t ↔ i ∈ s.tag_index t) := by
        intro t i hi
        rw [pR4 t i hi, pA4 t i hi]
      refine ⟨?_, ?_, ⟨?_, ?_⟩, ?_, ?_, ?_, ?_, ?_⟩
      · rw [eLN, hids]; exact a1
      · rw [eLE]; exact a2
      · intro a ha
        rw [eLN, hnodes2] at ha
        rw [eN]
        obtain ⟨m, hm, hgm⟩ := List.mem_map.mp ha
        by_cases hcm : m.id = nid
        · rw [if_pos hcm] at hgm
          subst hgm
          unfold omapSet
          rw [hPid, if_pos rfl]
        · rw [if_neg hcm] at hgm
          subst hgm
          unfold omapSet
          rw [if_neg hcm]
          exact c1 m hm
      · intro k a h
        rw [eN] at h
        unfold omapSet at h
        rw [eLN, hnodes2]
        by_cases hk : k = nid
        · rw [if_pos hk] at h
          injection h with h
          subst h
          refine ⟨List.mem_map.mpr ⟨node, hmem, by rw [if_pos hid]⟩, by rw [hPid, hk]⟩
        · rw [if_neg hk] at h
          obtain ⟨hm, hidk⟩ := c2 k a h
          refine ⟨List.mem_map.mpr ⟨a, hm, ?_⟩, hidk⟩
          rw [if_neg (by rw [hidk]; exact hk)]
      · rw [eE, eLE]; exact a4
      · intro t i
        rw [eLN, eT, hnodes2]
        have hrhs : (∃ m ∈ d.nodes.map (fun m => if m.id = nid then P2.1 else m),
            m.id = i ∧ t ∈ m.tags) ↔
            ((i = nid ∧ t ∈ P2.1.tags) ∨
             (i ≠ nid ∧ ∃ m ∈ d.nodes, m.id = i ∧ t ∈ m.tags)) := by
          constructor
          · rintro ⟨m, hm, hmi, hmt⟩
            obtain ⟨m0, hm0, hg⟩ := List.mem_map.mp hm
            by_cases hcm : m0.id = nid
            · rw [if_pos hcm] at hg
              subst hg
              exact Or.inl ⟨by rw [← hmi, hPid], hmt⟩
            · rw [if_neg hcm] at hg
              subst hg
              exact Or.inr ⟨by rw [← hmi]; exact hcm, m0, hm0, hmi, hmt⟩
          · rintro (⟨rfl, ht⟩ | ⟨hne, m, hm, hmi, hmt⟩)
            · exact ⟨P2.1, List.mem_map.mpr ⟨node, hmem, by rw [if_pos hid]⟩, hPid, ht⟩
            · refine ⟨m, List.mem_map.mpr ⟨m, hm, ?_⟩, hmi, hmt⟩
              rw [if_neg (by rw [hmi]; exact hne)]
        rw [hrhs]
        by_cases hi : i = nid
        · subst hi
          rw [hcorr2 t]
          constructor
          · intro h
            exact Or.inl ⟨rfl, h⟩
          · rintro (⟨_, h⟩ | ⟨hne, _⟩)
            · exact h
            · exact absurd rfl hne
        · rw [hother t i hi, a5 t i]
          constructor
          · intro h
            exact Or.inr ⟨hi, h⟩
          · rintro (⟨rfl, _⟩ | ⟨_, h⟩)
            · exact absurd rfl hi
            · exact h
      · intro ty i
        rw [eLN, eTy, hnodes2, a6 ty i]
        constructor
        · rintro ⟨m, hm, hmi, hmt⟩
          by_cases hcm : m.id = nid
          · have hmn := huniq m hm hcm
            subst hmn
            refine ⟨P2.1, List.mem_map.mpr ⟨m, hm, by rw [if_pos hcm]⟩, ?_, ?_⟩
            · rw [hPid, ← hcm, hmi]
            · rw [hPty]; exact hmt
          · refine ⟨m, List.mem_map.mpr ⟨m, hm, by rw [if_neg hcm]⟩, hmi, hmt⟩
        · rintro ⟨m, hm, hmi, hmt⟩
          obtain ⟨m0, hm0, hg⟩ := List.mem_map.mp hm
          by_cases hcm : m0.id = nid
          · rw [if_pos hcm] at hg
            subst hg
            have hmn := huniq m0 hm0 hcm
            refine ⟨m0, hm0, by rw [← hmi, hPid, ← hcm], ?_⟩
            rw [← hmt, hPty, hmn]
          · rw [if_neg hcm] at hg
            subst hg
            exact ⟨m0, hm0, hmi, hmt⟩
      · intro v ei
        rw [eLE, eEB]
        exact a7 v ei
      · rw [eLN, hnodes2]
        intro m hm
        obtain ⟨m0, hm0, hg⟩ := List.mem_map.mp hm
        by_cases hcm : m0.id = nid
        · rw [if_pos hcm] at hg
          subst hg
          exact pR6
        · rw [if_neg hcm] at hg
          subst hg
          exact a8 m0 hm0

theorem inv_bulk_fold (addl reml : List String) :
    ∀ (ids : List String) (s : MState) (b : Bool), Inv s →
      Inv ((ids.foldl (fun (p : MState × Bool) nid =>
        let q := bulkStep addl reml p.1 nid
        (q.1, p.2 || q.2)) (s, b)).1) := by
  intro ids
  induction ids with
  | nil => intro s b h; exact h
  | cons nid rest ih =>
    intro s b h
    rw [List.foldl_cons]
    exact ih (bulkStep addl reml s nid).1 _ (inv_bulkStep addl reml nid h)

theorem inv_bulk_update_tags {s : MState} (node_ids : List String)
    (add_tags remove_tags : Option (List String)) (hInv : Inv s) :
    Inv (bulk_update_tags s node_ids add_tags remove_tags).1 := by
  cases hd : s.diagram with
  | none =>
    have h : (bulk_update_tags s node_ids add_tags remove_tags).1 = s := by
      simp [bulk_update_tags, hd]
    rw [h]; exact hInv
  | some d =>
    have hfold := inv_bulk_fold (add_tags.getD []) (remove_tags.getD []) node_ids
      (save_to_history s) false (inv_save s hInv)
    by_cases hflag : (node_ids.foldl (fun (p : MState × Bool) nid =>
        let q := bulkStep (add_tags.getD []) (remove_tags.getD []) p.1 nid
        (q.1, p.2 || q.2)) (save_to_history s, false)).2
    · have h : (bulk_update_tags s node_ids add_tags remove_tags).1 =
          { (node_ids.foldl (fun (p : MState × Bool) nid =>
            let q := bulkStep (add_tags.getD []) (remove_tags.getD []) p.1 nid
            (q.1, p.2 || q.2)) (save_to_history s, false)).1 with dirty := true } := by
        simp [bulk_update_tags, hd, hflag]
      rw [h]
      refine inv_of_eq ?_ ?_ ?_ ?_ ?_ ?_ ?_ hfold <;> rfl
    · rw [Bool.not_eq_true] at hflag
      have h : (bulk_update_tags s node_ids add_tags remove_tags).1 =
          (node_ids.foldl (fun (p : MState × Bool) nid =>
            let q := bulkStep (add_tags.getD []) (remove_tags.getD []) p.1 nid
            (q.1, p.2 || q.2)) (save_to_history s, false)).1 := by
        simp [bulk_update_tags, hd, hflag]
      rw [h]
      exact hfold

theorem inv_update_diagram_info {s : MState} (name : Option String)
    (grid_size : Option Int) (show_grid : Option Bool) (hInv : Inv s) :
    Inv (update_diagram_info s name grid_size show_grid).1 := by
  cases hd : s.diagram with
  | none =>
    have h : (update_diagram_info s name grid_size show_grid).1 = s := by
      simp [update_diagram_info, hd]
    rw [h]; exact hInv
  | some d =>
    refine inv_of_eq ?_ ?_ ?_ ?_ ?_ ?_ ?_ hInv
    · show liveNodes _ = liveNodes s
      unfold liveNodes
      rw [hd]
      simp [update_diagram_info, hd]
    · show liveEdges _ = liveEdges s
      unfold liveEdges
      rw [hd]
      simp [update_diagram_info, hd]
    · simp [update_diagram_info, hd, save_node_index_eq]
    · simp [update_diagram_info, hd, save_edge_index_eq]
    · simp [update_diagram_info, hd, save_tag_index_eq]
    · simp [update_diagram_info, hd, save_type_index_eq]
    · simp [update_diagram_info, hd, save_edges_by_node_eq]

-- C7 machinery: soundness of the cycle DFS.


theorem mem_foldl_app {α β : Type} (f : α → List β) :
    ∀ (l : List α) (acc : List β) (b : β),
      (b ∈ l.foldl (fun a x => a ++ f x) acc ↔ b ∈ acc ∨ ∃ x ∈ l, b ∈ f x) := by
  intro l
  induction l with
  | nil => simp
  | cons y ys ih =>
    intro acc b
    simp only [List.foldl_cons, ih, List.mem_append, List.mem_cons]
    constructor
    · rintro ((h | h) | ⟨x, hx, hfx⟩)
      · exact Or.inl h
      · exact Or.inr ⟨y, Or.inl rfl, h⟩
      · exact Or.inr ⟨x, Or.inr hx, hfx⟩
    · rintro (h | ⟨x, (rfl | hx), hfx⟩)
      · exact Or.inl (Or.inl h)
      · exact Or.inl (Or.inr hfx)
      · exact Or.inr ⟨x, hx, hfx⟩

theorem cycleDfs_sound (adj : String → List String) (start : String) :
    ∀ (fuel : Nat) (current : String) (path visited : List String) (c : List String),
      path ≠ [] → path.head? = some start → path.getLast? = some current →
      path.Chain' (fun a b => b ∈ adj a) →
      c ∈ cycleDfs adj start fuel current path visited →
      IsCycleOf adj c := by
  intro fuel
  induction fuel with
  | zero =>
    intro current path visited c _ _ _ _ hc
    simp [cycleDfs] at hc
  | succ n ih =>
    intro current path visited c hne hhead hlast hchain hc
    simp only [cycleDfs] at hc
    rw [mem_foldl_app] at hc
    rcases hc with h | ⟨nb, hnb, hin⟩
    · simp at h
    · by_cases h1 : nb = start ∧ path.length > 1
      · rw [if_pos h1] at hin
        simp only [List.mem_singleton] at hin
        subst hin
        obtain ⟨rfl, hlen⟩ := h1
        refine ⟨by simp; omega, ?_, ?_⟩
        · rw [List.getLast?_concat]
          cases path with
          | nil => exact absurd rfl hne
          | cons a t => simpa using hhead
        · rw [List.chain'_append]
          refine ⟨hchain, List.chain'_singleton _, ?_⟩
          intro x hx y hy
          simp only [List.head?_cons, Option.mem_def, Option.some.injEq] at hy
          rw [hlast] at hx
          simp only [Option.mem_def, Option.some.injEq] at hx
          subst hx; subst hy
          exact hnb
      · rw [if_neg h1] at hin
        by_cases h2 : nb ∉ visited
        · rw [if_pos h2] at hin
          refine ih nb (path ++ [nb]) (visited ++ [nb]) c (by simp) ?_
            (List.getLast?_concat _) ?_ hin
          · cases path with
            | nil => exact absurd rfl hne
            | cons a t => simpa using hhead
          · rw [List.chain'_append]
            refine ⟨hchain, List.chain'_singleton _, ?_⟩
            intro x hx y hy
            simp only [List.head?_cons, Option.mem_def, Option.some.injEq] at hy
            rw [hlast] at hx
            simp only [Option.mem_def, Option.some.injEq] at hx
            subst hx; subst hy
            exact hnb
        · rw [if_neg h2] at hin
          simp at hin

theorem dedupCycles_sub {l : List (List String)} {c : List String}
    (h : c ∈ dedupCycles l) : c ∈ l := by
  suffices haux : ∀ (l : List (List String))
      (acc : List (List String) × List (Finset String)) (c : List String),
      c ∈ (l.foldl (fun acc cycle =>
        let key := cycle.dropLast.toFinset
        if key ∈ acc.2 then acc else (acc.1 ++ [cycle], acc.2 ++ [key])) acc).1 →
      c ∈ acc.1 ∨ c ∈ l by
    rcases haux l ([], []) c h with h' | h'
    · simp at h'
    · exact h'
  intro l
  induction l with
  | nil => intro acc c hc; exact Or.inl hc
  | cons y ys ih =>
    intro acc c hc
    simp only [List.foldl_cons] at hc
    rcases ih _ c hc with h' | h'
    · by_cases hk : y.dropLast.toFinset ∈ acc.2
      · rw [if_pos hk] at h'
        exact Or.inl h'
      · rw [if_neg hk] at h'
        simp only [List.mem_append, List.mem_singleton] at h'
        rcases h' with h' | rfl
        · exact Or.inl h'
        · exact Or.inr (by simp)
    · exact Or.inr (by simp [h'])

theorem dedupCycles_pairwise (l : List (List String)) :
    (dedupCycles l).Pairwise
      (fun c1 c2 => c1.dropLast.toFinset ≠ c2.dropLast.toFinset) := by
  suffices haux : ∀ (l : List (List String))
      (acc : List (List String) × List (Finset String)),
      (acc.1.Pairwise fun c1 c2 => c1.dropLast.toFinset ≠ c2.dropLast.toFinset) →
      (∀ c ∈ acc.1, c.dropLast.toFinset ∈ acc.2) →
      ((l.foldl (fun acc cycle =>
        let key := cycle.dropLast.toFinset
        if key ∈ acc.2 then acc else (acc.1 ++ [cycle], acc.2 ++ [key])) acc).1.Pairwise
          fun c1 c2 => c1.dropLast.toFinset ≠ c2.dropLast.toFinset) ∧
      (∀ c ∈ (l.foldl (fun acc cycle =>
        let key := cycle.dropLast.toFinset
        if key ∈ acc.2 then acc else (acc.1 ++ [cycle], acc.2 ++ [key])) acc).1,
        c.dropLast.toFinset ∈ (l.foldl (fun acc cycle =>
          let key := cycle.dropLast.toFinset
          if key ∈ acc.2 then acc else (acc.1 ++ [cycle], acc.2 ++ [key])) acc).2) by
    exact (haux l ([], []) (by simp) (by simp)).1
  intro l
  induction l with
  | nil => intro acc h1 h2; exact ⟨h1, h2⟩
  | cons y ys ih =>
    intro acc h1 h2
    simp only [List.foldl_cons]
    by_cases hk : y.dropLast.toFinset ∈ acc.2
    · rw [if_pos hk]
      exact ih acc h1 h2
    · rw [if_neg hk]
      refine ih _ ?_ ?_
      · rw [List.pairwise_append]
        refine ⟨h1, List.pairwise_singleton _ _, ?_⟩
        intro a ha b hb
        simp only [List.mem_singleton] at hb
        subst hb
        intro heq
        exact hk (heq ▸ h2 a ha)
      · intro c hc
        simp only [List.mem_append, List.mem_singleton] at hc
        rcases hc with hc | rfl
        · simp [h2 c hc]
        · simp

theorem find_cycles_sound (d : Diagram) :
    ∀ c ∈ find_cycles d, IsCycleOf (adjOf d.edges) c := by
  intro c hc
  have hraw := dedupCycles_sub hc
  suffices haux : ∀ (l : List Node) (acc : List (List String) × List String),
      c ∈ (l.foldl (fun acc node =>
        if node.id ∈ acc.2 then acc
        else (acc.1 ++ cycleDfs (adjOf d.edges) node.id (d.edges.length + 1)
                node.id [node.id] [node.id],
              acc.2 ++ [node.id])) acc).1 →
      c ∈ acc.1 ∨ ∃ v : String,
        c ∈ cycleDfs (adjOf d.edges) v (d.edges.length + 1) v [v] [v] by
    rcases haux d.nodes ([], []) hraw with h | ⟨v, hv⟩
    · simp at h
    · exact cycleDfs_sound (adjOf d.edges) v _ v [v] [v] c (by simp) rfl rfl
        (List.chain'_singleton _) hv
  intro l
  induction l with
  | nil => intro acc h; exact Or.inl h
  | cons y ys ih =>
    intro acc h
    simp only [List.foldl_cons] at h
    rcases ih _ h with h' | h'
    · by_cases hk : y.id ∈ acc.2
      · rw [if_pos hk] at h'
        exact Or.inl h'
      · rw [if_neg hk] at h'
        simp only [List.mem_append] at h'
        rcases h' with h' | h'
        · exact Or.inl h'
        · exact Or.inr ⟨y.id, h'⟩
    · exact Or.inr h'



/-- C7: (1) on the triangle `A→B`, `B→C`, `C→A`, `find_cycles` reports
exactly one cycle, whose member set is `{A, B, C}`; (2) on every
acyclic graph (no directed closed walk) it returns the empty list;
(3) the reported cycles always have pairwise distinct member sets —
duplicates reached from different start nodes are deduplicated by the
unordered set of members. -/
theorem find_cycles_spec :
    (find_cycles triangleDiagram = [["A", "B", "C", "A"]] ∧
      ["A", "B", "C", "A"].dropLast.toFinset = ({"A", "B", "C"} : Finset String)) ∧
    (∀ d : Diagram, Acyclic (adjOf d.edges) → find_cycles d = []) ∧
    (∀ d : Diagram, (find_cycles d).Pairwise
      (fun c1 c2 => c1.dropLast.toFinset ≠ c2.dropLast.toFinset)) := by
  refine ⟨⟨by decide, by decide⟩, ?_, fun d => dedupCycles_pairwise _⟩
  intro d hac
  rw [List.eq_nil_iff_forall_not_mem]
  intro c hc
  exact hac ⟨c, find_cycles_sound d c hc⟩

/-- Witness for C7's acyclic part at a concrete acyclic diagram. -/
theorem find_cycles_spec_witness : find_cycles acyclicDiagram = [] :=
  find_cycles_spec.2.1 acyclicDiagram (by
    rintro ⟨p, hlen, _, hch⟩
    cases p with
    | nil => simp at hlen
    | cons a t =>
      cases t with
      | nil => simp at hlen
      | cons b r =>
        rw [List.chain'_cons] at hch
        exact absurd hch.1 (by simp [adjOf, acyclicDiagram]))

-- ============================ Claims ==================================

/-- C9: `align_nodes` with a selection matching fewer than 2 nodes and
`distribute_nodes` with a selection matching fewer than 3 nodes both
return the failure flag and leave every node (hence every position)
unchanged. -/
theorem align_distribute_boundary :
    (∀ (nodes : List Node) (node_ids : List String) (alignment : String),
      (nodes.filter (fun n => decide (n.id ∈ node_ids))).length < 2 →
      align_nodes nodes node_ids alignment = (false, nodes)) ∧
    (∀ (nodes : List Node) (node_ids : List String) (axis : String),
      (nodes.filter (fun n => decide (n.id ∈ node_ids))).length < 3 →
      distribute_nodes nodes node_ids axis = (false, nodes)) := by
  constructor
  · intro nodes node_ids alignment h
    simp [align_nodes, h]
  · intro nodes node_ids axis h
    simp [distribute_nodes, h]

/-- Witness for C9 at concrete inputs: a single selected node for
align, two selected nodes for distribute. -/
theorem align_distribute_boundary_witness :
    align_nodes [({ id := "A" } : Node)] ["A"] "left" =
      (false, [({ id := "A" } : Node)]) ∧
    distribute_nodes [({ id := "A" } : Node), ({ id := "B" } : Node)]
      ["A", "B"] "horizontal" =
      (false, [({ id := "A" } : Node), ({ id := "B" } : Node)]) :=
  ⟨align_distribute_boundary.1 _ _ _ (by decide),
   align_distribute_boundary.2 _ _ _ (by decide)⟩

/-- C10: while a diagram is active, `DiagramManager.align_nodes` and
`DiagramManager.distribute_nodes` push a snapshot of the pre-call
diagram and clear the redo stack (via `_save_to_history`) before the
core node-count check runs — so this happens even when the call fails,
in which case the diagram itself is left unchanged. -/
theorem layout_saves_history_first :
    ∀ (s : MState) {d : Diagram} (node_ids : List String) (alignment axis : String),
      s.diagram = some d →
      ((mgr_align_nodes s node_ids alignment).1.history = (save_to_history s).history ∧
       (mgr_align_nodes s node_ids alignment).1.future = [] ∧
       (0 < s.max_history →
         (mgr_align_nodes s node_ids alignment).1.history.head? = some d.to_json_dict) ∧
       ((mgr_align_nodes s node_ids alignment).2 = false →
         (mgr_align_nodes s node_ids alignment).1.diagram = some d)) ∧
      ((mgr_distribute_nodes s node_ids axis).1.history = (save_to_history s).history ∧
       (mgr_distribute_nodes s node_ids axis).1.future = [] ∧
       (0 < s.max_history →
         (mgr_distribute_nodes s node_ids axis).1.history.head? = some d.to_json_dict) ∧
       ((mgr_distribute_nodes s node_ids axis).2 = false →
         (mgr_distribute_nodes s node_ids axis).1.diagram = some d)) := by
  intro s d node_ids alignment axis hd
  have hsave : (save_to_history s).history =
      (if (d.to_json_dict :: s.history).length > s.max_history then
        (d.to_json_dict :: s.history).dropLast else d.to_json_dict :: s.history) := by
    simp [save_to_history, hd]
  have hhead : 0 < s.max_history →
      (save_to_history s).history.head? = some d.to_json_dict := by
    intro hmax
    rw [hsave]
    by_cases hlen : (d.to_json_dict :: s.history).length > s.max_history
    · rw [if_pos hlen]
      cases hh : s.history with
      | nil => rw [hh] at hlen; simp at hlen; omega
      | cons x t => simp [List.dropLast]
    · rw [if_neg hlen]; simp
  constructor
  · have hh1 : (mgr_align_nodes s node_ids alignment).1.history =
        (save_to_history s).history := by
      by_cases hs : (align_nodes d.nodes node_ids alignment).1
      · simp [mgr_align_nodes, hd, hs]
      · rw [Bool.not_eq_true] at hs
        simp [mgr_align_nodes, hd, hs]
    have hh2 : (mgr_align_nodes s node_ids alignment).1.future = [] := by
      by_cases hs : (align_nodes d.nodes node_ids alignment).1
      · simp [mgr_align_nodes, hd, hs, save_to_history]
      · rw [Bool.not_eq_true] at hs
        simp [mgr_align_nodes, hd, hs, save_to_history]
    refine ⟨hh1, hh2, fun hmax => hh1 ▸ hhead hmax, ?_⟩
    intro hfail
    by_cases hs : (align_nodes d.nodes node_ids alignment).1
    · simp [mgr_align_nodes, hd, hs] at hfail
    · rw [Bool.not_eq_true] at hs
      have hnodes := align_nodes_false hs
      simp [mgr_align_nodes, hd, hs, hnodes]
  · have hh1 : (mgr_distribute_nodes s node_ids axis).1.history =
        (save_to_history s).history := by
      by_cases hs : (distribute_nodes d.nodes node_ids axis).1
      · simp [mgr_distribute_nodes, hd, hs]
      · rw [Bool.not_eq_true] at hs
        simp [mgr_distribute_nodes, hd, hs]
    have hh2 : (mgr_distribute_nodes s node_ids axis).1.future = [] := by
      by_cases hs : (distribute_nodes d.nodes node_ids axis).1
      · simp [mgr_distribute_nodes, hd, hs, save_to_history]
      · rw [Bool.not_eq_true] at hs
        simp [mgr_distribute_nodes, hd, hs, save_to_history]
    refine ⟨hh1, hh2, fun hmax => hh1 ▸ hhead hmax, ?_⟩
    intro hfail
    by_cases hs : (distribute_nodes d.nodes node_ids axis).1
    · simp [mgr_distribute_nodes, hd, hs] at hfail
    · rw [Bool.not_eq_true] at hs
      have hnodes := distribute_nodes_false hs
      simp [mgr_distribute_nodes, hd, hs, hnodes]

/-- Witness for C10: a failed align call on the empty diagram still
pushed a snapshot and cleared the redo stack. -/
theorem layout_saves_history_first_witness :
    (mgr_align_nodes emptyState [] "left").1.history =
      (save_to_history emptyState).history ∧
    (mgr_align_nodes emptyState [] "left").1.future = [] ∧
    (0 < emptyState.max_history →
      (mgr_align_nodes emptyState [] "left").1.history.head? =
        some (Diagram.to_json_dict
          { id := "diagram-1", name := "Demo", nodes := [], edges := []
            metadata := { created_at := "2024-01-01T00:00:00"
                          updated_at := "2024-01-01T00:00:00" } })) ∧
    ((mgr_align_nodes emptyState [] "left").2 = false →
      (mgr_align_nodes emptyState [] "left").1.diagram =
        some { id := "diagram-1", name := "Demo", nodes := [], edges := []
               metadata := { created_at := "2024-01-01T00:00:00"
                             updated_at := "2024-01-01T00:00:00" } }) :=
  (layout_saves_history_first emptyState [] "left" "horizontal" rfl).1

/-- C3 counterexample: on a missing id the store operations return the
sentinels `None` / `False` — a normal return, not a raised `NotFound`
error.  (The `NotFound` translation only happens in the HTTP layer.) -/
theorem missing_id_cex :
    update_node emptyState "missing" {} = (emptyState, OpOutcome.returnedNone) ∧
    delete_node emptyState "missing" = (emptyState, OpOutcome.returnedFalse) ∧
    update_edge emptyState "missing" {} = (emptyState, OpOutcome.returnedNone) ∧
    delete_edge emptyState "missing" = (emptyState, OpOutcome.returnedFalse) :=
  ⟨rfl, rfl, rfl, rfl⟩

/-- C3 (amended): with an active diagram and an id that is not
indexed, `update_node`/`delete_node`/`update_edge`/`delete_edge`
return the sentinels `None`/`False` leaving the state untouched, and
the HTTP endpoints turn exactly these sentinels into 404 `NotFound`
errors. -/
theorem missing_id_sentinel_and_404 :
    ∀ (s : MState) {d : Diagram} (nid eid : String)
      (rn : UpdateNodeRequest) (re : UpdateEdgeRequest),
      s.diagram = some d → s.node_index nid = none → s.edge_index eid = none →
      update_node s nid rn = (s, .returnedNone) ∧
      delete_node s nid = (s, .returnedFalse) ∧
      update_edge s eid re = (s, .returnedNone) ∧
      delete_edge s eid = (s, .returnedFalse) ∧
      (api_update_node s nid rn).2 = .httpError 404 "Node not found" ∧
      (api_delete_node s nid).2 = .httpError 404 "Node not found" ∧
      (api_update_edge s eid re).2 = .httpError 404 "Edge not found" ∧
      (api_delete_edge s eid).2 = .httpError 404 "Edge not found" := by
  intro s d nid eid rn re hd hn he
  have h1 : update_node s nid rn = (s, .returnedNone) := by
    unfold update_node; rw [hd, hn]
  have h2 : delete_node s nid = (s, .returnedFalse) := by
    unfold delete_node; rw [hd, hn]
  have h3 : update_edge s eid re = (s, .returnedNone) := by
    unfold update_edge; rw [hd, he]
  have h4 : delete_edge s eid = (s, .returnedFalse) := by
    unfold delete_edge; rw [hd, he]
  refine ⟨h1, h2, h3, h4, ?_, ?_, ?_, ?_⟩ <;>
    simp [api_update_node, api_delete_node, api_update_edge, api_delete_edge,
      h1, h2, h3, h4, nodeEndpointResult, edgeEndpointResult]

/-- Witness for the amended C3 at a concrete state and id. -/
theorem missing_id_sentinel_and_404_witness :
    update_node emptyState "ghost" {} = (emptyState, .returnedNone) ∧
    delete_node emptyState "ghost" = (emptyState, .returnedFalse) ∧
    update_edge emptyState "ghost" {} = (emptyState, .returnedNone) ∧
    delete_edge emptyState "ghost" = (emptyState, .returnedFalse) ∧
    (api_update_node emptyState "ghost" {}).2 = .httpError 404 "Node not found" ∧
    (api_delete_node emptyState "ghost").2 = .httpError 404 "Node not found" ∧
    (api_update_edge emptyState "ghost" {}).2 = .httpError 404 "Edge not found" ∧
    (api_delete_edge emptyState "ghost").2 = .httpError 404 "Edge not found" :=
  missing_id_sentinel_and_404 emptyState "ghost" "ghost" {} {} rfl rfl rfl

/-- C5: `update_node` with only `x = 5` supplied sets `x` to 5 and
leaves every other node field equal to its pre-update value; in
general an unsupplied (`None`) field is never overwritten. -/
theorem update_node_partial_x :
    (∀ (s : MState) {d : Diagram} {node : Node} (node_id : String),
      s.diagram = some d → s.node_index node_id = some node →
      ∃ s' n', update_node s node_id { x := some 5 } = (s', .ok) ∧
        s'.node_index node_id = some n' ∧
        n'.x = 5 ∧ n'.label = node.label ∧ n'.type = node.type ∧
        n'.shape = node.shape ∧ n'.color = node.color ∧ n'.y = node.y ∧
        n'.width = node.width ∧ n'.height = node.height ∧
        n'.tags = node.tags ∧ n'.description = node.description ∧
        n'.border_style = node.border_style ∧
        n'.fill_opacity = node.fill_opacity ∧ n'.z_index = node.z_index ∧
        n'.rotation = node.rotation) ∧
    (∀ (n : Node) (r : UpdateNodeRequest),
      (r.label = none → (applyNodeUpdate n r).label = n.label) ∧
      (r.type = none → (applyNodeUpdate n r).type = n.type) ∧
      (r.shape = none → (applyNodeUpdate n r).shape = n.shape) ∧
      (r.color = none → (applyNodeUpdate n r).color = n.color) ∧
      (r.x = none → (applyNodeUpdate n r).x = n.x) ∧
      (r.y = none → (applyNodeUpdate n r).y = n.y) ∧
      (r.width = none → (applyNodeUpdate n r).width = n.width) ∧
      (r.height = none → (applyNodeUpdate n r).height = n.height) ∧
      (r.tags = none → (applyNodeUpdate n r).tags = n.tags) ∧
      (r.description = none → (applyNodeUpdate n r).description = n.description) ∧
      (r.border_style = none → (applyNodeUpdate n r).border_style = n.border_style) ∧
      (r.fill_opacity = none → (applyNodeUpdate n r).fill_opacity = n.fill_opacity) ∧
      (r.z_index = none → (applyNodeUpdate n r).z_index = n.z_index) ∧
      (r.rotation = none → (applyNodeUpdate n r).rotation = n.rotation)) := by
  constructor
  · intro s d node node_id hd hn
    unfold update_node
    rw [hd, hn]
    exact ⟨_, applyNodeUpdate node { x := some 5 }, rfl,
      by simp [omapSet], by simp [applyNodeUpdate]⟩
  · intro n r
    refine ⟨?_, ?_, ?_, ?_, ?_, ?_, ?_, ?_, ?_, ?_, ?_, ?_, ?_, ?_⟩ <;>
      (intro h; simp [applyNodeUpdate, h])

-- C6 machinery: per-entity round trips, then the list lemmas.

theorem node_model_dump_round (g : String) (n : Node) :
    nodeFromDict g n.model_dump = n := rfl

theorem edge_to_json_round (g : String) (e : Edge)
    (h1 : sideOk e.source_side) (h2 : sideOk e.target_side) :
    edgeFromDict g e.to_json_dict = some e := by
  obtain ⟨i, s, t, l, ss, ts, c, w, st, a1, a2, a3⟩ := e
  cases ss with
  | none =>
    cases ts with
    | none => simp [edgeFromDict, convert_legacy_fields, Edge.to_json_dict]
    | some v =>
      simp only [sideOk] at h2
      simp [edgeFromDict, convert_legacy_fields, Edge.to_json_dict, h2]
  | some u =>
    simp only [sideOk] at h1
    cases ts with
    | none => simp [edgeFromDict, convert_legacy_fields, Edge.to_json_dict, h1]
    | some v =>
      simp only [sideOk] at h2
      simp [edgeFromDict, convert_legacy_fields, Edge.to_json_dict, h1, h2]

theorem edges_enumFrom_round (supply : Nat → String) :
    ∀ (l : List Edge) (i : Nat),
      (∀ e ∈ l, sideOk e.source_side ∧ sideOk e.target_side) →
      (((l.map Edge.to_json_dict).enumFrom i).mapM
        fun p => edgeFromDict (supply p.1) p.2) = some l := by
  intro l
  induction l with
  | nil => intro i _; rfl
  | cons e rest ih =>
    intro i h
    have he := h e (by simp)
    have hrest : ∀ x ∈ rest, sideOk x.source_side ∧ sideOk x.target_side :=
      fun x hx => h x (by simp [hx])
    simp only [List.map_cons, List.enumFrom, List.mapM_cons]
    rw [edge_to_json_round (supply i) e he.1 he.2, ih (i + 1) hrest]
    rfl

theorem nodes_enumFrom_round (supply : Nat → String) :
    ∀ (l : List Node) (i : Nat),
      (((l.map Node.model_dump).enumFrom i).map
        fun p => nodeFromDict (supply p.1) p.2) = l := by
  intro l
  induction l with
  | nil => intro i; rfl
  | cons n rest ih =>
    intro i
    simp only [List.map_cons, List.enumFrom, List.map]
    rw [node_model_dump_round (supply i) n, ih (i + 1)]


/-- C6: (1) serializing any diagram with losslessly representable
connection sides and deserializing it gives back the same diagram
field for field; (2) building an edge from a dict carrying only the
legacy `from`/`to` endpoint keys equals building it from the dict with
the canonical `source`/`target` keys; (3) legacy endpoint keys are
consulted only when the canonical key is absent (`source` resolves as
`source`, then `from`, then `from_node`; `target` analogously). -/
theorem to_json_from_json_round (now : String) (supply : Nat → String)
    (d : Diagram) (hsd : SidesOk d) :
    Diagram.from_json_dict now supply d.to_json_dict = some d := by
  unfold Diagram.from_json_dict Diagram.to_json_dict
  rw [show (d.edges.map Edge.to_json_dict).enum =
      (d.edges.map Edge.to_json_dict).enumFrom 0 from rfl]
  rw [edges_enumFrom_round supply d.edges 0 hsd]
  simp only [Option.bind_eq_bind, Option.some_bind]
  rw [show (d.nodes.map Node.model_dump).enum =
      (d.nodes.map Node.model_dump).enumFrom 0 from rfl]
  rw [nodes_enumFrom_round supply d.nodes 0]
  rfl

theorem serialization_round_trip :
    (∀ (now : String) (supply : Nat → String) (d : Diagram),
      SidesOk d → Diagram.from_json_dict now supply d.to_json_dict = some d) ∧
    (∀ (g : String) (base : EdgeDict) (a b : String),
      edgeFromDict g (legacyEndpoints base a b) =
      edgeFromDict g (canonicalEndpoints base a b)) ∧
    (∀ e : EdgeDict,
      (convert_legacy_fields e).source = (e.source.or e.fromKey).or e.from_node ∧
      (convert_legacy_fields e).target = (e.target.or e.toKey).or e.to_node) := by
  refine ⟨to_json_from_json_round, ?_, ?_⟩
  · intro g base a b
    simp [edgeFromDict, convert_legacy_fields, legacyEndpoints, canonicalEndpoints]
  · intro e
    obtain ⟨i, s, t, f, fn, tk, tn, rest⟩ := e
    cases s <;> cases f <;> cases fn <;> cases t <;> cases tk <;> cases tn <;>
      simp [convert_legacy_fields, Option.or]


/-- Witness for C6 at the concrete diagram. -/
theorem serialization_round_trip_witness :
    Diagram.from_json_dict "2099-01-01T00:00:00" (fun _ => "gen")
      rtDiagram.to_json_dict = some rtDiagram :=
  serialization_round_trip.1 _ _ _ (by decide)

/-- C8: on a diagram with nodes `A`, `B`, `C` (all having non-empty,
non-default labels), a self-loop `A→A` and duplicate edges `A→C`,
`A→C`, the validator returns exactly three warnings — one self-loop
warning (for the loop edge), one orphan warning naming `B`, one
duplicate-edge warning flagging only the second `A→C` — and zero
errors, in the validator's fixed order (orphans first, then the
self-loop, then the duplicate). -/
theorem validator_selfloop_orphan_duplicate :
    ∀ (did nm : String) (md : DiagramMetadata) (na nb nc : Node) (e1 e2 e3 : Edge),
      na.id = "A" → nb.id = "B" → nc.id = "C" →
      labelMissing na.label = false → labelMissing nb.label = false →
      labelMissing nc.label = false →
      e1.source = "A" → e1.target = "A" →
      e2.source = "A" → e2.target = "C" →
      e3.source = "A" → e3.target = "C" →
      validate_diagram { id := did, name := nm, nodes := [na, nb, nc], edges := [e1, e2, e3], metadata := md } =
        [{ severity := .warning,
           message := "Orphan nodes (no connections): " ++ (nb.label ++ " (" ++ "B" ++ ")") },
         { severity := .warning,
           message := "Self-referencing edge (node points to itself)",
           node_id := some "A", edge_id := some e1.id },
         { severity := .warning,
           message := "Duplicate edge from " ++ "A" ++ " to " ++ "C",
           edge_id := some e3.id }] := by
  intro did nm md na nb nc e1 e2 e3 hA hB hC hlA hlB hlC h1s h1t h2s h2t h3s h3t
  simp [validate_diagram, hA, hB, hC, hlA, hlB, hlC, h1s, h1t, h2s, h2t, h3s, h3t,
    setAdd, intercalate_singleton]

/-- Witness for C8 with concrete labels and edge ids. -/
theorem validator_selfloop_orphan_duplicate_witness :
    validate_diagram { id := "d", name := "D", nodes := [{ id := "A", label := "Alpha" }, { id := "B", label := "Beta" }, { id := "C", label := "Gamma" }], edges := [{ id := "e1", source := "A", target := "A" }, { id := "e2", source := "A", target := "C" }, { id := "e3", source := "A", target := "C" }], metadata := { created_at := "t", updated_at := "t" } } =
      [{ severity := .warning,
         message := "Orphan nodes (no connections): " ++ ("Beta" ++ " (" ++ "B" ++ ")") },
       { severity := .warning,
         message := "Self-referencing edge (node points to itself)",
         node_id := some "A", edge_id := some "e1" },
       { severity := .warning,
         message := "Duplicate edge from " ++ "A" ++ " to " ++ "C",
         edge_id := some "e3" }] :=
  validator_selfloop_orphan_duplicate "d" "D" _ _ _ _ _ _ _
    rfl rfl rfl (by decide) (by decide) (by decide) rfl rfl rfl rfl rfl rfl

/-- Witness for C5: update node `A` of a one-node diagram with `x = 5`. -/
theorem update_node_partial_x_witness :
    ∃ s' n', update_node oneNodeState "A" { x := some 5 } = (s', .ok) ∧
      s'.node_index "A" = some n' ∧
      n'.x = 5 ∧ n'.label = "New Node" ∧ n'.type = "component" ∧
      n'.shape = "rectangle" ∧ n'.color = "#3478f6" ∧ n'.y = 100 ∧
      n'.width = 150 ∧ n'.height = 80 ∧
      n'.tags = [] ∧ n'.description = "" ∧
      n'.border_style = "solid" ∧
      n'.fill_opacity = 1 ∧ n'.z_index = 0 ∧
      n'.rotation = 0 :=
  update_node_partial_x.1 oneNodeState "A" rfl rfl

-- ============ Invariant preservation along operation sequences ========

theorem inv_delete_node {s : MState} (node_id : String) (hInv : Inv s) :
    Inv (delete_node s node_id).1 := by
  cases hd : s.diagram with
  | none =>
    have h : (delete_node s node_id).1 = s := by simp [delete_node, hd]
    rw [h]; exact hInv
  | some d =>
    cases hn : s.node_index node_id with
    | none =>
      have h : (delete_node s node_id).1 = s := by simp [delete_node, hd, hn]
      rw [h]; exact hInv
    | some node =>
      obtain ⟨s', heq, _, hinv', _, _, _, _, _⟩ := delete_node_spec hd hn hInv
      rw [heq]
      exact hinv'

/-- Each well-formed operation preserves the store invariant. -/
theorem inv_applyOp {s : MState} (op : Op) (hInv : Inv s) (hwf : WFOp s op) :
    Inv (applyOp s op).1 := by
  cases op with
  | addNode n => exact inv_add_node n hInv hwf.1 hwf.2
  | updateNode nid r => exact inv_update_node nid r hInv hwf
  | deleteNode nid => exact inv_delete_node nid hInv
  | addEdge eid src tgt lbl ss ts =>
    exact inv_add_edge eid src tgt lbl ss ts hInv hwf.1
  | updateEdge eid r => exact inv_update_edge eid r hInv
  | deleteEdge eid => exact inv_delete_edge eid hInv
  | bulkUpdateTags ids a rm => exact inv_bulk_update_tags ids a rm hInv
  | updateDiagramInfo n g sg => exact inv_update_diagram_info n g sg hInv

theorem runOps_eq (s : MState) (ops : List Op) :
    runOps s ops = ops.foldl opsStep (s, true) := rfl

theorem opsStep_foldl_fst (ops : List Op) : ∀ (s : MState) (b c : Bool),
    (ops.foldl opsStep (s, b)).1 = (ops.foldl opsStep (s, c)).1 := by
  induction ops with
  | nil => intro s b c; rfl
  | cons op rest ih =>
    intro s b c
    simp only [List.foldl_cons]
    exact ih (applyOp s op).1 _ _

theorem opsStep_foldl_snd (ops : List Op) : ∀ (s : MState) (b : Bool),
    (ops.foldl opsStep (s, b)).2 = (b && (ops.foldl opsStep (s, true)).2) := by
  induction ops with
  | nil => intro s b; simp
  | cons op rest ih =>
    intro s b
    simp only [List.foldl_cons]
    have e1 : opsStep (s, b) op =
        ((applyOp s op).1, b && decide ((applyOp s op).2 = OpOutcome.ok)) := rfl
    have e2 : opsStep (s, true) op =
        ((applyOp s op).1, true && decide ((applyOp s op).2 = OpOutcome.ok)) := rfl
    rw [e1, e2, ih (applyOp s op).1 (b && decide ((applyOp s op).2 = OpOutcome.ok)),
      ih (applyOp s op).1 (true && decide ((applyOp s op).2 = OpOutcome.ok)),
      Bool.true_and, Bool.and_assoc]

theorem runOps_cons_fst (s : MState) (op : Op) (rest : List Op) :
    (runOps s (op :: rest)).1 = (runOps (applyOp s op).1 rest).1 := by
  rw [runOps_eq, runOps_eq, List.foldl_cons]
  exact opsStep_foldl_fst rest (applyOp s op).1 _ _

theorem runOps_cons_snd (s : MState) (op : Op) (rest : List Op) :
    (runOps s (op :: rest)).2 =
      (decide ((applyOp s op).2 = OpOutcome.ok) &&
        (runOps (applyOp s op).1 rest).2) := by
  rw [runOps_eq, runOps_eq, List.foldl_cons]
  have e1 : opsStep (s, true) op =
      ((applyOp s op).1, true && decide ((applyOp s op).2 = OpOutcome.ok)) := rfl
  rw [e1, opsStep_foldl_snd rest (applyOp s op).1
    (true && decide ((applyOp s op).2 = OpOutcome.ok)), Bool.true_and]

/-- The store invariant holds after any well-formed operation sequence. -/
theorem inv_runOps : ∀ (ops : List Op) (s : MState), Inv s → WFOps s ops →
    Inv (runOps s ops).1 := by
  intro ops
  induction ops with
  | nil => intro s h _; exact h
  | cons op rest ih =>
    intro s h hw
    rw [runOps_cons_fst]
    exact ih (applyOp s op).1 (inv_applyOp op h hw.1) hw.2

/-- The invariant holds on a freshly created empty diagram. -/
theorem inv_emptyState : Inv emptyState := by
  refine ⟨?_, ?_, ⟨?_, ?_⟩, ⟨?_, ?_⟩, ?_, ?_, ?_, ?_⟩ <;>
    simp [emptyState, new_diagram, rebuild_indexes, initManager, liveNodes, liveEdges]

/-- C2: after any sequence of well-formed add/update/delete operations
starting from an invariant-satisfying store, each set-valued index
agrees exactly with the live collections: an id is in the tag index
under `t` iff a live node with that id carries tag `t`; an id is in the
type index under `ty` iff a live node with that id has type `ty`; and
an edge id is in the incident-edge index under `v` iff a live edge with
that id has `v` as source or target. -/
theorem index_consistency (ops : List Op) (s0 : MState)
    (hInv : Inv s0) (hwf : WFOps s0 ops) :
    (∀ t i, i ∈ (runOps s0 ops).1.tag_index t ↔
      ∃ n ∈ liveNodes (runOps s0 ops).1, n.id = i ∧ t ∈ n.tags) ∧
    (∀ ty i, i ∈ (runOps s0 ops).1.type_index ty ↔
      ∃ n ∈ liveNodes (runOps s0 ops).1, n.id = i ∧ n.type = ty) ∧
    (∀ v ei, ei ∈ (runOps s0 ops).1.edges_by_node v ↔
      ∃ e ∈ liveEdges (runOps s0 ops).1, e.id = ei ∧
        (e.source = v ∨ e.target = v)) := by
  obtain ⟨_, _, _, _, t5, t6, t7, _⟩ := inv_runOps ops s0 hInv hwf
  exact ⟨t5, t6, t7⟩

/-- Witness for C2 on the concrete three-operation demo run. -/
theorem index_consistency_witness :
    ("A" ∈ cascadeDemoState.tag_index "t" ↔
      ∃ n ∈ liveNodes cascadeDemoState, n.id = "A" ∧ "t" ∈ n.tags) ∧
    ("A" ∈ cascadeDemoState.type_index "component" ↔
      ∃ n ∈ liveNodes cascadeDemoState, n.id = "A" ∧ n.type = "component") ∧
    ("e1" ∈ cascadeDemoState.edges_by_node "A" ↔
      ∃ e ∈ liveEdges cascadeDemoState, e.id = "e1" ∧
        (e.source = "A" ∨ e.target = "A")) := by
  have h := index_consistency cascadeDemoOps emptyState inv_emptyState
    ⟨⟨by decide, by decide⟩, ⟨by decide, by decide⟩,
      ⟨by decide, by decide, by decide⟩, trivial⟩
  exact ⟨h.1 "t" "A", h.2.1 "component" "A", h.2.2 "A" "e1"⟩

/-- C4: deleting a node present in the active diagram succeeds, removes
exactly that node from the node collection and exactly the edges whose
source or target is that node from the edge collection (every other
node and edge is kept, in order), and unindexes the removed node and
every removed edge. -/
theorem delete_node_cascade {s : MState} {d : Diagram} {node : Node}
    (node_id : String) (hd : s.diagram = some d)
    (hn : s.node_index node_id = some node) (hInv : Inv s) :
    ∃ s', delete_node s node_id = (s', .ok) ∧
      liveNodes s' = (liveNodes s).filter (fun n => decide (n.id ≠ node_id)) ∧
      liveEdges s' = (liveEdges s).filter (fun e => decide (¬(e.source = node_id ∨ e.target = node_id))) ∧
      s'.node_index node_id = none ∧
      (∀ e ∈ liveEdges s, (e.source = node_id ∨ e.target = node_id) →
        s'.edge_index e.id = none) := by
  have hln : liveNodes s = d.nodes := by unfold liveNodes; rw [hd]
  have hle : liveEdges s = d.edges := by unfold liveEdges; rw [hd]
  obtain ⟨s', h1, h2, _, h4, h5, _, _, _⟩ := delete_node_spec hd hn hInv
  refine ⟨s', h1, ?_, ?_, h4, ?_⟩
  · rw [hln]; unfold liveNodes; rw [h2]
  · rw [hle]; unfold liveEdges; rw [h2]
  · rw [hle]; exact h5

/-- Witness for C4: deleting node `A` of the demo store cascades edge
`e1` away while node `B` survives. -/
theorem delete_node_cascade_witness :
    ∃ s', delete_node cascadeDemoState "A" = (s', .ok) ∧
      liveNodes s' = (liveNodes cascadeDemoState).filter (fun n => decide (n.id ≠ "A")) ∧
      liveEdges s' = (liveEdges cascadeDemoState).filter (fun e => decide (¬(e.source = "A" ∨ e.target = "A"))) ∧
      s'.node_index "A" = none ∧
      (∀ e ∈ liveEdges cascadeDemoState, (e.source = "A" ∨ e.target = "A") →
        s'.edge_index e.id = none) :=
  delete_node_cascade "A" rfl rfl
    (inv_runOps cascadeDemoOps emptyState inv_emptyState
      ⟨⟨by decide, by decide⟩, ⟨by decide, by decide⟩,
        ⟨by decide, by decide, by decide⟩, trivial⟩)

-- ==================== History-shape machinery for undo/redo ===========

theorem rebuild_diagram_eq (s : MState) : (rebuild_indexes s).diagram = s.diagram := by
  unfold rebuild_indexes; cases hd : s.diagram <;> simp [hd]

theorem rebuild_history_eq (s : MState) : (rebuild_indexes s).history = s.history := by
  unfold rebuild_indexes; cases hd : s.diagram <;> simp [hd]

theorem rebuild_future_eq (s : MState) : (rebuild_indexes s).future = s.future := by
  unfold rebuild_indexes; cases hd : s.diagram <;> simp [hd]

theorem rebuild_max_history_eq (s : MState) :
    (rebuild_indexes s).max_history = s.max_history := by
  unfold rebuild_indexes; cases hd : s.diagram <;> simp [hd]

/-- A history snapshot of a serializable diagram restores to the very
same diagram. -/
theorem restore_round {d : Diagram} (hsd : SidesOk d) :
    restore_from_snapshot d.to_json_dict = some d :=
  to_json_from_json_round _ _ d hsd

theorem sideOk_or {ro eo : Option String} (hro : ∀ v, ro = some v → v ≠ "")
    (heo : sideOk eo) : sideOk (ro.or eo) := by
  cases ro with
  | none => simpa [Option.or] using heo
  | some v => exact hro v rfl

theorem save_history_eq {s : MState} {d : Diagram} (hd : s.diagram = some d) :
    (save_to_history s).history =
      if (d.to_json_dict :: s.history).length > s.max_history
      then (d.to_json_dict :: s.history).dropLast
      else d.to_json_dict :: s.history := by
  simp [save_to_history, hd]

/-- Pushing a snapshot keeps the whole pushed entry and trims at most
one entry off the old tail, provided the bound is at least one. -/
theorem save_hist_decomp {s : MState} {d : Diagram} (hd : s.diagram = some d)
    (hmax : 1 ≤ s.max_history) :
    ∃ m1, (save_to_history s).history = d.to_json_dict :: s.history.take m1 ∧
      min s.history.length (s.max_history - 1) ≤ m1 ∧
      m1 ≤ s.history.length := by
  rw [save_history_eq hd]
  by_cases hc : (d.to_json_dict :: s.history).length > s.max_history
  · rw [if_pos hc]
    cases hh : s.history with
    | nil =>
      exfalso
      rw [hh] at hc
      simp at hc
      omega
    | cons c cs =>
      rw [hh] at hc
      simp only [List.length_cons] at hc
      refine ⟨cs.length, ?_, ?_, ?_⟩
      · rw [List.dropLast_eq_take]
        simp
      · simp only [List.length_cons]
        omega
      · simp
  · rw [if_neg hc]
    exact ⟨s.history.length, by rw [List.take_length], by omega, le_refl _⟩

/-- Mapping a function over a diagram's nodes under `Option.map`
yields a diagram with the same edges. -/
theorem map_nodes_edges (f : Node → Node) {o : Option Diagram} {dd : Diagram}
    (h : o = some dd) :
    ∃ d2, o.map (fun d0 => { d0 with nodes := d0.nodes.map f }) = some d2 ∧
      d2.edges = dd.edges := by
  subst h
  exact ⟨_, rfl, rfl⟩

/-- `bulk_update_tags`'s fold keeps the history stack, the future
stack, the bound, and the edge collection unchanged. -/
theorem bulk_fold_weak (addl reml : List String) :
    ∀ (ids : List String) (st : MState) (b : Bool),
      ((ids.foldl (fun (p : MState × Bool) nid =>
          let q := bulkStep addl reml p.1 nid
          (q.1, p.2 || q.2)) (st, b)).1.history = st.history ∧
        (ids.foldl (fun (p : MState × Bool) nid =>
          let q := bulkStep addl reml p.1 nid
          (q.1, p.2 || q.2)) (st, b)).1.future = st.future ∧
        (ids.foldl (fun (p : MState × Bool) nid =>
          let q := bulkStep addl reml p.1 nid
          (q.1, p.2 || q.2)) (st, b)).1.max_history = st.max_history) ∧
      (∀ dd, st.diagram = some dd → ∃ d2,
        (ids.foldl (fun (p : MState × Bool) nid =>
          let q := bulkStep addl reml p.1 nid
          (q.1, p.2 || q.2)) (st, b)).1.diagram = some d2 ∧ d2.edges = dd.edges) := by
  intro ids
  induction ids with
  | nil =>
    intro st b
    exact ⟨⟨rfl, rfl, rfl⟩, fun dd hdd => ⟨dd, hdd, rfl⟩⟩
  | cons nid rest ih =>
    intro st b
    have hbf : (bulkStep addl reml st nid).1.history = st.history ∧
        (bulkStep addl reml st nid).1.future = st.future ∧
        (bulkStep addl reml st nid).1.max_history = st.max_history := by
      cases hni : st.node_index nid <;> simp [bulkStep, hni]
    have hbd : ∀ dd, st.diagram = some dd → ∃ d2,
        (bulkStep addl reml st nid).1.diagram = some d2 ∧ d2.edges = dd.edges := by
      intro dd hdd
      cases hni : st.node_index nid with
      | none => exact ⟨dd, by simp [bulkStep, hni, hdd], rfl⟩
      | some node =>
        simp only [bulkStep, hni]
        exact map_nodes_edges _ hdd
    rw [List.foldl_cons]
    constructor
    · obtain ⟨g1, g2, g3⟩ :=
        (ih (bulkStep addl reml st nid).1 (b || (bulkStep addl reml st nid).2)).1
      exact ⟨g1.trans hbf.1, g2.trans hbf.2.1, g3.trans hbf.2.2⟩
    · intro dd hdd
      obtain ⟨d2, hd2, he2⟩ := hbd dd hdd
      obtain ⟨d3, hd3, he3⟩ :=
        (ih (bulkStep addl reml st nid).1 (b || (bulkStep addl reml st nid).2)).2 d2 hd2
      exact ⟨d3, hd3, he3.trans he2⟩

/-- Shape of the state after a successful operation: the current
diagram is snapshotted onto the history (evicting at most the oldest
old entry), the redo stack is cleared, the bound is unchanged, and a
serializable diagram stays serializable for well-formed inputs. -/
theorem applyOp_ok_shape {s s' : MState} {op : Op} (hInv : Inv s)
    (h : applyOp s op = (s', .ok)) :
    ∃ d, s.diagram = some d ∧
      s'.history = (save_to_history s).history ∧
      s'.future = [] ∧
      s'.max_history = s.max_history ∧
      ∃ d', s'.diagram = some d' ∧
        (SidesOk d → WFOp s op → SidesOk d') := by
  cases op with
  | addNode n =>
    cases hd : s.diagram with
    | none => simp [applyOp, add_node, hd] at h
    | some d =>
      have hs : (applyOp s (Op.addNode n)).1 = s' := by rw [h]
      refine ⟨d, rfl, ?_, ?_, ?_,
        ⟨{ d with nodes := d.nodes ++ [n] }, ?_, fun hsd _ => hsd⟩⟩ <;>
        rw [← hs] <;>
        simp [applyOp, add_node, hd, indexNode, save_future_nil hd,
          save_max_history_eq, save_diagram_eq]
  | updateNode nid r =>
    cases hd : s.diagram with
    | none => simp [applyOp, update_node, hd] at h
    | some d =>
      cases hn : s.node_index nid with
      | none => simp [applyOp, update_node, hd, hn] at h
      | some node =>
        have hs : (applyOp s (Op.updateNode nid r)).1 = s' := by rw [h]
        refine ⟨d, rfl, ?_, ?_, ?_,
          ⟨{ d with nodes := d.nodes.map (fun m => if m.id = nid then applyNodeUpdate m r else m) }, ?_, fun hsd _ => hsd⟩⟩ <;>
          rw [← hs] <;>
          simp [applyOp, update_node, hd, hn, save_future_nil hd,
            save_max_history_eq, save_diagram_eq]
  | deleteNode nid =>
    cases hd : s.diagram with
    | none => simp [applyOp, delete_node, hd] at h
    | some d =>
      cases hn : s.node_index nid with
      | none => simp [applyOp, delete_node, hd, hn] at h
      | some node =>
        obtain ⟨s2, heq, hdia, _, _, _, hh, hf, hm⟩ := delete_node_spec hd hn hInv
        have h' : delete_node s nid = (s', .ok) := h
        rw [heq] at h'
        injection h' with h1 h2
        subst h1
        exact ⟨d, rfl, hh, hf, hm,
          ⟨_, hdia, fun hsd _ e he => hsd e (List.mem_filter.mp he).1⟩⟩
  | addEdge eid src tgt lbl ss ts =>
    cases hd : s.diagram with
    | none => simp [applyOp, add_edge, hd] at h
    | some d =>
      by_cases hst : src = "" ∨ tgt = ""
      · simp [applyOp, add_edge, hd, hst] at h
      · cases hsi : s.node_index src with
        | none => simp [applyOp, add_edge, hd, hst, hsi] at h
        | some nsrc =>
          cases hti : s.node_index tgt with
          | none => simp [applyOp, add_edge, hd, hst, hsi, hti] at h
          | some ntgt =>
            have hs : (applyOp s (Op.addEdge eid src tgt lbl ss ts)).1 = s' := by rw [h]
            refine ⟨d, rfl, ?_, ?_, ?_,
              ⟨{ d with edges := d.edges ++ [{ id := eid, source := src, target := tgt, label := lbl, source_side := ss, target_side := ts }] }, ?_, ?_⟩⟩
            · rw [← hs]
              simp [applyOp, add_edge, hd, hst, hsi, hti, indexEdge]
            · rw [← hs]
              simp [applyOp, add_edge, hd, hst, hsi, hti, indexEdge, save_future_nil hd]
            · rw [← hs]
              simp [applyOp, add_edge, hd, hst, hsi, hti, indexEdge, save_max_history_eq]
            · rw [← hs]
              simp [applyOp, add_edge, hd, hst, hsi, hti, indexEdge, save_diagram_eq]
            · intro hsd hwf e he
              rcases List.mem_append.mp he with h1 | h1
              · exact hsd e h1
              · rw [List.mem_singleton.mp h1]
                exact ⟨hwf.2.1, hwf.2.2⟩
  | updateEdge eid r =>
    cases hd : s.diagram with
    | none => simp [applyOp, update_edge, hd] at h
    | some d =>
      cases he : s.edge_index eid with
      | none => simp [applyOp, update_edge, hd, he] at h
      | some edge =>
        have hs : (applyOp s (Op.updateEdge eid r)).1 = s' := by rw [h]
        refine ⟨d, rfl, ?_, ?_, ?_,
          ⟨{ d with edges := d.edges.map (fun e => if e.id = eid then applyEdgeUpdate e r else e) }, ?_, ?_⟩⟩
        · rw [← hs]
          simp [applyOp, update_edge, hd, he]
        · rw [← hs]
          simp [applyOp, update_edge, hd, he, save_future_nil hd]
        · rw [← hs]
          simp [applyOp, update_edge, hd, he, save_max_history_eq]
        · rw [← hs]
          simp [applyOp, update_edge, hd, he, save_diagram_eq]
        · intro hsd hwf e' he'
          obtain ⟨e, hme, heq2⟩ := List.mem_map.mp he'
          by_cases hid : e.id = eid
          · rw [← heq2, if_pos hid]
            exact ⟨sideOk_or hwf.1 (hsd e hme).1, sideOk_or hwf.2 (hsd e hme).2⟩
          · rw [← heq2, if_neg hid]
            exact hsd e hme
  | deleteEdge eid =>
    cases hd : s.diagram with
    | none => simp [applyOp, delete_edge, hd] at h
    | some d =>
      cases he : s.edge_index eid with
      | none => simp [applyOp, delete_edge, hd, he] at h
      | some edge =>
        have hs : (applyOp s (Op.deleteEdge eid)).1 = s' := by rw [h]
        refine ⟨d, rfl, ?_, ?_, ?_,
          ⟨{ d with edges := d.edges.filter (fun e => decide (e.id ≠ eid)) }, ?_, fun hsd _ e he2 => hsd e (List.mem_filter.mp he2).1⟩⟩ <;>
          rw [← hs] <;>
          simp [applyOp, delete_edge, hd, he, unindexEdge, save_future_nil hd,
            save_max_history_eq, save_diagram_eq]
  | bulkUpdateTags ids a rm =>
    cases hd : s.diagram with
    | none => simp [applyOp, bulk_update_tags, hd] at h
    | some d =>
      have hs : (applyOp s (Op.bulkUpdateTags ids a rm)).1 = s' := by rw [h]
      obtain ⟨⟨f1, f2, f3⟩, fdia⟩ :=
        bulk_fold_weak (a.getD []) (rm.getD []) ids (save_to_history s) false
      obtain ⟨d1, hd1, hedges⟩ := fdia d ((save_diagram_eq s).trans hd)
      refine ⟨d, rfl, ?_, ?_, ?_,
        ⟨d1, ?_, fun hsd _ e he2 => hsd e (hedges ▸ he2)⟩⟩ <;>
        rw [← hs] <;>
        simp only [applyOp, bulk_update_tags, hd] <;>
        split
      · exact f1
      · exact f1
      · exact f2.trans (save_future_nil hd)
      · exact f2.trans (save_future_nil hd)
      · exact f3.trans (save_max_history_eq s)
      · exact f3.trans (save_max_history_eq s)
      · exact hd1
      · exact hd1
  | updateDiagramInfo nm g sg =>
    cases hd : s.diagram with
    | none => simp [applyOp, update_diagram_info, hd] at h
    | some d =>
      have hs : (applyOp s (Op.updateDiagramInfo nm g sg)).1 = s' := by rw [h]
      refine ⟨d, rfl, ?_, ?_, ?_,
        ⟨{ d with name := nm.getD d.name, metadata := { d.metadata with grid_size := g.getD d.metadata.grid_size, show_grid := sg.getD d.metadata.show_grid } }, ?_, fun hsd _ => hsd⟩⟩ <;>
        rw [← hs] <;>
        simp [applyOp, update_diagram_info, hd, save_future_nil hd,
          save_max_history_eq, save_diagram_eq]

/-- Shape of the store after a successful well-formed run: the final
history is the chain of pre-operation snapshots (newest first) on top
of a prefix of the original history, the redo stack is clear, the
bound is unchanged, and every snapshot is serializable.  The prefix
keeps at least `max_history - N` old entries, so with `N ≤ max_history`
no pushed snapshot is ever evicted. -/
theorem runOps_shape :
    ∀ (ops : List Op) (s : MState) (d : Diagram), Inv s → WFOps s ops →
      (runOps s ops).2 = true → s.diagram = some d → SidesOk d →
      ops.length ≤ s.max_history →
      ∃ (ds : List Diagram) (dfin : Diagram) (m : Nat),
        (runOps s ops).1.diagram = some dfin ∧
        SidesOk dfin ∧
        (∀ d2 ∈ ds, SidesOk d2) ∧
        ds.length = ops.length ∧
        (runOps s ops).1.history =
          ds.map Diagram.to_json_dict ++ s.history.take m ∧
        min s.history.length (s.max_history - ops.length) ≤ m ∧
        ds.getLast?.getD dfin = d ∧
        (ops = [] → dfin = d ∧ (runOps s ops).1.future = s.future) ∧
        (ops ≠ [] → (runOps s ops).1.future = []) ∧
        (runOps s ops).1.max_history = s.max_history := by
  intro ops
  induction ops with
  | nil =>
    intro s d hInv hwf hflag hd hsd hlen
    refine ⟨[], d, s.history.length, hd, hsd, by simp, rfl, by simp [runOps], ?_, rfl,
      fun _ => ⟨rfl, rfl⟩, fun hne => absurd rfl hne, rfl⟩
    simp
  | cons op rest ih =>
    intro s d hInv hwf hflag hd hsd hlen
    rw [runOps_cons_snd] at hflag
    simp only [Bool.and_eq_true] at hflag
    obtain ⟨hok', hflag'⟩ := hflag
    have hok : (applyOp s op).2 = OpOutcome.ok := of_decide_eq_true hok'
    have h : applyOp s op = ((applyOp s op).1, OpOutcome.ok) := by rw [← hok]
    obtain ⟨d0, hd0, hh1, hf1, hm1, d1, hdia1, hsides⟩ := applyOp_ok_shape hInv h
    rw [hd] at hd0
    injection hd0 with hdd
    subst hdd
    have hmaxpos : 1 ≤ s.max_history := by
      have := hlen
      simp only [List.length_cons] at this
      omega
    obtain ⟨m1, hsh, hm1lb, hm1ub⟩ := save_hist_decomp hd hmaxpos
    have hx1h : (applyOp s op).1.history = d.to_json_dict :: s.history.take m1 :=
      hh1.trans hsh
    have hlen1 : rest.length ≤ (applyOp s op).1.max_history := by
      rw [hm1]
      simp only [List.length_cons] at hlen
      omega
    obtain ⟨ds', dfin, m', H1, H2, H3, H4, H5, H6, H7, H8, H9, H10⟩ :=
      ih (applyOp s op).1 d1 (inv_applyOp op hInv hwf.1) hwf.2 hflag' hdia1
        (hsides hsd hwf.1) hlen1
    have hx1len : (applyOp s op).1.history.length = m1 + 1 := by
      rw [hx1h]
      simp [List.length_take]
      omega
    have hm'pos : 1 ≤ m' := by
      rw [hx1len, hm1] at H6
      simp only [List.length_cons] at hlen
      omega
    obtain ⟨k, hk⟩ : ∃ k, m' = k + 1 := ⟨m' - 1, by omega⟩
    have htake : (applyOp s op).1.history.take m' =
        d.to_json_dict :: s.history.take (min k m1) := by
      rw [hx1h, hk, List.take_succ_cons, List.take_take]
    have hc1 : (runOps s (op :: rest)).1 = (runOps (applyOp s op).1 rest).1 :=
      runOps_cons_fst s op rest
    rw [hc1]
    refine ⟨ds' ++ [d], dfin, min k m1, H1, H2, ?_, ?_, ?_, ?_, ?_,
      fun hx => (List.cons_ne_nil op rest hx).elim, ?_, H10.trans hm1⟩
    · intro d2 hd2
      rcases List.mem_append.mp hd2 with hcase | hcase
      · exact H3 d2 hcase
      · rw [List.mem_singleton.mp hcase]
        exact hsd
    · simp only [List.length_append, List.length_cons, List.length_nil, H4]
    · rw [H5, htake]
      simp [List.map_append]
    · rw [hx1len, hm1] at H6
      simp only [List.length_cons]
      simp only [List.length_cons] at hlen
      omega
    · simp [List.getLast?_concat]
    · intro _
      by_cases hre : rest = []
      · rw [(H8 hre).2]
        exact hf1
      · exact H9 hre

theorem getLastD_cons {α : Type} (d1 e : α) (rest : List α) :
    (d1 :: rest).getLast?.getD e = rest.getLast?.getD d1 := by
  cases hr : rest with
  | nil => rfl
  | cons a as =>
    rw [List.getLast?_cons_cons]
    cases hgl : (a :: as).getLast? with
    | none => simp at hgl
    | some z => rfl

/-- Undoing once per stacked snapshot: the diagram walks down the
snapshot chain, the walked-over states move onto the redo stack. -/
theorem undoN_chain :
    ∀ (ds : List Diagram) (x : MState) (e : Diagram) (old : List DiagramDict),
      x.diagram = some e →
      x.history = ds.map Diagram.to_json_dict ++ old →
      (∀ d2 ∈ ds, SidesOk d2) →
      ∃ y, undoN ds.length x = some y ∧
        y.diagram = some (ds.getLast?.getD e) ∧
        y.history = old ∧
        y.future = ((e :: ds).dropLast).reverse.map Diagram.to_json_dict ++ x.future ∧
        y.max_history = x.max_history := by
  intro ds
  induction ds with
  | nil =>
    intro x e old he hh hsd
    exact ⟨x, rfl, he, hh, rfl, rfl⟩
  | cons d1 rest ih =>
    intro x e old he hh hsd
    have hh' : x.history = d1.to_json_dict ::
        (rest.map Diagram.to_json_dict ++ old) := by simpa using hh
    have hu : undo x = some (rebuild_indexes { x with diagram := some d1, history := rest.map Diagram.to_json_dict ++ old, future := e.to_json_dict :: x.future, dirty := true }) := by
      unfold undo
      rw [hh', he]
      simp [restore_round (hsd d1 (List.mem_cons_self d1 rest))]
    have hy1d : (rebuild_indexes { x with diagram := some d1, history := rest.map Diagram.to_json_dict ++ old, future := e.to_json_dict :: x.future, dirty := true }).diagram = some d1 := by
      rw [rebuild_diagram_eq]
    have hy1h : (rebuild_indexes { x with diagram := some d1, history := rest.map Diagram.to_json_dict ++ old, future := e.to_json_dict :: x.future, dirty := true }).history = rest.map Diagram.to_json_dict ++ old := by
      rw [rebuild_history_eq]
    have hy1f : (rebuild_indexes { x with diagram := some d1, history := rest.map Diagram.to_json_dict ++ old, future := e.to_json_dict :: x.future, dirty := true }).future = e.to_json_dict :: x.future := by
      rw [rebuild_future_eq]
    have hy1m : (rebuild_indexes { x with diagram := some d1, history := rest.map Diagram.to_json_dict ++ old, future := e.to_json_dict :: x.future, dirty := true }).max_history = x.max_history := by
      rw [rebuild_max_history_eq]
    obtain ⟨y, hyN, hyd, hyh, hyf, hym⟩ :=
      ih (rebuild_indexes { x with diagram := some d1, history := rest.map Diagram.to_json_dict ++ old, future := e.to_json_dict :: x.future, dirty := true })
        d1 old hy1d hy1h (fun d2 hd2 => hsd d2 (List.mem_cons_of_mem d1 hd2))
    refine ⟨y, ?_, ?_, hyh, ?_, hym.trans hy1m⟩
    · show (undo x).bind (undoN rest.length) = some y
      rw [hu]
      exact hyN
    · rw [hyd]
      rw [getLastD_cons d1 e rest]
    · rw [hyf, hy1f, List.dropLast_cons₂]
      simp [List.reverse_cons, List.map_append]

/-- Redoing once per stacked snapshot, symmetrically. -/
theorem redoN_chain :
    ∀ (ds : List Diagram) (x : MState) (e : Diagram) (old : List DiagramDict),
      x.diagram = some e →
      x.future = ds.map Diagram.to_json_dict ++ old →
      (∀ d2 ∈ ds, SidesOk d2) →
      ∃ y, redoN ds.length x = some y ∧
        y.diagram = some (ds.getLast?.getD e) ∧
        y.future = old ∧
        y.history = ((e :: ds).dropLast).reverse.map Diagram.to_json_dict ++ x.history ∧
        y.max_history = x.max_history := by
  intro ds
  induction ds with
  | nil =>
    intro x e old he hh hsd
    exact ⟨x, rfl, he, hh, rfl, rfl⟩
  | cons d1 rest ih =>
    intro x e old he hh hsd
    have hh' : x.future = d1.to_json_dict ::
        (rest.map Diagram.to_json_dict ++ old) := by simpa using hh
    have hu : redo x = some (rebuild_indexes { x with diagram := some d1, future := rest.map Diagram.to_json_dict ++ old, history := e.to_json_dict :: x.history, dirty := true }) := by
      unfold redo
      rw [hh', he]
      simp [restore_round (hsd d1 (List.mem_cons_self d1 rest))]
    have hy1d : (rebuild_indexes { x with diagram := some d1, future := rest.map Diagram.to_json_dict ++ old, history := e.to_json_dict :: x.history, dirty := true }).diagram = some d1 := by
      rw [rebuild_diagram_eq]
    have hy1h : (rebuild_indexes { x with diagram := some d1, future := rest.map Diagram.to_json_dict ++ old, history := e.to_json_dict :: x.history, dirty := true }).future = rest.map Diagram.to_json_dict ++ old := by
      rw [rebuild_future_eq]
    have hy1f : (rebuild_indexes { x with diagram := some d1, future := rest.map Diagram.to_json_dict ++ old, history := e.to_json_dict :: x.history, dirty := true }).history = e.to_json_dict :: x.history := by
      rw [rebuild_history_eq]
    have hy1m : (rebuild_indexes { x with diagram := some d1, future := rest.map Diagram.to_json_dict ++ old, history := e.to_json_dict :: x.history, dirty := true }).max_history = x.max_history := by
      rw [rebuild_max_history_eq]
    obtain ⟨y, hyN, hyd, hyh, hyf, hym⟩ :=
      ih (rebuild_indexes { x with diagram := some d1, future := rest.map Diagram.to_json_dict ++ old, history := e.to_json_dict :: x.history, dirty := true })
        d1 old hy1d hy1h (fun d2 hd2 => hsd d2 (List.mem_cons_of_mem d1 hd2))
    refine ⟨y, ?_, ?_, hyh, ?_, hym.trans hy1m⟩
    · show (redo x).bind (redoN rest.length) = some y
      rw [hu]
      exact hyN
    · rw [hyd]
      rw [getLastD_cons d1 e rest]
    · rw [hyf, hy1f, List.dropLast_cons₂]
      simp [List.reverse_cons, List.map_append]

/-- C1: for every active serializable diagram and every well-formed
sequence of N mutating operations that all complete normally, with N
no larger than the configured history bound, calling undo N times
restores the initial diagram by value equality, and then calling redo
N times restores the post-mutation diagram. -/
theorem undo_redo_symmetry (ops : List Op) (s0 : MState) (d0 : Diagram)
    (hInv : Inv s0) (hwf : WFOps s0 ops) (hd : s0.diagram = some d0)
    (hsd : SidesOk d0) (hflag : (runOps s0 ops).2 = true)
    (hlen : ops.length ≤ s0.max_history) :
    ∃ mid fin2, undoN ops.length (runOps s0 ops).1 = some mid ∧
      mid.diagram = some d0 ∧
      redoN ops.length mid = some fin2 ∧
      fin2.diagram = (runOps s0 ops).1.diagram := by
  obtain ⟨ds, dfin, m, H1, H2, H3, H4, H5, H6, H7, H8, H9, H10⟩ :=
    runOps_shape ops s0 d0 hInv hwf hflag hd hsd hlen
  cases ops with
  | nil =>
    exact ⟨(runOps s0 []).1, (runOps s0 []).1, rfl, hd, rfl, rfl⟩
  | cons op rest =>
    have hne : (op :: rest) ≠ [] := List.cons_ne_nil op rest
    have hfut : (runOps s0 (op :: rest)).1.future = [] := H9 hne
    have hds_ne : ds ≠ [] := by
      intro hx
      rw [hx] at H4
      simp at H4
    obtain ⟨mid, hmidN, hmidd, hmidh, hmidf, hmidm⟩ :=
      undoN_chain ds (runOps s0 (op :: rest)).1 dfin (s0.history.take m) H1 H5 H3
    rw [H7] at hmidd
    rw [H4] at hmidN
    rw [hfut, List.append_nil] at hmidf
    have hsides2 : ∀ d2 ∈ ((dfin :: ds).dropLast).reverse, SidesOk d2 := by
      intro d2 hd2
      have h1 : d2 ∈ (dfin :: ds).dropLast := List.mem_reverse.mp hd2
      have h2 : d2 ∈ dfin :: ds := List.dropLast_subset _ h1
      rcases List.mem_cons.mp h2 with h3 | h3
      · rw [h3]
        exact H2
      · exact H3 d2 h3
    obtain ⟨fin2, hfinN, hfind, hfinf, hfinh, hfinm⟩ :=
      redoN_chain (((dfin :: ds).dropLast).reverse) mid d0 [] hmidd
        (by rw [List.append_nil]; exact hmidf) hsides2
    have hlen2 : (((dfin :: ds).dropLast).reverse).length = (op :: rest).length := by
      simp [List.length_reverse, List.length_dropLast, H4]
    rw [hlen2] at hfinN
    have hhead : ((dfin :: ds).dropLast).head? = some dfin := by
      cases hds2 : ds with
      | nil => exact absurd hds2 hds_ne
      | cons a as =>
        rw [List.dropLast_cons₂]
        rfl
    have hgl : (((dfin :: ds).dropLast).reverse).getLast? = some dfin := by
      rw [List.getLast?_reverse, hhead]
    rw [hgl] at hfind
    refine ⟨mid, fin2, hmidN, hmidd, hfinN, ?_⟩
    rw [hfind, H1]
    rfl

/-- Witness for C1: the three demo operations run on a fresh diagram,
then undone three times and redone three times. -/
theorem undo_redo_symmetry_witness :
    ∃ mid fin2,
      undoN cascadeDemoOps.length (runOps emptyState cascadeDemoOps).1 = some mid ∧
      mid.diagram = emptyState.diagram ∧
      redoN cascadeDemoOps.length mid = some fin2 ∧
      fin2.diagram = (runOps emptyState cascadeDemoOps).1.diagram := by
  have h := undo_redo_symmetry cascadeDemoOps emptyState _ inv_emptyState
    ⟨⟨by decide, by decide⟩, ⟨by decide, by decide⟩,
      ⟨by decide, by decide, by decide⟩, trivial⟩ rfl (by decide) (by decide)
    (by decide)
  exact h

end DiagramTool
